import Mathlib

/-!
# Toon resource manager (engines/toon/resource.cpp)

A shallow embedding of the pak archive reader (`PakFile`), the resource cache
(`Resources::getFromCache`, `Resources::addToCache`) and the resource manager
(`Resources::getFileData`, `openPackage`, `closePackage`, `openFile`), and of the hit
test of the Nuvie spell book gump (`SpellViewGump::getSpell`), followed by the
properties established about them.

Conventions of the embedding:
* a byte is a `Fin 256`; a `Common::Path` and a C string are byte strings;
* a heap buffer is the list of the bytes written into it, a null pointer is `none`;
* `uint32` quantities are naturals, every `uint32` operation is reduced modulo `2^32`;
* loops that the source writes as `while` take a fuel argument.
-/

namespace Toon

/-! ## Bytes, paths, buffers -/

abbrev Byte := Fin 256

/-- Modelled from the spec: `Common::Path` (common/path.h is outside the sources) is
taken as the byte string it wraps. -/
abbrev Path := List Byte

/-- An allocated buffer, represented by the bytes that were written into it. -/
abbrev Buffer := List Byte

/-- The C `tolower` on a byte (ASCII letters only). -/
def toLower (c : Byte) : Byte :=
  if 65 ≤ c.val ∧ c.val ≤ 90 then c + 32 else c

/-- Modelled from the spec: `Common::Path::equalsIgnoreCase`, "case-insensitive exact
match": the two names agree byte by byte after lowering ASCII letters. -/
def equalsIgnoreCase (a b : Path) : Bool :=
  a.map toLower == b.map toLower

/-- The modulus of `uint32` arithmetic. -/
def U32 : Nat := 4294967296

/-! ## Resource cache -/

/-- Modelled from the spec: `CacheEntry` (declared in toon/resource.h, outside the
sources): "container_path, file_name (cache key), age: unsigned counter, size: bytes,
data: owned byte buffer | empty-marker". A freshly constructed entry has age 0, size 0
and no data. -/
structure CacheEntry where
  _packName : Path
  _fileName : Path
  _age : Nat
  _size : Nat
  _data : Option Buffer
deriving DecidableEq

/-- The state of `CacheEntry` right after `new CacheEntry()`. -/
def CacheEntry.new : CacheEntry :=
  { _packName := [], _fileName := [], _age := 0, _size := 0, _data := none }

/-- The cache part of a `Resources` object: the slots and the running total. -/
structure Cache where
  _cacheSize : Nat
  _resourceCache : List CacheEntry
deriving DecidableEq

/-- The cache of a freshly constructed `Resources` object. -/
def Cache.empty : Cache := { _cacheSize := 0, _resourceCache := [] }

/-- The loop of `Resources::getFromCache` over the slots: on the first slot that holds
data and whose file name matches, the age is reset and `(size, data)` is returned
together with the updated slots. -/
def getFromCacheLoop (fileName : Path) :
    List CacheEntry → Option (Nat × Buffer × List CacheEntry)
  | [] => none
  | e :: es =>
    match e._data with
    | some d =>
      if equalsIgnoreCase e._fileName fileName then
        some (e._size, d, { e with _age := 0 } :: es)
      else
        (getFromCacheLoop fileName es).map (fun r => (r.1, r.2.1, e :: r.2.2))
    | none =>
      (getFromCacheLoop fileName es).map (fun r => (r.1, r.2.1, e :: r.2.2))

/-- The method `Resources::getFromCache`: `none` is the `false` return; on a hit the result
carries `*fileSize`, `*fileData` and the cache after the call. -/
def getFromCache (c : Cache) (fileName : Path) : Option (Nat × Buffer) × Cache :=
  match getFromCacheLoop fileName c._resourceCache with
  | some (sz, d, es) => (some (sz, d), { c with _resourceCache := es })
  | none => (none, c)

/-- First loop of `addToCache`: `_age++` on every slot that holds data. -/
def ageEntry (e : CacheEntry) : CacheEntry :=
  if e._data.isSome then { e with _age := e._age + 1 } else e

/-- The inner `for` loop of the eviction `while`: `best` is the current `bestEntry`
(with its slot index), `i` the index of the head of the remaining slots. -/
def scanBest : List CacheEntry → Nat → Option (Nat × CacheEntry) → Option (Nat × CacheEntry)
  | [], _, best => best
  | e :: es, i, best =>
    if e._data.isSome then
      match best with
      | none => scanBest es (i + 1) (some (i, e))
      | some (j, b) =>
        if e._age ≥ b._age ∧ e._size ≥ b._size then scanBest es (i + 1) (some (i, e))
        else scanBest es (i + 1) (some (j, b))
    else scanBest es (i + 1) best

/-- The `bestEntry` found by one pass over all slots (`none` is `nullptr`). -/
def findBestEntry (slots : List CacheEntry) : Option (Nat × CacheEntry) :=
  scanBest slots 0 none

/-- One iteration of `while (_cacheSize > MAX_CACHE_SIZE)`: `none` when the loop is left
(condition false, or `break` on a null `bestEntry`), otherwise the index of the evicted
slot and the state after `_data = nullptr; _cacheSize -= bestEntry->_size`. -/
def evictStep (maxCacheSize : Nat) (c : Cache) : Option (Nat × Cache) :=
  if c._cacheSize > maxCacheSize then
    match findBestEntry c._resourceCache with
    | none => none
    | some (i, b) =>
      some (i, { _cacheSize := (c._cacheSize + U32 - b._size % U32) % U32,
                 _resourceCache := c._resourceCache.set i { b with _data := none } })
  else none

/-- The eviction `while` loop, with fuel. -/
def evictLoop (maxCacheSize : Nat) : Nat → Cache → Cache
  | 0, c => c
  | fuel + 1, c =>
    match evictStep maxCacheSize c with
    | none => c
    | some (_, c') => evictLoop maxCacheSize fuel c'

/-- The slots evicted by the eviction loop, in the order of eviction. -/
def evictVictims (maxCacheSize : Nat) : Nat → Cache → List Nat
  | 0, _ => []
  | fuel + 1, c =>
    match evictStep maxCacheSize c with
    | none => []
    | some (i, c') => i :: evictVictims maxCacheSize fuel c'

/-- The last `for` loop of `addToCache`: the first slot without data receives the new
entry; `none` when every slot holds data (the loop falls through). -/
def placeEntry (new : CacheEntry) : List CacheEntry → Option (List CacheEntry)
  | [] => none
  | e :: es =>
    if e._data.isNone then some (new :: es)
    else (placeEntry new es).map (fun r => e :: r)

/-- State of `addToCache` when the eviction loop is entered: ages bumped, size added. -/
def agedCache (c : Cache) (fileSize : Nat) : Cache :=
  { _cacheSize := (c._cacheSize + fileSize) % U32,
    _resourceCache := c._resourceCache.map ageEntry }

/-- State of `addToCache` when the eviction loop is left. One unit of fuel per slot is
enough: every iteration that does not leave the loop empties a slot that held data. -/
def evictedCache (maxCacheSize : Nat) (c : Cache) (fileSize : Nat) : Cache :=
  evictLoop maxCacheSize c._resourceCache.length (agedCache c fileSize)

/-- The entry written by `addToCache` (into a reused slot, or a new `CacheEntry`). -/
def newEntry (packName fileName : Path) (fileSize : Nat) (fileData : Option Buffer) :
    CacheEntry :=
  { CacheEntry.new with
    _packName := packName, _fileName := fileName, _size := fileSize, _data := fileData }

/-- The method `Resources::addToCache`. -/
def addToCache (maxCacheSize : Nat) (c : Cache) (packName fileName : Path)
    (fileSize : Nat) (fileData : Option Buffer) : Cache :=
  let c2 := evictedCache maxCacheSize c fileSize
  let e := newEntry packName fileName fileSize fileData
  match placeEntry e c2._resourceCache with
  | some slots => { c2 with _resourceCache := slots }
  | none => { c2 with _resourceCache := c2._resourceCache ++ [e] }

/-- The calls a client can make on the cache: `Insert` hands over a real (non-null)
buffer, as the only caller `Resources::getFileData` does; `TryGet` is a lookup. -/
inductive CacheOp where
  | insert (packName fileName : Path) (fileSize : Nat) (fileData : Buffer)
  | tryGet (fileName : Path)
deriving DecidableEq

/-- The cache after one call. -/
def applyOp (maxCacheSize : Nat) (c : Cache) : CacheOp → Cache
  | .insert packName fileName fileSize fileData =>
    addToCache maxCacheSize c packName fileName fileSize (some fileData)
  | .tryGet fileName => (getFromCache c fileName).2

/-- The cache after a sequence of calls. -/
def runOps (maxCacheSize : Nat) (c : Cache) (ops : List CacheOp) : Cache :=
  ops.foldl (applyOp maxCacheSize) c

/-- Sum of `_size` over the slots that hold data. -/
def sumSizes : List CacheEntry → Nat
  | [] => 0
  | e :: es => (if e._data.isSome then e._size else 0) + sumSizes es

/-- Number of slots that hold data. -/
def liveCount : List CacheEntry → Nat
  | [] => 0
  | e :: es => (if e._data.isSome then 1 else 0) + liveCount es

/-! ## Pak archives -/

/-- Modelled from the spec: `PakFile::File` (declared in toon/resource.h, outside the
sources): "name: bounded string (fixed max length), offset: unsigned 32-bit, size:
unsigned 32-bit". The name is the C string held in the fixed field, without its NUL. -/
structure PakFile.File where
  _name : List Byte
  _offset : Nat
  _size : Nat
deriving DecidableEq

/-- A `PakFile` object. -/
structure PakFile where
  _packName : Path
  _numFiles : Nat
  _files : List PakFile.File
deriving DecidableEq

/-- The state after the constructor `PakFile::PakFile()`. -/
def PakFile.new : PakFile := { _packName := [], _numFiles := 0, _files := [] }

/-- The macro call `READ_LE_UINT32(buffer + i)`; `none` when the four bytes are not all inside the
array. -/
def READ_LE_UINT32 (buffer : List Byte) (i : Nat) : Option Nat :=
  match buffer.drop i with
  | b0 :: b1 :: b2 :: b3 :: _ =>
    some (b0.val + 256 * b1.val + 65536 * b2.val + 16777216 * b3.val)
  | _ => none

/-- The C `strlen`; `none` when no NUL is found inside the array. -/
def strlen : List Byte → Option Nat
  | [] => none
  | b :: bs => if b = 0 then some 0 else (strlen bs).map (fun n => n + 1)

/-- Effect of `rs->seek(pos); rs->read(buffer, n)` on `buffer`: the bytes the stream
still has from `pos` on (at most `n`) overwrite the front of the array, the rest of the
array keeps its content. -/
def readAt (rs : List Byte) (pos n : Nat) (buffer : List Byte) : List Byte :=
  (rs.drop pos).take n ++ buffer.drop ((rs.drop pos).take n).length

/-- What one iteration of the `while (1)` loop of `PakFile::open` does. -/
inductive OpenStep where
  | stop
  | next (buffer : List Byte) (currentPos : Nat) (newFile : PakFile.File)
  | undefined
deriving DecidableEq

/-- One iteration of the loop of `PakFile::open`. `nameField` is
`sizeof(newFile._name)`, of the declaration in toon/resource.h. The iteration is
`undefined` when the source reads outside `buffer[64]` (no NUL after the offset, or the
next offset not inside the array) or when the `int32` position would overflow. -/
def openStep (nameField : Nat) (rs buffer : List Byte) (currentPos : Nat) : OpenStep :=
  let buffer := readAt rs currentPos 64 buffer
  match READ_LE_UINT32 buffer 0, strlen (buffer.drop 4) with
  | some offset, some len =>
    if len = 0 then .stop
    else
      let nameSize := len + 1
      match READ_LE_UINT32 buffer (4 + nameSize) with
      | some nextOffset =>
        if currentPos + (4 + nameSize) < 2147483648 then
          .next buffer (currentPos + (4 + nameSize))
            { _name := (buffer.drop 4).take (min len (nameField - 1)),
              _offset := offset,
              _size := (nextOffset + U32 - offset) % U32 }
        else .undefined
      | none => .undefined
  | _, _ => .undefined

/-- How a run of a loop with fuel ends. -/
inductive Outcome (α : Type) where
  | done (a : α)
  | undefined
  | outOfFuel
deriving DecidableEq

/-- The `while (1)` loop of `PakFile::open`, with fuel. -/
def openLoop (nameField : Nat) (rs : List Byte) :
    Nat → List Byte → Nat → PakFile → Outcome PakFile
  | 0, _, _, _ => .outOfFuel
  | fuel + 1, buffer, currentPos, pak =>
    match openStep nameField rs buffer currentPos with
    | .stop => .done pak
    | .undefined => .undefined
    | .next buffer' currentPos' newFile =>
      openLoop nameField rs fuel buffer' currentPos'
        { pak with _numFiles := (pak._numFiles + 1) % U32, _files := pak._files ++ [newFile] }

/-- The method `PakFile::open(rs, packName)`. `buffer0` is the content of the uninitialised local
`char buffer[64]` when the function is entered. -/
def PakFile.open (nameField : Nat) (self : PakFile) (rs : List Byte) (packName : Path)
    (buffer0 : List Byte) (fuel : Nat) : Outcome PakFile :=
  openLoop nameField rs fuel buffer0 0 { self with _numFiles := 0, _packName := packName }

/-- Modelled from the spec: the file abstraction ("existence-check, open,
seek-to-absolute-offset, read, size-query, close"; common/file.h is outside the
sources). `fileExists` is `Common::File::exists`; `fileOpen` gives the content of the
file when `Common::File::open` succeeds and `none` when it fails. -/
structure FileSystem where
  fileExists : Path → Bool
  fileOpen : Path → Option (List Byte)

/-- The loop of `PakFile::getFileData` over `_files[0 .. _numFiles)`. A matching entry
whose container cannot be opened is skipped; otherwise `*fileSize = _size` and the
buffer holds what `file.read` delivered from `_offset` (allocation is taken to succeed). -/
def PakFile.getFileDataLoop (fs : FileSystem) (packName fileName : Path) :
    List PakFile.File → Option (Nat × Buffer)
  | [] => none
  | f :: rest =>
    if equalsIgnoreCase fileName f._name then
      match fs.fileOpen packName with
      | some content => some (f._size, (content.drop f._offset).take f._size)
      | none => PakFile.getFileDataLoop fs packName fileName rest
    else PakFile.getFileDataLoop fs packName fileName rest

/-- The method `PakFile::getFileData`: `none` is the null return. -/
def PakFile.getFileData (fs : FileSystem) (self : PakFile) (fileName : Path) :
    Option (Nat × Buffer) :=
  PakFile.getFileDataLoop fs self._packName fileName (self._files.take self._numFiles)

/-! ## Resource manager -/

/-- A `Resources` object: the cache, the registered readers and the registry of
directly allocated buffers. -/
structure Resources extends Cache where
  _allocatedFileData : List Buffer
  _pakFiles : List PakFile
deriving DecidableEq

/-- The state after the constructor `Resources::Resources`. -/
def Resources.new : Resources :=
  { Cache.empty with _allocatedFileData := [], _pakFiles := [] }

/-- The loop of `Resources::getFileData` over `_pakFiles`: the first reader that
returns a buffer, with its pack name. -/
def getFileDataPaks (fs : FileSystem) (fileName : Path) :
    List PakFile → Option (Path × Nat × Buffer)
  | [] => none
  | p :: ps =>
    match p.getFileData fs fileName with
    | some (sz, d) => some (p._packName, sz, d)
    | none => getFileDataPaks fs fileName ps

/-- The method `Resources::getFileData`: the returned pointer with `*fileSize` (`none` is
`nullptr`), and the state after the call. -/
def Resources.getFileData (maxCacheSize : Nat) (fs : FileSystem) (self : Resources)
    (fileName : Path) : Option (Nat × Buffer) × Resources :=
  if fs.fileExists fileName then
    match fs.fileOpen fileName with
    | none => (none, self)
    | some content =>
      let fileSize := content.length % U32
      let memory := content.take fileSize
      (some (fileSize, memory),
        { self with _allocatedFileData := self._allocatedFileData ++ [memory] })
  else
    match getFromCache self.toCache fileName with
    | (some r, c) => (some r, { self with toCache := c })
    | (none, _) =>
      match getFileDataPaks fs fileName self._pakFiles with
      | some (packName, sz, d) =>
        (some (sz, d),
          { self with toCache := addToCache maxCacheSize self.toCache packName fileName sz (some d) })
      | none => (none, self)

/-! ## Vocabulary of the statements -/

/-- The policy of the specification, in its words: slot `i` holds data, and every slot
that holds data is younger than it, or as old and smaller, or equal in both and not
earlier. -/
def SpecVictim (slots : List CacheEntry) (i : Nat) : Prop :=
  ∃ v, slots[i]? = some v ∧ v._data.isSome = true ∧
    ∀ j e, slots[j]? = some e → e._data.isSome = true →
      e._age < v._age ∨
        (e._age = v._age ∧ (e._size < v._size ∨ (e._size = v._size ∧ i ≤ j)))

/-- The candidates of the eviction scan, by its rule: the scan runs over the slots in
slot order; the first slot that holds data becomes the candidate, and the candidate is
replaced by each later slot holding data whose age and size are both at least the
candidate's. So the first slot holding data is a candidate, and when slot `j` is a
candidate, the next candidate is the first later slot holding data that is at least as
old and at least as large as slot `j`. -/
inductive ScanCandidate (slots : List CacheEntry) : Nat → CacheEntry → Prop where
  | first (i : Nat) (e : CacheEntry) :
      slots[i]? = some e → e._data.isSome = true →
      (∀ (j : Nat) (x : CacheEntry), j < i → slots[j]? = some x → x._data.isSome = false) →
      ScanCandidate slots i e
  | replace (j i : Nat) (b e : CacheEntry) :
      ScanCandidate slots j b → j < i → slots[i]? = some e → e._data.isSome = true →
      b._age ≤ e._age → b._size ≤ e._size →
      (∀ (k : Nat) (x : CacheEntry), j < k → k < i → slots[k]? = some x →
        x._data.isSome = true → ¬ (b._age ≤ x._age ∧ b._size ≤ x._size)) →
      ScanCandidate slots i e

/-- The victim by the scan's rule: the last candidate, the one that no later slot
holding data replaces. -/
def ScanVictim (slots : List CacheEntry) (i : Nat) : Prop :=
  ∃ v, ScanCandidate slots i v ∧
    ∀ (k : Nat) (x : CacheEntry), i < k → slots[k]? = some x → x._data.isSome = true →
      ¬ (v._age ≤ x._age ∧ v._size ≤ x._size)

/-- The number of `addToCache` calls in a sequence of calls. -/
def insertCount : List CacheOp → Nat
  | [] => 0
  | .insert _ _ _ _ :: rest => insertCount rest + 1
  | .tryGet _ :: rest => insertCount rest

/-- Slot `x` is left alone by the calls `ops` made from cache `c` on: every insertion
leaves its eviction loop with slot `x` still holding data (it does not evict it), and
every lookup leaves slot `x` as it is (it hits another slot, or none). -/
def LeftAlone (maxCacheSize : Nat) (x : Nat) : Cache → List CacheOp → Prop
  | _, [] => True
  | c, .insert packName fileName fileSize fileData :: rest =>
    (∃ y, (evictedCache maxCacheSize c fileSize)._resourceCache[x]? = some y ∧
      y._data.isSome = true) ∧
    LeftAlone maxCacheSize x
      (applyOp maxCacheSize c (.insert packName fileName fileSize fileData)) rest
  | c, .tryGet fileName :: rest =>
    (getFromCache c fileName).2._resourceCache[x]? = c._resourceCache[x]? ∧
    LeftAlone maxCacheSize x (applyOp maxCacheSize c (.tryGet fileName)) rest

/-- The slots that hold data, as (index, size) pairs in slot order; `i` is the index of
the head of the list. -/
def liveSlots : List CacheEntry → Nat → List (Nat × Nat)
  | [], _ => []
  | e :: es, i =>
    if e._data.isSome then (i, e._size) :: liveSlots es (i + 1) else liveSlots es (i + 1)

/-- The first slot that holds data, with its index; `i` is the index of the head. -/
def firstLive : List CacheEntry → Nat → Option (Nat × CacheEntry)
  | [], _ => none
  | e :: es, i => if e._data.isSome then some (i, e) else firstLive es (i + 1)

/-- The eviction order of the specification for a freshly filled cache: the slots in
slot order, as long as the running total exceeds the budget. `total` is the running
total, a `uint32` like `_cacheSize` (the size of an evicted slot is subtracted from it
modulo `2^32`); the list holds the (index, size) pairs of the slots in slot order. -/
def oldestFirst (maxCacheSize : Nat) : Nat → List (Nat × Nat) → List Nat
  | _, [] => []
  | total, (i, sz) :: rest =>
    if total > maxCacheSize then
      i :: oldestFirst maxCacheSize ((total + U32 - sz % U32) % U32) rest
    else []

/-- The cache after slot `i` is evicted, in the words of the specification: "free its
buffer, mark it empty, subtract its size from the running total". -/
def evictSlot (c : Cache) (i : Nat) : Cache :=
  match c._resourceCache[i]? with
  | some b =>
    { _cacheSize := (c._cacheSize + U32 - b._size % U32) % U32,
      _resourceCache := c._resourceCache.set i { b with _data := none } }
  | none => c

/-- Among the slots that hold data, age strictly decreases with the slot index. -/
def AgesDecrease (slots : List CacheEntry) : Prop :=
  slots.Pairwise (fun a b => a._data.isSome = true → b._data.isSome = true → b._age < a._age)

/-- A cache filled, from the empty cache, by consecutive insertions of buffers with no
lookup in between and none of which evicted a slot (its eviction loop was left at
once). -/
inductive FreshlyFilled (maxCacheSize : Nat) : Cache → Prop where
  | empty : FreshlyFilled maxCacheSize Cache.empty
  | insert (c : Cache) (packName fileName : Path) (fileSize : Nat) (fileData : Buffer) :
      FreshlyFilled maxCacheSize c →
      evictStep maxCacheSize (agedCache c fileSize) = none →
      FreshlyFilled maxCacheSize
        (addToCache maxCacheSize c packName fileName fileSize (some fileData))

/-! ## Well-formed containers, as the specification describes them -/

/-- The byte with value `n mod 256`. -/
def byteOf (n : Nat) : Byte := ⟨n % 256, Nat.mod_lt _ (by decide)⟩

/-- The four bytes of a little-endian 32-bit unsigned offset. -/
def le32 (n : Nat) : List Byte :=
  [byteOf n, byteOf (n / 256), byteOf (n / 65536), byteOf (n / 16777216)]

/-- The directory table of the specification: the records `(offset, name)`, each a
little-endian offset followed by the NUL-terminated name, packed without padding and
followed by the sentinel record, an offset and an empty name. -/
def encodeTable : List (Nat × List Byte) → Nat → List Byte
  | [], sentinelOffset => le32 sentinelOffset ++ [0]
  | r :: rest, sentinelOffset =>
    le32 r.1 ++ (r.2 ++ 0 :: encodeTable rest sentinelOffset)

/-- The offset field that follows a record: the next record's, or the sentinel's. -/
def headOffset : List (Nat × List Byte) → Nat → Nat
  | [], sentinelOffset => sentinelOffset
  | r :: _, _ => r.1

/-- The entries the specification expects for a table: name and offset of each record,
size the difference to the following offset modulo `2^32`. -/
def expectedFiles : List (Nat × List Byte) → Nat → List PakFile.File
  | [], _ => []
  | r :: rest, sentinelOffset =>
    { _name := r.2, _offset := r.1,
      _size := (headOffset rest sentinelOffset + U32 - r.1) % U32 } ::
      expectedFiles rest sentinelOffset

/-- A record the specification calls well formed: a 32-bit offset and a non-empty name
without NUL that fits, with its NUL and the following offset, the 64-byte read window
(`4 + length + 1 + 4 ≤ 64`) and, with its NUL, the fixed name field. -/
def WellFormedRecord (nameField : Nat) (r : Nat × List Byte) : Prop :=
  r.1 < U32 ∧ r.2 ≠ [] ∧ (0 : Byte) ∉ r.2 ∧ r.2.length ≤ 55 ∧ r.2.length + 1 ≤ nameField

/-- Length of the directory table, sentinel included, of a container holding `files`
(pairs of a name and the file's bytes). -/
def tableBytes : List (List Byte × List Byte) → Nat
  | [] => 5
  | f :: rest => 4 + (f.1.length + 1) + tableBytes rest

/-- Total length of the data of `files`. -/
def dataBytes : List (List Byte × List Byte) → Nat
  | [] => 0
  | f :: rest => f.2.length + dataBytes rest

/-- The records of the table when the data of `files` starts at offset `start`: each
offset points at the first byte of its file. -/
def recordsAt : Nat → List (List Byte × List Byte) → List (Nat × List Byte)
  | _, [] => []
  | start, f :: rest => (start, f.1) :: recordsAt (start + f.2.length) rest

/-- The data of `files`, concatenated in table order. -/
def concatData : List (List Byte × List Byte) → List Byte
  | [] => []
  | f :: rest => f.2 ++ concatData rest

/-- The container built from `files`: the directory table with its sentinel (whose
offset is the end of the data), followed by the concatenated data. -/
def buildContainer (files : List (List Byte × List Byte)) : List Byte :=
  encodeTable (recordsAt (tableBytes files) files) (tableBytes files + dataBytes files) ++
    concatData files

/-! ## Resource manager: containers and streams -/

/-- The method `Resources::removePackageFromCache`: its body is empty. -/
def Resources.removePackageFromCache (self : Resources) (_packName : Path) : Resources :=
  self

/-- The method `Resources::openPackage`: `false` and no change when the file cannot be
opened; otherwise a new `PakFile` is opened on the file's content and pushed to the back
of `_pakFiles`. `buffer0` and `fuel` are those of `PakFile::open`. -/
def Resources.openPackage (nameField : Nat) (fs : FileSystem) (self : Resources)
    (fileName : Path) (buffer0 : List Byte) (fuel : Nat) : Outcome (Bool × Resources) :=
  match fs.fileOpen fileName with
  | none => .done (false, self)
  | some content =>
    match PakFile.open nameField PakFile.new content fileName buffer0 fuel with
    | .done pakFile => .done (true, { self with _pakFiles := self._pakFiles ++ [pakFile] })
    | .undefined => .undefined
    | .outOfFuel => .outOfFuel

/-- The loop of `Resources::closePackage`: the first reader whose `getPackName()` equals
`fileName` is removed (`remove_at(i); return`). -/
def closePackageLoop (fileName : Path) : List PakFile → List PakFile
  | [] => []
  | p :: ps => if p._packName = fileName then ps else p :: closePackageLoop fileName ps

/-- The method `Resources::closePackage`. -/
def Resources.closePackage (self : Resources) (fileName : Path) : Resources :=
  { self.removePackageFromCache fileName with
    _pakFiles := closePackageLoop fileName (self.removePackageFromCache fileName)._pakFiles }

/-- A `Common::MemoryReadStream`: the buffer it wraps and the length it was given. -/
structure MemoryReadStream where
  _ptr : Buffer
  _size : Nat
deriving DecidableEq

/-- The method `PakFile::createReadStream`: a stream over the buffer of `getFileData`,
`none` (null) when `getFileData` returns null. -/
def PakFile.createReadStream (fs : FileSystem) (self : PakFile) (fileName : Path) :
    Option MemoryReadStream :=
  match self.getFileData fs fileName with
  | some (fileSize, buffer) => some { _ptr := buffer, _size := fileSize }
  | none => none

/-- The loop of `Resources::openFile` over `_pakFiles`: the first non-null stream. -/
def openFilePaks (fs : FileSystem) (fileName : Path) : List PakFile → Option MemoryReadStream
  | [] => none
  | p :: ps =>
    match p.createReadStream fs fileName with
    | some stream => some stream
    | none => openFilePaks fs fileName ps

/-- The method `Resources::openFile`: the returned stream (`none` is `nullptr`) and the
state after the call, which the function never writes. For a loose file
`file.readStream(file.size())` is the stream over the whole content. -/
def Resources.openFile (fs : FileSystem) (self : Resources) (fileName : Path) :
    Option MemoryReadStream × Resources :=
  if fs.fileExists fileName then
    match fs.fileOpen fileName with
    | some content => (some { _ptr := content, _size := content.length }, self)
    | none => (none, self)
  else (openFilePaks fs fileName self._pakFiles, self)

/-- The calls of the public interface of `Resources`, each with the file system it
finds when it is made. -/
inductive ManagerOp where
  | openPackage (fs : FileSystem) (fileName : Path) (buffer0 : List Byte) (fuel : Nat)
  | closePackage (fileName : Path)
  | getFileData (fs : FileSystem) (fileName : Path)
  | openFile (fs : FileSystem) (fileName : Path)

/-- The state after one call of the public interface; `none` when the call does not
return (the loop of `PakFile::open` does not finish). -/
def applyManagerOp (nameField maxCacheSize : Nat) (s : Resources) : ManagerOp → Option Resources
  | .openPackage fs fileName buffer0 fuel =>
    match s.openPackage nameField fs fileName buffer0 fuel with
    | .done r => some r.2
    | .undefined => none
    | .outOfFuel => none
  | .closePackage fileName => some (s.closePackage fileName)
  | .getFileData fs fileName => some (Resources.getFileData maxCacheSize fs s fileName).2
  | .openFile fs fileName => some (s.openFile fs fileName).2

/-- The state after a sequence of calls of the public interface. -/
def runManager (nameField maxCacheSize : Nat) : Resources → List ManagerOp → Option Resources
  | s, [] => some s
  | s, op :: rest =>
    match applyManagerOp nameField maxCacheSize s op with
    | some s' => runManager nameField maxCacheSize s' rest
    | none => none

/-- No two slots that hold data have file names equal up to letter case. -/
def NoDuplicateKeys (slots : List CacheEntry) : Prop :=
  slots.Pairwise (fun a b => a._data.isSome = true → b._data.isSome = true →
    equalsIgnoreCase a._fileName b._fileName = false)

/-- What the key check of the cache sees of a slot: whether it holds data, and its file
name. -/
def slotKey (e : CacheEntry) : Bool × Path := (e._data.isSome, e._fileName)

end Toon

/-! # Ultima/Nuvie spell book gump (engines/ultima/nuvie/views/spell_view_gump.cpp)

The members `level`, `cur_spells` and `area` are declared in headers outside the
sources; they are parameters here. Coordinates are integers, taken small enough that
the `int` arithmetic of the source does not overflow. -/

namespace Nuvie

/-- Conversion of an `int` to `uint8`. -/
def toUint8 (n : Int) : Int := n % 256

/-- The `for` loop of `SpellViewGump::getSpell`,
`for (uint8 i = 0; cur_spells[i] != -1 && i < 16; i++)`, with fuel. `cur_spells i` is
the value the source reads at index `i`: an entry of the array for `i < 16`, and what
lies behind the array for the read at `i = 16` that the loop test makes before it
compares `i` with 16. `none` when the fuel runs out. -/
def getSpellLoop (cur_spells : Nat → Int) (spell : Int) : Nat → Nat → Option Int
  | 0, _ => none
  | fuel + 1, i =>
    if cur_spells i ≠ -1 ∧ i < 16 then
      if cur_spells i = spell then some spell
      else getSpellLoop cur_spells spell fuel (i + 1)
    else some (-1)

/-- The method `SpellViewGump::getSpell(x, y)`: `some r` is the returned value. The loop
gets 17 units of fuel, one for each `i` from 0 to 16. -/
def getSpell (areaLeft areaTop level : Int) (cur_spells : Nat → Int) (x y : Int) :
    Option Int :=
  let localy := y - areaTop + 3
  let localx := x - areaLeft + 3
  if localy < 21 ∨ localy > 88 ∨ localx < 28 ∨ localx > 148 then some (-1)
  else
    let spell := toUint8 ((level - 1) * 16)
    let spell := if localx ≥ 89 then toUint8 (spell + 5) else spell
    let spell := toUint8 (spell + Int.tdiv (localy - 20) 14)
    getSpellLoop cur_spells spell 17 0

/-- Where `SpellViewGump::fill_cur_spell_list` draws the image of the spell `spellNum`
of the current page: `(dst.left, dst.top)`, from `base = (level - 1) * 16` and
`spell = cur_spells[i] - base`, both `uint8`. -/
def spellImagePos (level spellNum : Int) : Int × Int :=
  let base := toUint8 ((level - 1) * 16)
  let spell := toUint8 (spellNum - base)
  (if spell < 5 then 25 else 88, 18 + spell % 5 * 14)

/-- Where `SpellViewGump::Display` draws the selection mark of the selected spell,
relative to the corner of the gump: a negative selection counts as 0, then `spell % 16`
picks the column (75 or 136) and the row. -/
def selectionMarkPos (selected : Int) : Int × Int :=
  let spell := if selected < 0 then 0 else selected
  let spell := spell % 16
  (if spell < 5 then 75 else 136, 18 + 7 + spell % 5 * 14)

end Nuvie

namespace Toon

/-! # Properties -/

/-! ## Properties of the eviction scan -/

theorem scanBest_some (es : List CacheEntry) (i : Nat) (p : Nat × CacheEntry) :
    scanBest es i (some p) ≠ none := by
  induction es generalizing i p with
  | nil => simp [scanBest]
  | cons e es ih =>
    obtain ⟨j, b⟩ := p
    unfold scanBest
    by_cases hx : e._data.isSome = true
    · rw [if_pos hx]
      simp only
      split
      · exact ih _ _
      · exact ih _ _
    · rw [if_neg hx]
      exact ih _ _

/-- What the scan guarantees about its result `(k, v)`, started at index `i` with a
current best that lies before `i`. -/
theorem scanBest_spec (es : List CacheEntry) (i : Nat) (best : Option (Nat × CacheEntry))
    (k : Nat) (v : CacheEntry) (h : scanBest es i best = some (k, v)) :
    (best = some (k, v) ∨ (i ≤ k ∧ es[k - i]? = some v ∧ v._data.isSome = true)) ∧
    (∀ j b, best = some (j, b) → b._age ≤ v._age ∧ b._size ≤ v._size) ∧
    (∀ m e, es[m]? = some e → e._data.isSome = true → v._age ≤ e._age → v._size ≤ e._size →
      e._age = v._age ∧ e._size = v._size ∧ i + m ≤ k) := by
  induction es generalizing i best with
  | nil =>
    simp only [scanBest] at h
    subst h
    refine ⟨Or.inl rfl, ?_, ?_⟩
    · intro j b hb
      cases hb
      exact ⟨le_rfl, le_rfl⟩
    · intro m e he
      simp at he
  | cons x xs ih =>
    unfold scanBest at h
    by_cases hx : x._data.isSome = true
    · rw [if_pos hx] at h
      -- a helper for the case where `x` becomes the best entry
      have key : scanBest xs (i + 1) (some (i, x)) = some (k, v) →
          (i ≤ k ∧ (x :: xs)[k - i]? = some v ∧ v._data.isSome = true) ∧
          (x._age ≤ v._age ∧ x._size ≤ v._size) ∧
          (∀ m e, (x :: xs)[m]? = some e → e._data.isSome = true → v._age ≤ e._age →
            v._size ≤ e._size → e._age = v._age ∧ e._size = v._size ∧ i + m ≤ k) := by
        intro h'
        obtain ⟨h1, h2, h3⟩ := ih (i + 1) (some (i, x)) h'
        have hxv := h2 i x rfl
        have hloc : i ≤ k ∧ (x :: xs)[k - i]? = some v ∧ v._data.isSome = true := by
          rcases h1 with h1 | ⟨hk, hget, hv⟩
          · cases h1
            simp [hx]
          · refine ⟨by omega, ?_, hv⟩
            have : k - i = (k - (i + 1)) + 1 := by omega
            rw [this]
            simpa using hget
        refine ⟨hloc, hxv, ?_⟩
        intro m e he hd ha hs
        cases m with
        | zero =>
          simp at he
          subst he
          exact ⟨by omega, by omega, by omega⟩
        | succ m =>
          simp at he
          obtain ⟨q1, q2, q3⟩ := h3 m e he hd ha hs
          exact ⟨q1, q2, by omega⟩
      cases best with
      | none =>
        simp only at h
        obtain ⟨k1, _, k3⟩ := key h
        exact ⟨Or.inr k1, (by intro j b hb; cases hb), k3⟩
      | some p =>
        obtain ⟨j, b⟩ := p
        simp only at h
        by_cases hge : x._age ≥ b._age ∧ x._size ≥ b._size
        · rw [if_pos hge] at h
          obtain ⟨k1, k2, k3⟩ := key h
          refine ⟨Or.inr k1, ?_, k3⟩
          intro j' b' hb
          cases hb
          exact ⟨by omega, by omega⟩
        · rw [if_neg hge] at h
          obtain ⟨h1, h2, h3⟩ := ih (i + 1) (some (j, b)) h
          have hbv := h2 j b rfl
          refine ⟨?_, ?_, ?_⟩
          · rcases h1 with h1 | ⟨hk, hget, hv⟩
            · exact Or.inl h1
            · refine Or.inr ⟨by omega, ?_, hv⟩
              have : k - i = (k - (i + 1)) + 1 := by omega
              rw [this]
              simpa using hget
          · intro j' b' hb
            cases hb
            exact hbv
          · intro m e he hd ha hs
            cases m with
            | zero =>
              simp at he
              subst he
              exact absurd ⟨by omega, by omega⟩ hge
            | succ m =>
              simp at he
              obtain ⟨q1, q2, q3⟩ := h3 m e he hd ha hs
              exact ⟨q1, q2, by omega⟩
    · rw [if_neg hx] at h
      obtain ⟨h1, h2, h3⟩ := ih (i + 1) best h
      refine ⟨?_, h2, ?_⟩
      · rcases h1 with h1 | ⟨hk, hget, hv⟩
        · exact Or.inl h1
        · refine Or.inr ⟨by omega, ?_, hv⟩
          have : k - i = (k - (i + 1)) + 1 := by omega
          rw [this]
          simpa using hget
      · intro m e he hd ha hs
        cases m with
        | zero =>
          simp at he
          subst he
          exact absurd hd hx
        | succ m =>
          simp at he
          obtain ⟨q1, q2, q3⟩ := h3 m e he hd ha hs
          exact ⟨q1, q2, by omega⟩

/-- The best entry of a full pass: it sits at the reported index, holds data, and no
slot holding data is at least as old and at least as large, except slots equal to it in
both that come no later. -/
theorem findBestEntry_spec (slots : List CacheEntry) (k : Nat) (v : CacheEntry)
    (h : findBestEntry slots = some (k, v)) :
    slots[k]? = some v ∧ v._data.isSome = true ∧
    (∀ m e, slots[m]? = some e → e._data.isSome = true → v._age ≤ e._age →
      v._size ≤ e._size → e._age = v._age ∧ e._size = v._size ∧ m ≤ k) := by
  obtain ⟨h1, _, h3⟩ := scanBest_spec slots 0 none k v h
  rcases h1 with h1 | ⟨_, hget, hv⟩
  · cases h1
  · refine ⟨by simpa using hget, hv, ?_⟩
    intro m e he hd ha hs
    obtain ⟨q1, q2, q3⟩ := h3 m e he hd ha hs
    exact ⟨q1, q2, by omega⟩

theorem scanBest_none_of_dead (l : List CacheEntry) (i : Nat)
    (h : ∀ e ∈ l, e._data.isSome = false) : scanBest l i none = none := by
  induction l generalizing i with
  | nil => rfl
  | cons e es ih =>
    have he := h e (List.mem_cons_self _ _)
    unfold scanBest
    simp only [he]
    exact ih _ (fun x hx => h x (List.mem_cons_of_mem _ hx))

theorem scanBest_none (es : List CacheEntry) (i : Nat)
    (h : scanBest es i none = none) : ∀ e ∈ es, e._data.isSome = false := by
  induction es generalizing i with
  | nil => simp
  | cons x xs ih =>
    unfold scanBest at h
    by_cases hx : x._data.isSome = true
    · rw [if_pos hx] at h
      exact absurd h (scanBest_some _ _ _)
    · rw [if_neg hx] at h
      intro e he
      rcases List.mem_cons.mp he with rfl | he
      · simpa using hx
      · exact ih _ h e he

/-! ## The scan as a chain of candidates -/

theorem scanBest_append (l1 l2 : List CacheEntry) (i : Nat)
    (best : Option (Nat × CacheEntry)) :
    scanBest (l1 ++ l2) i best = scanBest l2 (i + l1.length) (scanBest l1 i best) := by
  induction l1 generalizing i best with
  | nil => rfl
  | cons x xs ih =>
    have hi : i + (x :: xs).length = (i + 1) + xs.length := by
      simp only [List.length_cons]
      omega
    rw [hi]
    by_cases hx : x._data.isSome = true
    · cases best with
      | none =>
        simp only [List.cons_append, scanBest, hx, if_true]
        exact ih _ _
      | some p =>
        obtain ⟨j, b⟩ := p
        simp only [List.cons_append, scanBest, hx, if_true]
        split <;> exact ih _ _
    · simp only [List.cons_append, scanBest, hx]
      exact ih _ _

/-- The candidate after the first `n + 1` slots, from the candidate after the first
`n`. -/
theorem scanBest_take_succ (slots : List CacheEntry) (n : Nat) (e : CacheEntry)
    (h : slots[n]? = some e) :
    scanBest (slots.take (n + 1)) 0 none =
      scanBest [e] n (scanBest (slots.take n) 0 none) := by
  have hn : n < slots.length := (List.getElem?_eq_some.mp h).1
  rw [List.take_succ, h, scanBest_append, List.length_take, Nat.min_eq_left (le_of_lt hn),
    Nat.zero_add]
  rfl

/-- The candidate the scan holds after the first `n` slots is a candidate by the rule,
and no slot between it and slot `n` replaces it. -/
theorem scanBest_take_sound (slots : List CacheEntry) (n : Nat) :
    (scanBest (slots.take n) 0 none = none →
      ∀ (j : Nat) (x : CacheEntry), j < n → slots[j]? = some x → x._data.isSome = false) ∧
    (∀ (j : Nat) (b : CacheEntry), scanBest (slots.take n) 0 none = some (j, b) →
      ScanCandidate slots j b ∧ j < n ∧
      ∀ (k : Nat) (x : CacheEntry), j < k → k < n → slots[k]? = some x →
        x._data.isSome = true → ¬ (b._age ≤ x._age ∧ b._size ≤ x._size)) := by
  induction n with
  | zero =>
    refine ⟨?_, ?_⟩
    · intro _ j x hj
      omega
    · intro j b h
      simp [scanBest] at h
  | succ n ih =>
    obtain ⟨ih1, ih2⟩ := ih
    cases hn : slots[n]? with
    | none =>
      have hlen : slots.length ≤ n := List.getElem?_eq_none_iff.mp hn
      have ht : slots.take (n + 1) = slots.take n := by
        rw [List.take_of_length_le (by omega), List.take_of_length_le hlen]
      rw [ht]
      refine ⟨?_, ?_⟩
      · intro h j x hj hx
        rcases Nat.lt_or_ge j n with hjn | hjn
        · exact ih1 h j x hjn hx
        · have : j = n := by omega
          subst this
          rw [hn] at hx
          cases hx
      · intro j b h
        obtain ⟨c1, c2, c3⟩ := ih2 j b h
        refine ⟨c1, by omega, ?_⟩
        intro k x hjk hk hx
        rcases Nat.lt_or_ge k n with hkn | hkn
        · exact c3 k x hjk hkn hx
        · have : k = n := by omega
          subst this
          rw [hn] at hx
          cases hx
    | some e =>
      rw [scanBest_take_succ slots n e hn]
      by_cases he : e._data.isSome = true
      · cases hst : scanBest (slots.take n) 0 none with
        | none =>
          have hdead := ih1 hst
          simp only [scanBest, he, if_true]
          refine ⟨(by intro h; cases h), ?_⟩
          intro j b h
          simp only [Option.some.injEq, Prod.mk.injEq] at h
          obtain ⟨h1, h2⟩ := h
          subst h1 h2
          refine ⟨ScanCandidate.first n e hn he hdead, by omega, ?_⟩
          intro k x hjk hk
          omega
        | some p =>
          obtain ⟨j0, b0⟩ := p
          obtain ⟨c1, c2, c3⟩ := ih2 j0 b0 hst
          by_cases hge : e._age ≥ b0._age ∧ e._size ≥ b0._size
          · simp only [scanBest, he, if_true, hge, and_self]
            refine ⟨(by intro h; cases h), ?_⟩
            intro j b h
            simp only [Option.some.injEq, Prod.mk.injEq] at h
            obtain ⟨h1, h2⟩ := h
            subst h1 h2
            refine ⟨ScanCandidate.replace j0 n b0 e c1 c2 hn he hge.1 hge.2 c3, by omega, ?_⟩
            intro k x hjk hk
            omega
          · simp only [scanBest, he, if_true, hge, if_false]
            refine ⟨(by intro h; cases h), ?_⟩
            intro j b h
            simp only [Option.some.injEq, Prod.mk.injEq] at h
            obtain ⟨h1, h2⟩ := h
            subst h1 h2
            refine ⟨c1, by omega, ?_⟩
            intro k x hjk hk hx hxl
            rcases Nat.lt_or_ge k n with hkn | hkn
            · exact c3 k x hjk hkn hx hxl
            · have : k = n := by omega
              subst this
              rw [hn] at hx
              cases hx
              exact hge
      · have hst : scanBest [e] n (scanBest (slots.take n) 0 none) =
            scanBest (slots.take n) 0 none := by
          simp only [scanBest, he]
          rfl
        rw [hst]
        have hdead : e._data.isSome = false := by simpa using he
        refine ⟨?_, ?_⟩
        · intro h j x hj hx
          rcases Nat.lt_or_ge j n with hjn | hjn
          · exact ih1 h j x hjn hx
          · have : j = n := by omega
            subst this
            rw [hn] at hx
            cases hx
            exact hdead
        · intro j b h
          obtain ⟨c1, c2, c3⟩ := ih2 j b h
          refine ⟨c1, by omega, ?_⟩
          intro k x hjk hk hx hxl
          rcases Nat.lt_or_ge k n with hkn | hkn
          · exact c3 k x hjk hkn hx hxl
          · have : k = n := by omega
            subst this
            rw [hn] at hx
            cases hx
            rw [hdead] at hxl
            cases hxl

/-- A candidate that no slot up to slot `j + m` replaces is still the candidate the
scan holds after the first `j + 1 + m` slots. -/
theorem scanBest_take_keep (slots : List CacheEntry) (j : Nat) (b : CacheEntry)
    (hst : scanBest (slots.take (j + 1)) 0 none = some (j, b)) (m : Nat)
    (hno : ∀ (k : Nat) (x : CacheEntry), j < k → k < j + 1 + m → slots[k]? = some x →
      x._data.isSome = true → ¬ (b._age ≤ x._age ∧ b._size ≤ x._size)) :
    scanBest (slots.take (j + 1 + m)) 0 none = some (j, b) := by
  induction m with
  | zero => exact hst
  | succ m ih =>
    have ih' := ih (fun k x h1 h2 => hno k x h1 (by omega))
    cases hn : slots[j + 1 + m]? with
    | none =>
      have hlen : slots.length ≤ j + 1 + m := List.getElem?_eq_none_iff.mp hn
      have ht : slots.take (j + 1 + (m + 1)) = slots.take (j + 1 + m) := by
        rw [List.take_of_length_le (by omega), List.take_of_length_le hlen]
      rw [ht]
      exact ih'
    | some e =>
      have hs : j + 1 + (m + 1) = (j + 1 + m) + 1 := by omega
      rw [hs, scanBest_take_succ slots _ e hn, ih']
      by_cases he : e._data.isSome = true
      · have := hno (j + 1 + m) e (by omega) (by omega) hn he
        have hge : ¬ (e._age ≥ b._age ∧ e._size ≥ b._size) := this
        simp only [scanBest, he, if_true, hge, if_false]
      · simp only [scanBest, he]
        rfl

/-- A candidate by the rule is the candidate the scan holds right after its slot. -/
theorem scanCandidate_scan (slots : List CacheEntry) (i : Nat) (e : CacheEntry)
    (h : ScanCandidate slots i e) :
    slots[i]? = some e ∧ e._data.isSome = true ∧
      scanBest (slots.take (i + 1)) 0 none = some (i, e) := by
  induction h with
  | first i e hget hlive hdead =>
    refine ⟨hget, hlive, ?_⟩
    have hnone : scanBest (slots.take i) 0 none = none := by
      apply scanBest_none_of_dead
      intro x hx
      obtain ⟨m, hm⟩ := List.mem_iff_getElem?.mp hx
      rw [List.getElem?_take] at hm
      split at hm
      · rename_i hlt
        exact hdead m x hlt hm
      · cases hm
    rw [scanBest_take_succ slots i e hget, hnone]
    simp only [scanBest, hlive, if_true]
  | replace j i b e _ hji hget hlive hage hsize hno ih =>
    refine ⟨hget, hlive, ?_⟩
    obtain ⟨_, _, hst⟩ := ih
    have hkeep := scanBest_take_keep slots j b hst (i - (j + 1))
      (fun k x h1 h2 => hno k x h1 (by omega))
    have hi : j + 1 + (i - (j + 1)) = i := by omega
    rw [hi] at hkeep
    rw [scanBest_take_succ slots i e hget, hkeep]
    have hge : e._age ≥ b._age ∧ e._size ≥ b._size := ⟨hage, hsize⟩
    simp only [scanBest, hlive, if_true, hge, and_self]

/-- The best entry of a full pass is the last candidate of the scan's rule, and the
last candidate is the best entry: the rule determines the result of the pass. -/
theorem findBestEntry_iff_last_candidate (slots : List CacheEntry) (i : Nat)
    (v : CacheEntry) :
    findBestEntry slots = some (i, v) ↔
      (ScanCandidate slots i v ∧
        ∀ (k : Nat) (x : CacheEntry), i < k → slots[k]? = some x → x._data.isSome = true →
          ¬ (v._age ≤ x._age ∧ v._size ≤ x._size)) := by
  constructor
  · intro h
    have hfull : scanBest (slots.take slots.length) 0 none = some (i, v) := by
      rw [List.take_length]
      exact h
    obtain ⟨c1, _, c3⟩ := (scanBest_take_sound slots slots.length).2 i v hfull
    refine ⟨c1, ?_⟩
    intro k x hik hx
    exact c3 k x hik (List.getElem?_eq_some.mp hx).1 hx
  · rintro ⟨hc, hno⟩
    obtain ⟨_, _, hst⟩ := scanCandidate_scan slots i v hc
    have := scanBest_take_keep slots i v hst slots.length (fun k x h1 _ => hno k x h1)
    rw [List.take_of_length_le (by omega)] at this
    exact this

/-- C1, as amended. In every cache state whose running total exceeds the budget and in
which some slot holds data, one iteration of the eviction loop evicts a slot `i` that
holds data (its buffer is dropped, its size subtracted modulo `2^32`, nothing else
changes), and slot `i` is the last candidate of the scan: the candidate is at first the
first slot holding data, and it is replaced by each later slot holding data whose age
and size are both at least the candidate's. This rule determines the evicted slot: no
other slot is the last candidate. Consequently no slot holding data is at least as old
and at least as large as the evicted one, except slots equal to it in both age and size
that come no later in slot order; and when some slot holding data has both the largest
age and the largest size, the evicted slot has the largest age, among those the largest
size, and among the slots equal in both it is the latest in slot order. -/
theorem evictStep_selects (maxCacheSize : Nat) (c : Cache)
    (hover : c._cacheSize > maxCacheSize)
    (hlive : ∃ (j : Nat) (e : CacheEntry), c._resourceCache[j]? = some e ∧ e._data.isSome = true) :
    ∃ (i : Nat) (v : CacheEntry), c._resourceCache[i]? = some v ∧ v._data.isSome = true ∧
      evictStep maxCacheSize c =
        some (i, { _cacheSize := (c._cacheSize + U32 - v._size % U32) % U32,
                   _resourceCache := c._resourceCache.set i { v with _data := none } }) ∧
      ScanVictim c._resourceCache i ∧
      (∀ (i' : Nat), ScanVictim c._resourceCache i' → i' = i) ∧
      (∀ (j : Nat) (e : CacheEntry), c._resourceCache[j]? = some e → e._data.isSome = true →
        v._age ≤ e._age → v._size ≤ e._size →
          e._age = v._age ∧ e._size = v._size ∧ j ≤ i) ∧
      ((∃ (m : Nat) (t : CacheEntry), c._resourceCache[m]? = some t ∧ t._data.isSome = true ∧
          ∀ (j : Nat) (e : CacheEntry), c._resourceCache[j]? = some e → e._data.isSome = true →
            e._age ≤ t._age ∧ e._size ≤ t._size) →
        ∀ (j : Nat) (e : CacheEntry), c._resourceCache[j]? = some e → e._data.isSome = true →
          e._age < v._age ∨
            (e._age = v._age ∧ (e._size < v._size ∨ (e._size = v._size ∧ j ≤ i)))) := by
  cases hbest : findBestEntry c._resourceCache with
  | none =>
    obtain ⟨j, e, hj, he⟩ := hlive
    have := scanBest_none _ _ hbest e (List.mem_iff_getElem?.mpr ⟨j, hj⟩)
    rw [he] at this
    cases this
  | some p =>
    obtain ⟨i, v⟩ := p
    obtain ⟨h1, h2, h3⟩ := findBestEntry_spec _ _ _ hbest
    refine ⟨i, v, h1, h2, ?_, ?_, ?_, h3, ?_⟩
    · simp [evictStep, hover, hbest]
    · exact ⟨v, (findBestEntry_iff_last_candidate _ _ _).mp hbest⟩
    · rintro i' ⟨v', hv'⟩
      have := (findBestEntry_iff_last_candidate _ _ _).mpr hv'
      rw [hbest] at this
      simp only [Option.some.injEq, Prod.mk.injEq] at this
      exact this.1.symm
    · rintro ⟨m, t, hm, ht, htop⟩ j e hj he
      obtain ⟨ta, ts⟩ := htop i v h1 h2
      obtain ⟨q1, q2, _⟩ := h3 m t hm ht ta ts
      obtain ⟨ea, es⟩ := htop j e hj he
      by_cases hlt : e._age < v._age
      · exact Or.inl hlt
      · right
        refine ⟨by omega, ?_⟩
        by_cases hlt2 : e._size < v._size
        · exact Or.inl hlt2
        · right
          obtain ⟨_, _, r3⟩ := h3 j e hj he (by omega) (by omega)
          exact ⟨by omega, r3⟩

/-- C1, witness: the theorem applied to a cache of three slots over a budget of 20:
slot 0 of age 1 and 10 bytes, slot 1 of age 2 and 5 bytes, slot 2 of age 1 and 1 byte.
Slot 0 is the first candidate and neither later slot is at least as old and at least as
large, so slot 0 is the last candidate and the one evicted; slot 1, the oldest, is not
the last candidate. -/
theorem evictStep_selects_witness :
    (evictStep 20 ⟨26, [⟨[], [97], 1, 10, some [1]⟩, ⟨[], [98], 2, 5, some [2]⟩,
        ⟨[], [100], 1, 1, some [4]⟩]⟩).map Prod.fst = some 0 ∧
    ScanVictim [⟨[], [97], 1, 10, some [1]⟩, ⟨[], [98], 2, 5, some [2]⟩,
        ⟨[], [100], 1, 1, some [4]⟩] 0 ∧
    ¬ ScanVictim [⟨[], [97], 1, 10, some [1]⟩, ⟨[], [98], 2, 5, some [2]⟩,
        ⟨[], [100], 1, 1, some [4]⟩] 1 := by
  obtain ⟨i, v, _, _, h3, _, h5, _, _⟩ := evictStep_selects 20
    ⟨26, [⟨[], [97], 1, 10, some [1]⟩, ⟨[], [98], 2, 5, some [2]⟩,
        ⟨[], [100], 1, 1, some [4]⟩]⟩
    (by decide) ⟨0, _, rfl, rfl⟩
  have h0 : ScanVictim [(⟨[], [97], 1, 10, some [1]⟩ : CacheEntry),
      ⟨[], [98], 2, 5, some [2]⟩, ⟨[], [100], 1, 1, some [4]⟩] 0 := by
    refine ⟨⟨[], [97], 1, 10, some [1]⟩,
      ScanCandidate.first 0 _ rfl rfl (by intro j x hj; omega), ?_⟩
    intro k x hk hx _
    rcases k with _ | _ | _ | k
    · omega
    · simp at hx
      subst hx
      simp
    · simp at hx
      subst hx
      simp
    · simp at hx
  have hi : 0 = i := h5 0 h0
  subst hi
  refine ⟨by rw [h3]; rfl, h0, ?_⟩
  intro h1
  have := h5 1 h1
  omega

/-- C1, counterexample. Budget 20. First run: A (10 bytes), B (5 bytes) and D (1 byte)
are inserted and A is looked up; the insertion of 10 more bytes enters the eviction loop
with A (slot 0) at age 1, B (slot 1) at age 2 and D (slot 2) at age 1, and the iteration
evicts slot 0, which is not the oldest slot. Second run: A and B (10 bytes each) are
inserted and A is looked up; the insertion of 10 more bytes finds both slots at age 1
and size 10, and the iteration evicts slot 1, not the earlier of the two. -/
theorem evictStep_not_oldest_first :
    (agedCache (runOps 20 Cache.empty
        [.insert [] [97] 10 [1], .insert [] [98] 5 [2], .insert [] [100] 1 [4],
          .tryGet [97]]) 10 =
      ⟨26, [⟨[], [97], 1, 10, some [1]⟩, ⟨[], [98], 2, 5, some [2]⟩,
            ⟨[], [100], 1, 1, some [4]⟩]⟩ ∧
     (evictStep 20 ⟨26, [⟨[], [97], 1, 10, some [1]⟩, ⟨[], [98], 2, 5, some [2]⟩,
            ⟨[], [100], 1, 1, some [4]⟩]⟩).map Prod.fst = some 0 ∧
     ¬ SpecVictim [⟨[], [97], 1, 10, some [1]⟩, ⟨[], [98], 2, 5, some [2]⟩,
            ⟨[], [100], 1, 1, some [4]⟩] 0) ∧
    (agedCache (runOps 20 Cache.empty
        [.insert [] [97] 10 [1], .insert [] [98] 10 [2], .tryGet [97]]) 10 =
      ⟨30, [⟨[], [97], 1, 10, some [1]⟩, ⟨[], [98], 1, 10, some [2]⟩]⟩ ∧
     (evictStep 20 ⟨30, [⟨[], [97], 1, 10, some [1]⟩, ⟨[], [98], 1, 10, some [2]⟩]⟩).map Prod.fst
       = some 1 ∧
     ¬ SpecVictim [⟨[], [97], 1, 10, some [1]⟩, ⟨[], [98], 1, 10, some [2]⟩] 1) := by
  refine ⟨⟨by decide, by decide, ?_⟩, by decide, by decide, ?_⟩
  · rintro ⟨v, hv, _, h⟩
    simp at hv
    subst hv
    have := h 1 ⟨[], [98], 2, 5, some [2]⟩ rfl rfl
    simp at this
  · rintro ⟨v, hv, _, h⟩
    simp at hv
    subst hv
    have := h 0 ⟨[], [97], 1, 10, some [1]⟩ rfl rfl
    simp at this

/-! ## Bookkeeping lemmas for the cache -/

theorem sumSizes_map_ageEntry (l : List CacheEntry) :
    sumSizes (l.map ageEntry) = sumSizes l := by
  induction l with
  | nil => rfl
  | cons e es ih =>
    simp only [List.map, sumSizes, ih]
    unfold ageEntry
    split <;> simp_all

theorem liveCount_map_ageEntry (l : List CacheEntry) :
    liveCount (l.map ageEntry) = liveCount l := by
  induction l with
  | nil => rfl
  | cons e es ih =>
    simp only [List.map, liveCount, ih]
    unfold ageEntry
    split <;> simp_all

theorem liveCount_le_length (l : List CacheEntry) : liveCount l ≤ l.length := by
  induction l with
  | nil => simp [liveCount]
  | cons e es ih =>
    simp only [liveCount, List.length_cons]
    split <;> omega

theorem sumSizes_eq_zero_of_dead (l : List CacheEntry)
    (h : ∀ e ∈ l, e._data.isSome = false) : sumSizes l = 0 := by
  induction l with
  | nil => rfl
  | cons e es ih =>
    have he := h e (List.mem_cons_self _ _)
    simp only [sumSizes, he]
    simp [ih (fun x hx => h x (List.mem_cons_of_mem _ hx))]

theorem dead_of_liveCount_zero (l : List CacheEntry) (h : liveCount l = 0) :
    ∀ e ∈ l, e._data.isSome = false := by
  induction l with
  | nil => simp
  | cons e es ih =>
    simp only [liveCount] at h
    intro x hx
    rcases List.mem_cons.mp hx with rfl | hx
    · by_contra hc
      simp only [Bool.not_eq_false] at hc
      simp [hc] at h
    · exact ih (by omega) x hx

/-- Emptying a slot that holds data takes its size out of the sum and one off the count
of slots holding data. -/
theorem sumSizes_set_dead (l : List CacheEntry) (i : Nat) (v : CacheEntry)
    (hget : l[i]? = some v) (hv : v._data.isSome = true) :
    sumSizes (l.set i { v with _data := none }) + v._size = sumSizes l ∧
    liveCount (l.set i { v with _data := none }) + 1 = liveCount l := by
  induction l generalizing i with
  | nil => simp at hget
  | cons e es ih =>
    cases i with
    | zero =>
      simp at hget
      subst hget
      simp [sumSizes, liveCount, hv]
      omega
    | succ i =>
      simp at hget
      obtain ⟨h1, h2⟩ := ih i hget
      simp only [List.set_cons_succ, sumSizes, liveCount]
      omega

/-- The effect of one eviction on the slots. -/
theorem evictStep_effect (maxCacheSize : Nat) (c c' : Cache) (i : Nat)
    (h : evictStep maxCacheSize c = some (i, c')) :
    ∃ v, c._resourceCache[i]? = some v ∧ v._data.isSome = true ∧
      maxCacheSize < c._cacheSize ∧
      c'._cacheSize = (c._cacheSize + U32 - v._size % U32) % U32 ∧
      c'._resourceCache = c._resourceCache.set i { v with _data := none } := by
  unfold evictStep at h
  split at h
  · rename_i hover
    cases hbest : findBestEntry c._resourceCache with
    | none => simp [hbest] at h
    | some p =>
      obtain ⟨k, v⟩ := p
      simp only [hbest, Option.some.injEq, Prod.mk.injEq] at h
      obtain ⟨hk, hc⟩ := h
      subst hk
      subst hc
      obtain ⟨h1, h2, _⟩ := findBestEntry_spec _ _ _ hbest
      exact ⟨v, h1, h2, hover, rfl, rfl⟩
  · cases h

/-- A property kept by every eviction is kept by the eviction loop. -/
theorem evictLoop_preserves (maxCacheSize : Nat) (P : Cache → Prop)
    (hstep : ∀ c i c', P c → evictStep maxCacheSize c = some (i, c') → P c') :
    ∀ (fuel : Nat) (c : Cache), P c → P (evictLoop maxCacheSize fuel c) := by
  intro fuel
  induction fuel with
  | zero => intro c hc; exact hc
  | succ n ih =>
    intro c hc
    unfold evictLoop
    cases hs : evictStep maxCacheSize c with
    | none => exact hc
    | some p =>
      obtain ⟨i, c'⟩ := p
      exact ih c' (hstep c i c' hc hs)

/-- With one unit of fuel per slot holding data the loop is left by its own test, not
by lack of fuel. -/
theorem evictLoop_exit (maxCacheSize : Nat) :
    ∀ (fuel : Nat) (c : Cache), liveCount c._resourceCache ≤ fuel →
      evictStep maxCacheSize (evictLoop maxCacheSize fuel c) = none := by
  intro fuel
  induction fuel with
  | zero =>
    intro c hc
    have hd := dead_of_liveCount_zero _ (Nat.le_zero.mp hc)
    simp only [evictLoop, evictStep, findBestEntry, scanBest_none_of_dead _ _ hd]
    split <;> rfl
  | succ n ih =>
    intro c hc
    unfold evictLoop
    cases hs : evictStep maxCacheSize c with
    | none => exact hs
    | some p =>
      obtain ⟨i, c'⟩ := p
      obtain ⟨v, h1, h2, _, _, h5⟩ := evictStep_effect _ _ _ _ hs
      have := (sumSizes_set_dead _ _ _ h1 h2).2
      apply ih
      rw [h5]
      omega

theorem evictStep_none (maxCacheSize : Nat) (c : Cache)
    (h : evictStep maxCacheSize c = none) :
    c._cacheSize ≤ maxCacheSize ∨ ∀ e ∈ c._resourceCache, e._data.isSome = false := by
  unfold evictStep at h
  split at h
  · right
    cases hbest : findBestEntry c._resourceCache with
    | none => exact scanBest_none _ _ hbest
    | some p => simp [hbest] at h
  · left
    omega

theorem placeEntry_some (new : CacheEntry) (l l' : List CacheEntry)
    (h : placeEntry new l = some l') :
    l'.length = l.length ∧
    sumSizes l' = sumSizes l + (if new._data.isSome then new._size else 0) := by
  induction l generalizing l' with
  | nil => simp [placeEntry] at h
  | cons e es ih =>
    unfold placeEntry at h
    split at h
    · rename_i he
      simp only [Option.some.injEq] at h
      subst h
      have he' : e._data.isSome = false := by
        cases hd : e._data <;> simp_all
      simp [sumSizes, he']
      omega
    · cases hp : placeEntry new es with
      | none => simp [hp] at h
      | some r =>
        simp only [hp, Option.map_some', Option.some.injEq] at h
        subst h
        obtain ⟨q1, q2⟩ := ih r hp
        simp only [List.length_cons, sumSizes, q1, q2]
        exact ⟨trivial, by omega⟩

theorem sumSizes_append (l m : List CacheEntry) :
    sumSizes (l ++ m) = sumSizes l + sumSizes m := by
  induction l with
  | nil => simp [sumSizes]
  | cons e es ih =>
    show (if e._data.isSome then e._size else 0) + sumSizes (es ++ m) = _
    rw [ih]
    simp only [sumSizes]
    omega

/-- The sum of the live sizes after `addToCache`, in terms of the state at loop exit. -/
theorem addToCache_sumSizes (maxCacheSize : Nat) (c : Cache) (packName fileName : Path)
    (fileSize : Nat) (fileData : Option Buffer) :
    (addToCache maxCacheSize c packName fileName fileSize fileData)._cacheSize =
      (evictedCache maxCacheSize c fileSize)._cacheSize ∧
    sumSizes (addToCache maxCacheSize c packName fileName fileSize fileData)._resourceCache =
      sumSizes (evictedCache maxCacheSize c fileSize)._resourceCache +
        (if fileData.isSome then fileSize else 0) := by
  unfold addToCache
  simp only
  cases hp : placeEntry (newEntry packName fileName fileSize fileData)
      (evictedCache maxCacheSize c fileSize)._resourceCache with
  | none =>
    simp only [sumSizes_append, sumSizes, newEntry]
    exact ⟨trivial, by omega⟩
  | some r =>
    obtain ⟨_, q2⟩ := placeEntry_some _ _ _ hp
    simp only [q2, newEntry]
    exact ⟨trivial, trivial⟩

/-! ## Cache lookup -/

/-- The lookup loop hits exactly the first slot that holds data under a matching name. -/
theorem getFromCacheLoop_hit (fileName : Path) (l : List CacheEntry) (i : Nat)
    (e : CacheEntry) (d : Buffer)
    (hget : l[i]? = some e) (hd : e._data = some d)
    (hname : equalsIgnoreCase e._fileName fileName = true)
    (hfirst : ∀ (j : Nat) (x : CacheEntry), j < i → l[j]? = some x →
      x._data.isSome = true → equalsIgnoreCase x._fileName fileName = false) :
    getFromCacheLoop fileName l = some (e._size, d, l.set i { e with _age := 0 }) := by
  induction l generalizing i with
  | nil => simp at hget
  | cons x xs ih =>
    cases i with
    | zero =>
      simp at hget
      subst hget
      simp [getFromCacheLoop, hd, hname]
    | succ i =>
      simp at hget
      have hx := hfirst 0 x (Nat.succ_pos _) (by simp)
      have hrec := ih i hget (fun j y hj hy => hfirst (j + 1) y (by omega) (by simpa using hy))
      unfold getFromCacheLoop
      cases hxd : x._data with
      | none => simp [hrec]
      | some dx =>
        have := hx (by simp [hxd])
        simp [this, hrec]

theorem getFromCacheLoop_miss (fileName : Path) (l : List CacheEntry)
    (hmiss : ∀ (j : Nat) (x : CacheEntry), l[j]? = some x →
      x._data.isSome = true → equalsIgnoreCase x._fileName fileName = false) :
    getFromCacheLoop fileName l = none := by
  induction l with
  | nil => rfl
  | cons x xs ih =>
    have hx := hmiss 0 x (by simp)
    have hrec := ih (fun j y hy => hmiss (j + 1) y (by simpa using hy))
    unfold getFromCacheLoop
    cases hxd : x._data with
    | none => simp [hrec]
    | some dx =>
      have := hx (by simp [hxd])
      simp [this, hrec]

/-- Every result of the lookup loop comes from a first matching slot. -/
theorem getFromCacheLoop_some (fileName : Path) (l l' : List CacheEntry) (sz : Nat)
    (d : Buffer) (h : getFromCacheLoop fileName l = some (sz, d, l')) :
    ∃ (i : Nat) (e : CacheEntry), l[i]? = some e ∧ e._data = some d ∧
      equalsIgnoreCase e._fileName fileName = true ∧ sz = e._size ∧
      l' = l.set i { e with _age := 0 } ∧
      (∀ (j : Nat) (x : CacheEntry), j < i → l[j]? = some x →
        x._data.isSome = true → equalsIgnoreCase x._fileName fileName = false) := by
  induction l generalizing l' with
  | nil => simp [getFromCacheLoop] at h
  | cons x xs ih =>
    unfold getFromCacheLoop at h
    by_cases hx : x._data.isSome = true ∧ equalsIgnoreCase x._fileName fileName = true
    · obtain ⟨hx1, hx2⟩ := hx
      obtain ⟨dx, hdx⟩ := Option.isSome_iff_exists.mp hx1
      simp only [hdx, hx2, if_true, Option.some.injEq, Prod.mk.injEq] at h
      obtain ⟨h1, h2, h3⟩ := h
      refine ⟨0, x, by simp, ?_, hx2, h1.symm, ?_, ?_⟩
      · rw [hdx, h2]
      · simp [← h3, hdx]
      · intro j y hj
        omega
    · have hrec : (getFromCacheLoop fileName xs).map (fun r => (r.1, r.2.1, x :: r.2.2))
          = some (sz, d, l') := by
        cases hxd : x._data with
        | none => simpa [hxd] using h
        | some dx =>
          have : equalsIgnoreCase x._fileName fileName = false := by
            cases hq : equalsIgnoreCase x._fileName fileName
            · rfl
            · exact absurd ⟨by simp [hxd], hq⟩ hx
          simpa [hxd, this] using h
      cases hr : getFromCacheLoop fileName xs with
      | none => simp [hr] at hrec
      | some r =>
        obtain ⟨sz', d', r'⟩ := r
        simp only [hr, Option.map_some', Option.some.injEq, Prod.mk.injEq] at hrec
        obtain ⟨q1, q2, q3⟩ := hrec
        subst q1 q2 q3
        obtain ⟨i, e, g1, g2, g3, g4, g5, g6⟩ := ih r' hr
        refine ⟨i + 1, e, by simpa using g1, g2, g3, g4, by simp [g5], ?_⟩
        intro j y hj hy hyd
        cases j with
        | zero =>
          simp at hy
          subst hy
          cases hq : equalsIgnoreCase x._fileName fileName
          · rfl
          · exact absurd ⟨hyd, hq⟩ hx
        | succ j => exact g6 j y (by omega) (by simpa using hy) hyd

/-- Replacing a slot by an entry with the same data and size leaves the sums alone. -/
theorem sumSizes_set_same (l : List CacheEntry) (i : Nat) (e e' : CacheEntry)
    (hget : l[i]? = some e) (hd : e'._data = e._data) (hs : e'._size = e._size) :
    sumSizes (l.set i e') = sumSizes l := by
  induction l generalizing i with
  | nil => simp
  | cons x xs ih =>
    cases i with
    | zero =>
      simp at hget
      subst hget
      simp [sumSizes, hd, hs]
    | succ i =>
      simp at hget
      simp only [List.set_cons_succ, sumSizes, ih i hget]

theorem getFromCache_sumSizes (c : Cache) (fileName : Path) :
    (getFromCache c fileName).2._cacheSize = c._cacheSize ∧
    sumSizes (getFromCache c fileName).2._resourceCache = sumSizes c._resourceCache ∧
    (getFromCache c fileName).2._resourceCache.length = c._resourceCache.length := by
  unfold getFromCache
  cases h : getFromCacheLoop fileName c._resourceCache with
  | none => simp
  | some r =>
    obtain ⟨sz, d, l'⟩ := r
    obtain ⟨i, e, g1, _, _, _, g5, _⟩ := getFromCacheLoop_some _ _ _ _ _ h
    simp only [g5, List.length_set]
    exact ⟨trivial, sumSizes_set_same _ _ _ _ g1 rfl rfl, trivial⟩

/-! ## The budget invariant -/

/-- While the eviction loop runs, the running total is the exact sum of the live sizes
plus the size being inserted. -/
theorem evictLoop_total (maxCacheSize fileSize : Nat) (fuel : Nat) (c : Cache)
    (h : sumSizes c._resourceCache + fileSize = c._cacheSize ∧ c._cacheSize < U32) :
    sumSizes (evictLoop maxCacheSize fuel c)._resourceCache + fileSize =
        (evictLoop maxCacheSize fuel c)._cacheSize ∧
      (evictLoop maxCacheSize fuel c)._cacheSize < U32 := by
  refine evictLoop_preserves maxCacheSize
    (fun c => sumSizes c._resourceCache + fileSize = c._cacheSize ∧ c._cacheSize < U32)
    ?_ fuel c h
  intro c i c' hc hs
  obtain ⟨v, h1, h2, _, h4, h5⟩ := evictStep_effect _ _ _ _ hs
  have h6 := (sumSizes_set_dead _ _ _ h1 h2).1
  obtain ⟨hc1, hc2⟩ := hc
  simp only [U32] at *
  rw [h4, h5]
  omega

/-- One insertion keeps the invariant "running total = sum of live sizes ≤ budget". -/
theorem addToCache_budget (maxCacheSize : Nat) (c : Cache) (packName fileName : Path)
    (fileSize : Nat) (d : Buffer)
    (hinv : c._cacheSize = sumSizes c._resourceCache ∧ c._cacheSize ≤ maxCacheSize)
    (hsz : fileSize ≤ maxCacheSize) (hno : maxCacheSize + fileSize < U32) :
    (addToCache maxCacheSize c packName fileName fileSize (some d))._cacheSize =
      sumSizes (addToCache maxCacheSize c packName fileName fileSize (some d))._resourceCache ∧
    (addToCache maxCacheSize c packName fileName fileSize (some d))._cacheSize ≤
      maxCacheSize := by
  obtain ⟨hi1, hi2⟩ := hinv
  have haged : sumSizes (agedCache c fileSize)._resourceCache + fileSize =
      (agedCache c fileSize)._cacheSize ∧ (agedCache c fileSize)._cacheSize < U32 := by
    simp only [agedCache, sumSizes_map_ageEntry, U32] at *
    omega
  obtain ⟨t1, t2⟩ := evictLoop_total maxCacheSize fileSize c._resourceCache.length _ haged
  have hexit := evictLoop_exit maxCacheSize c._resourceCache.length (agedCache c fileSize)
    (by
      simp only [agedCache, liveCount_map_ageEntry]
      exact liveCount_le_length _)
  obtain ⟨a1, a2⟩ := addToCache_sumSizes maxCacheSize c packName fileName fileSize (some d)
  simp only [Option.isSome_some, if_true] at a2
  rw [a1, a2]
  unfold evictedCache
  refine ⟨by omega, ?_⟩
  rcases evictStep_none _ _ hexit with hle | hdead
  · exact hle
  · have := sumSizes_eq_zero_of_dead _ hdead
    omega

/-- C2. Budget invariant: in every cache state reached from the empty cache by a
sequence of `addToCache` calls (each handing over a buffer) and `getFromCache` calls in
which every inserted size is at most `MAX_CACHE_SIZE` and `MAX_CACHE_SIZE` plus the
inserted size is below `2^32`, the sizes of the slots that hold data sum to at most
`MAX_CACHE_SIZE`, and the running total `_cacheSize` is exactly that sum. The list of
calls is arbitrary, so the bound holds after each call of a sequence. -/
theorem cache_budget_invariant (maxCacheSize : Nat) (ops : List CacheOp)
    (hops : ∀ (packName fileName : Path) (fileSize : Nat) (fileData : Buffer),
      CacheOp.insert packName fileName fileSize fileData ∈ ops →
        fileSize ≤ maxCacheSize ∧ maxCacheSize + fileSize < U32) :
    sumSizes (runOps maxCacheSize Cache.empty ops)._resourceCache ≤ maxCacheSize ∧
    (runOps maxCacheSize Cache.empty ops)._cacheSize =
      sumSizes (runOps maxCacheSize Cache.empty ops)._resourceCache := by
  have gen : ∀ (ops : List CacheOp) (c : Cache),
      (∀ (packName fileName : Path) (fileSize : Nat) (fileData : Buffer),
        CacheOp.insert packName fileName fileSize fileData ∈ ops →
          fileSize ≤ maxCacheSize ∧ maxCacheSize + fileSize < U32) →
      (c._cacheSize = sumSizes c._resourceCache ∧ c._cacheSize ≤ maxCacheSize) →
      ((runOps maxCacheSize c ops)._cacheSize =
          sumSizes (runOps maxCacheSize c ops)._resourceCache ∧
        (runOps maxCacheSize c ops)._cacheSize ≤ maxCacheSize) := by
    intro ops
    induction ops with
    | nil => intro c _ hc; exact hc
    | cons op rest ih =>
      intro c hops hc
      have hrest : ∀ (packName fileName : Path) (fileSize : Nat) (fileData : Buffer),
          CacheOp.insert packName fileName fileSize fileData ∈ rest →
            fileSize ≤ maxCacheSize ∧ maxCacheSize + fileSize < U32 :=
        fun p n s d hm => hops p n s d (List.mem_cons_of_mem _ hm)
      show ((runOps maxCacheSize (applyOp maxCacheSize c op) rest)._cacheSize = _ ∧ _)
      apply ih _ hrest
      cases op with
      | insert p n s d =>
        obtain ⟨q1, q2⟩ := hops p n s d (List.mem_cons_self _ _)
        exact addToCache_budget maxCacheSize c p n s d hc q1 q2
      | tryGet n =>
        obtain ⟨g1, g2, _⟩ := getFromCache_sumSizes c n
        simp only [applyOp, g1, g2]
        exact hc
  obtain ⟨r1, r2⟩ := gen ops Cache.empty hops ⟨rfl, Nat.zero_le _⟩
  exact ⟨by omega, r1⟩

/-- C2, witness: budget 250, inserting 100, 50 and 200 bytes with a lookup in between;
the live sizes then sum to 250. -/
theorem cache_budget_invariant_witness :
    sumSizes (runOps 250 Cache.empty
      [.insert [1] [97] 100 [1], .insert [1] [98] 50 [2], .tryGet [98],
        .insert [1] [99] 200 [3]])._resourceCache ≤ 250 ∧
    sumSizes (runOps 250 Cache.empty
      [.insert [1] [97] 100 [1], .insert [1] [98] 50 [2], .tryGet [98],
        .insert [1] [99] 200 [3]])._resourceCache = 250 :=
  ⟨(cache_budget_invariant 250
      [.insert [1] [97] 100 [1], .insert [1] [98] 50 [2], .tryGet [98],
        .insert [1] [99] 200 [3]]
      (by
        intro p n s d hm
        simp only [List.mem_cons, CacheOp.insert.injEq, List.mem_singleton,
          reduceCtorEq, List.not_mem_nil, or_false, false_or] at hm
        rcases hm with ⟨_, _, rfl, _⟩ | ⟨_, _, rfl, _⟩ | ⟨_, _, rfl, _⟩ <;> decide)).1,
   by decide⟩

/-- C6. Cache lookup. If slot `i` is the first slot, in slot order, that holds data
under a file name equal to `fileName` up to letter case, `getFromCache` returns that
slot's size and buffer, and the cache afterwards differs only in that slot's age, now
0: the running total, every other slot and every other field of the slot are as before.
If no slot holding data matches (a slot without data does not count, whatever its name),
it returns nothing and the cache is unchanged. -/
theorem getFromCache_spec (c : Cache) (fileName : Path) :
    (∀ (i : Nat) (e : CacheEntry) (d : Buffer),
      c._resourceCache[i]? = some e → e._data = some d →
      equalsIgnoreCase e._fileName fileName = true →
      (∀ (j : Nat) (x : CacheEntry), j < i → c._resourceCache[j]? = some x →
        x._data.isSome = true → equalsIgnoreCase x._fileName fileName = false) →
      getFromCache c fileName =
        (some (e._size, d),
         { _cacheSize := c._cacheSize,
           _resourceCache := c._resourceCache.set i
             { _packName := e._packName, _fileName := e._fileName, _age := 0,
               _size := e._size, _data := e._data } })) ∧
    ((∀ (j : Nat) (x : CacheEntry), c._resourceCache[j]? = some x →
        x._data.isSome = true → equalsIgnoreCase x._fileName fileName = false) →
      getFromCache c fileName = (none, c)) := by
  constructor
  · intro i e d hget hd hname hfirst
    unfold getFromCache
    rw [getFromCacheLoop_hit fileName _ i e d hget hd hname hfirst]
  · intro hmiss
    unfold getFromCache
    rw [getFromCacheLoop_miss fileName _ hmiss]

/-- C6, witness. Slots: "a" emptied, "B" (age 3), "b" (age 5), "c" (age 4). Looking
up "b" hits slot 1, the first match up to case; looking up "a" finds nothing, the only
slot of that name being empty. -/
theorem getFromCache_spec_witness :
    getFromCache
        ⟨60, [⟨[1], [97], 7, 10, none⟩, ⟨[1], [66], 3, 20, some [5]⟩,
              ⟨[1], [98], 5, 30, some [6]⟩, ⟨[2], [99], 4, 10, some [7]⟩]⟩ [98] =
      (some (20, [5]),
       ⟨60, [⟨[1], [97], 7, 10, none⟩, ⟨[1], [66], 0, 20, some [5]⟩,
             ⟨[1], [98], 5, 30, some [6]⟩, ⟨[2], [99], 4, 10, some [7]⟩]⟩) ∧
    getFromCache
        ⟨60, [⟨[1], [97], 7, 10, none⟩, ⟨[1], [66], 3, 20, some [5]⟩,
              ⟨[1], [98], 5, 30, some [6]⟩, ⟨[2], [99], 4, 10, some [7]⟩]⟩ [97] =
      (none,
       ⟨60, [⟨[1], [97], 7, 10, none⟩, ⟨[1], [66], 3, 20, some [5]⟩,
             ⟨[1], [98], 5, 30, some [6]⟩, ⟨[2], [99], 4, 10, some [7]⟩]⟩) :=
  ⟨(getFromCache_spec
      ⟨60, [⟨[1], [97], 7, 10, none⟩, ⟨[1], [66], 3, 20, some [5]⟩,
            ⟨[1], [98], 5, 30, some [6]⟩, ⟨[2], [99], 4, 10, some [7]⟩]⟩ [98]).1
      1 ⟨[1], [66], 3, 20, some [5]⟩ [5] rfl rfl (by decide)
      (by
        intro j x hj hx hd
        rcases j with _ | j
        · simp at hx
          subst hx
          simp at hd
        · omega),
   (getFromCache_spec
      ⟨60, [⟨[1], [97], 7, 10, none⟩, ⟨[1], [66], 3, 20, some [5]⟩,
            ⟨[1], [98], 5, 30, some [6]⟩, ⟨[2], [99], 4, 10, some [7]⟩]⟩ [97]).2
      (by
        intro j x hx hd
        rcases j with _ | _ | _ | _ | j <;> simp at hx <;> subst hx <;>
          first
          | (simp at hd; done)
          | decide)⟩

/-! ## Slots through the eviction loop and the placement -/

/-- The eviction loop keeps the number of slots, and leaves every slot either as it was
or with its data dropped. -/
theorem evictLoop_slots (maxCacheSize : Nat) (fuel : Nat) (c : Cache) :
    (evictLoop maxCacheSize fuel c)._resourceCache.length = c._resourceCache.length ∧
    ∀ (i : Nat) (v : CacheEntry), c._resourceCache[i]? = some v →
      (evictLoop maxCacheSize fuel c)._resourceCache[i]? = some v ∨
      (evictLoop maxCacheSize fuel c)._resourceCache[i]? = some { v with _data := none } := by
  refine evictLoop_preserves maxCacheSize
    (fun c' => c'._resourceCache.length = c._resourceCache.length ∧
      ∀ (i : Nat) (v : CacheEntry), c._resourceCache[i]? = some v →
        c'._resourceCache[i]? = some v ∨
        c'._resourceCache[i]? = some { v with _data := none })
    ?_ fuel c ⟨rfl, fun i v h => Or.inl h⟩
  intro c1 k c2 ⟨hlen, hslots⟩ hs
  obtain ⟨w, h1, _, _, _, h5⟩ := evictStep_effect _ _ _ _ hs
  refine ⟨by rw [h5, List.length_set, hlen], ?_⟩
  intro i v hv
  rw [h5]
  by_cases hik : k = i
  · subst hik
    have hlt : k < c1._resourceCache.length := by
      rcases Nat.lt_or_ge k c1._resourceCache.length with h | h
      · exact h
      · rw [List.getElem?_eq_none h] at h1
        cases h1
    right
    rw [List.getElem?_set_self hlt]
    rcases hslots k v hv with h | h
    · rw [h] at h1
      cases h1
      rfl
    · rw [h] at h1
      cases h1
      rfl
  · rw [List.getElem?_set_ne hik]
    exact hslots i v hv

/-- Where `placeEntry` writes: the first slot without data. -/
theorem placeEntry_first_empty (new : CacheEntry) (l : List CacheEntry) (k : Nat)
    (x : CacheEntry) (hget : l[k]? = some x) (hx : x._data = none)
    (hfirst : ∀ (j : Nat) (y : CacheEntry), j < k → l[j]? = some y → y._data.isSome = true) :
    placeEntry new l = some (l.set k new) := by
  induction l generalizing k with
  | nil => simp at hget
  | cons a as ih =>
    cases k with
    | zero =>
      simp at hget
      subst hget
      simp [placeEntry, hx]
    | succ k =>
      simp at hget
      have ha := hfirst 0 a (Nat.succ_pos _) (by simp)
      have hrec := ih k hget (fun j y hj hy => hfirst (j + 1) y (by omega) (by simpa using hy))
      unfold placeEntry
      have : a._data.isNone = false := by
        cases hd : a._data <;> simp_all
      simp [this, hrec]

theorem placeEntry_full (new : CacheEntry) (l : List CacheEntry)
    (hfull : ∀ (j : Nat) (y : CacheEntry), l[j]? = some y → y._data.isSome = true) :
    placeEntry new l = none := by
  induction l with
  | nil => rfl
  | cons a as ih =>
    have ha := hfull 0 a (by simp)
    have hrec := ih (fun j y hy => hfull (j + 1) y (by simpa using hy))
    unfold placeEntry
    have : a._data.isNone = false := by
      cases hd : a._data <;> simp_all
    simp [this, hrec]

/-- Every list of slots either has a first slot without data or is full. -/
theorem first_empty_or_full (l : List CacheEntry) :
    (∃ (k : Nat) (x : CacheEntry), l[k]? = some x ∧ x._data = none ∧
      ∀ (j : Nat) (y : CacheEntry), j < k → l[j]? = some y → y._data.isSome = true) ∨
    (∀ (j : Nat) (y : CacheEntry), l[j]? = some y → y._data.isSome = true) := by
  induction l with
  | nil => right; intro j y hy; simp at hy
  | cons a as ih =>
    cases hd : a._data with
    | none => exact Or.inl ⟨0, a, by simp, hd, fun j y hj => by omega⟩
    | some d =>
      rcases ih with ⟨k, x, h1, h2, h3⟩ | hfull
      · left
        refine ⟨k + 1, x, by simpa using h1, h2, ?_⟩
        intro j y hj hy
        cases j with
        | zero =>
          simp at hy
          subst hy
          simp [hd]
        | succ j => exact h3 j y (by omega) (by simpa using hy)
      · right
        intro j y hy
        cases j with
        | zero =>
          simp at hy
          subst hy
          simp [hd]
        | succ j => exact hfull j y (by simpa using hy)

/-- The slots after `addToCache`, from the slots at the exit of the eviction loop. -/
theorem addToCache_slots (maxCacheSize : Nat) (c : Cache) (packName fileName : Path)
    (fileSize : Nat) (fileData : Option Buffer) :
    (∃ (k : Nat) (x : CacheEntry),
      (evictedCache maxCacheSize c fileSize)._resourceCache[k]? = some x ∧ x._data = none ∧
      (∀ (j : Nat) (y : CacheEntry), j < k →
        (evictedCache maxCacheSize c fileSize)._resourceCache[j]? = some y →
        y._data.isSome = true) ∧
      (addToCache maxCacheSize c packName fileName fileSize fileData)._resourceCache =
        (evictedCache maxCacheSize c fileSize)._resourceCache.set k
          (newEntry packName fileName fileSize fileData)) ∨
    ((∀ (j : Nat) (y : CacheEntry),
        (evictedCache maxCacheSize c fileSize)._resourceCache[j]? = some y →
        y._data.isSome = true) ∧
      (addToCache maxCacheSize c packName fileName fileSize fileData)._resourceCache =
        (evictedCache maxCacheSize c fileSize)._resourceCache ++
          [newEntry packName fileName fileSize fileData]) := by
  rcases first_empty_or_full (evictedCache maxCacheSize c fileSize)._resourceCache with
    ⟨k, x, h1, h2, h3⟩ | hfull
  · left
    refine ⟨k, x, h1, h2, h3, ?_⟩
    unfold addToCache
    simp only [placeEntry_first_empty _ _ k x h1 h2 h3]
  · right
    refine ⟨hfull, ?_⟩
    unfold addToCache
    simp only [placeEntry_full _ _ hfull]

theorem evictedCache_length (maxCacheSize : Nat) (c : Cache) (fileSize : Nat) :
    (evictedCache maxCacheSize c fileSize)._resourceCache.length =
      c._resourceCache.length := by
  unfold evictedCache
  rw [(evictLoop_slots _ _ _).1]
  simp [agedCache]

/-- A slot that held data before `addToCache` and still holds data when the eviction
loop is left is, after the call, the same entry one unit older. -/
theorem addToCache_survivor (maxCacheSize : Nat) (c : Cache) (packName fileName : Path)
    (fileSize : Nat) (fileData : Option Buffer) (i : Nat) (e y : CacheEntry)
    (hget : c._resourceCache[i]? = some e) (he : e._data.isSome = true)
    (hy : (evictedCache maxCacheSize c fileSize)._resourceCache[i]? = some y)
    (hlive : y._data.isSome = true) :
    (addToCache maxCacheSize c packName fileName fileSize fileData)._resourceCache[i]? =
      some { e with _age := e._age + 1 } := by
  have haged : (agedCache c fileSize)._resourceCache[i]? =
      some { e with _age := e._age + 1 } := by
    simp [agedCache, hget, ageEntry, he]
  have hyv : y = { e with _age := e._age + 1 } := by
    rcases (evictLoop_slots maxCacheSize c._resourceCache.length
      (agedCache c fileSize)).2 i _ haged with h | h
    · unfold evictedCache at hy
      rw [h] at hy
      cases hy
      rfl
    · unfold evictedCache at hy
      rw [h] at hy
      cases hy
      simp at hlive
  subst hyv
  rcases addToCache_slots maxCacheSize c packName fileName fileSize fileData with
    ⟨k, x, h1, h2, _, h4⟩ | ⟨_, h4⟩
  · rw [h4]
    have hik : k ≠ i := by
      rintro rfl
      rw [hy] at h1
      cases h1
      rw [h2] at hlive
      simp at hlive
    rw [List.getElem?_set_ne hik]
    exact hy
  · rw [h4]
    have hlt : i < (evictedCache maxCacheSize c fileSize)._resourceCache.length := by
      rcases Nat.lt_or_ge i (evictedCache maxCacheSize c fileSize)._resourceCache.length
        with h | h
      · exact h
      · rw [List.getElem?_eq_none h] at hy
        cases hy
    rw [List.getElem?_append_left hlt]
    exact hy

/-! ## Age accounting -/

/-- A lookup leaves every slot in place and never raises an age. -/
theorem getFromCache_age_le (c : Cache) (fileName : Path) (i : Nat) (e : CacheEntry)
    (hget : c._resourceCache[i]? = some e) :
    ∃ e', (getFromCache c fileName).2._resourceCache[i]? = some e' ∧ e'._age ≤ e._age ∧
      e'._data = e._data ∧ e'._size = e._size ∧ e'._fileName = e._fileName ∧
      e'._packName = e._packName := by
  unfold getFromCache
  cases h : getFromCacheLoop fileName c._resourceCache with
  | none => exact ⟨e, hget, le_rfl, rfl, rfl, rfl, rfl⟩
  | some r =>
    obtain ⟨sz, d, l'⟩ := r
    obtain ⟨k, w, g1, _, _, _, g5, _⟩ := getFromCacheLoop_some _ _ _ _ _ h
    simp only [g5]
    by_cases hik : k = i
    · subst hik
      have hlt : k < c._resourceCache.length := by
        rcases Nat.lt_or_ge k c._resourceCache.length with h | h
        · exact h
        · rw [List.getElem?_eq_none h] at hget
          cases hget
      rw [hget] at g1
      cases g1
      exact ⟨_, List.getElem?_set_self hlt, Nat.zero_le _, rfl, rfl, rfl, rfl⟩
    · rw [List.getElem?_set_ne hik]
      exact ⟨e, hget, le_rfl, rfl, rfl, rfl, rfl⟩

/-- A slot left alone by a sequence of calls ages by the number of insertions. -/
theorem leftAlone_age (maxCacheSize : Nat) (x : Nat) (ops : List CacheOp) :
    ∀ (c : Cache) (e : CacheEntry), c._resourceCache[x]? = some e →
      e._data.isSome = true → LeftAlone maxCacheSize x c ops →
      (runOps maxCacheSize c ops)._resourceCache[x]? =
        some { e with _age := e._age + insertCount ops } := by
  induction ops with
  | nil => intro c e hget _ _; simpa [runOps, insertCount] using hget
  | cons op rest ih =>
    intro c e hget he hla
    cases op with
    | insert p n s d =>
      obtain ⟨⟨y, hy, hylive⟩, hrest⟩ := hla
      have hstep := addToCache_survivor maxCacheSize c p n s (some d) x e y hget he hy hylive
      have := ih (applyOp maxCacheSize c (.insert p n s d)) _ hstep he hrest
      simp only [runOps, List.foldl_cons, insertCount] at this ⊢
      rw [this]
      simp only [Option.some.injEq, CacheEntry.mk.injEq, true_and, and_true]
      omega
    | tryGet n =>
      obtain ⟨hsame, hrest⟩ := hla
      have hstep : (applyOp maxCacheSize c (.tryGet n))._resourceCache[x]? = some e := by
        simp only [applyOp]
        rw [hsame, hget]
      have := ih (applyOp maxCacheSize c (.tryGet n)) _ hstep he hrest
      simpa only [runOps, List.foldl_cons, insertCount] using this

/-- C7. Age accounting. (1) An `addToCache` call adds exactly 1 to the age of every slot
that holds data before the call and is not evicted by it (it still holds data when the
eviction loop is left) and changes nothing else in that slot. (2) The inserted entry has
age 0, both when it is written into the first slot without data and when, all slots
holding data, it is appended. (3) A `getFromCache` call raises no age. (4) After a hit
on slot `x`, any sequence of calls that leaves slot `x` alone (no insertion evicts it,
no lookup hits it) ends with slot `x` at an age equal to the number of insertions in the
sequence. -/
theorem age_accounting (maxCacheSize : Nat) :
    (∀ (c : Cache) (packName fileName : Path) (fileSize : Nat) (fileData : Option Buffer)
        (i : Nat) (e y : CacheEntry),
      c._resourceCache[i]? = some e → e._data.isSome = true →
      (evictedCache maxCacheSize c fileSize)._resourceCache[i]? = some y →
      y._data.isSome = true →
      (addToCache maxCacheSize c packName fileName fileSize fileData)._resourceCache[i]? =
        some { _packName := e._packName, _fileName := e._fileName, _age := e._age + 1,
               _size := e._size, _data := e._data }) ∧
    (∀ (c : Cache) (packName fileName : Path) (fileSize : Nat) (fileData : Option Buffer),
      (∀ (k : Nat) (x : CacheEntry),
        (evictedCache maxCacheSize c fileSize)._resourceCache[k]? = some x →
        x._data = none →
        (∀ (j : Nat) (y : CacheEntry), j < k →
          (evictedCache maxCacheSize c fileSize)._resourceCache[j]? = some y →
          y._data.isSome = true) →
        (addToCache maxCacheSize c packName fileName fileSize fileData)._resourceCache[k]? =
          some { _packName := packName, _fileName := fileName, _age := 0,
                 _size := fileSize, _data := fileData }) ∧
      ((∀ (j : Nat) (y : CacheEntry),
          (evictedCache maxCacheSize c fileSize)._resourceCache[j]? = some y →
          y._data.isSome = true) →
        (addToCache maxCacheSize c packName fileName fileSize
            fileData)._resourceCache[c._resourceCache.length]? =
          some { _packName := packName, _fileName := fileName, _age := 0,
                 _size := fileSize, _data := fileData })) ∧
    (∀ (c : Cache) (fileName : Path) (i : Nat) (e : CacheEntry),
      c._resourceCache[i]? = some e →
      ∃ e', (getFromCache c fileName).2._resourceCache[i]? = some e' ∧ e'._age ≤ e._age) ∧
    (∀ (c : Cache) (fileName : Path) (x : Nat) (e : CacheEntry) (d : Buffer)
        (ops : List CacheOp),
      c._resourceCache[x]? = some e → e._data = some d →
      equalsIgnoreCase e._fileName fileName = true →
      (∀ (j : Nat) (w : CacheEntry), j < x → c._resourceCache[j]? = some w →
        w._data.isSome = true → equalsIgnoreCase w._fileName fileName = false) →
      LeftAlone maxCacheSize x (getFromCache c fileName).2 ops →
      (getFromCache c fileName).2._resourceCache[x]? =
          some { _packName := e._packName, _fileName := e._fileName, _age := 0,
                 _size := e._size, _data := e._data } ∧
      (runOps maxCacheSize (getFromCache c fileName).2 ops)._resourceCache[x]? =
          some { _packName := e._packName, _fileName := e._fileName,
                 _age := insertCount ops, _size := e._size, _data := e._data }) := by
  refine ⟨?_, ?_, ?_, ?_⟩
  · intro c p n s d i e y hget he hy hlive
    exact addToCache_survivor maxCacheSize c p n s d i e y hget he hy hlive
  · intro c p n s d
    constructor
    · intro k x hk hx hfirst
      unfold addToCache
      simp only [placeEntry_first_empty _ _ k x hk hx hfirst]
      have hlt : k < (evictedCache maxCacheSize c s)._resourceCache.length := by
        rcases Nat.lt_or_ge k (evictedCache maxCacheSize c s)._resourceCache.length
          with h | h
        · exact h
        · rw [List.getElem?_eq_none h] at hk
          cases hk
      rw [List.getElem?_set_self hlt]
      rfl
    · intro hfull
      unfold addToCache
      simp only [placeEntry_full _ _ hfull]
      rw [← evictedCache_length maxCacheSize c s]
      simp [newEntry, CacheEntry.new]
  · intro c n i e hget
    obtain ⟨e', h1, h2, _⟩ := getFromCache_age_le c n i e hget
    exact ⟨e', h1, h2⟩
  · intro c n x e d ops hget hd hname hfirst hla
    have hhit : (getFromCache c n).2._resourceCache =
        c._resourceCache.set x { e with _age := 0 } := by
      unfold getFromCache
      rw [getFromCacheLoop_hit n _ x e d hget hd hname hfirst]
    have hlt : x < c._resourceCache.length := by
      rcases Nat.lt_or_ge x c._resourceCache.length with h | h
      · exact h
      · rw [List.getElem?_eq_none h] at hget
        cases hget
    have hx0 : (getFromCache c n).2._resourceCache[x]? =
        some { _packName := e._packName, _fileName := e._fileName, _age := 0,
               _size := e._size, _data := e._data } := by
      rw [hhit]
      exact List.getElem?_set_self hlt
    refine ⟨hx0, ?_⟩
    have := leftAlone_age maxCacheSize x ops _ _ hx0 (by simp [hd]) hla
    simpa using this

/-- C7, witness. Budget 250, slots A (100 bytes, age 1) and B (50 bytes, age 0). A
lookup of A is followed by the insertion of 60 bytes, a lookup of B and the insertion
of 30 bytes, none of which evicts or hits A: A ends at age 2. -/
theorem age_accounting_witness :
    (runOps 250
      (getFromCache ⟨150, [⟨[1], [97], 1, 100, some [1]⟩, ⟨[1], [98], 0, 50, some [2]⟩]⟩
        [97]).2
      [.insert [1] [99] 60 [3], .tryGet [98], .insert [1] [100] 30 [4]])._resourceCache[0]? =
      some ⟨[1], [97], 2, 100, some [1]⟩ :=
  ((age_accounting 250).2.2.2
    ⟨150, [⟨[1], [97], 1, 100, some [1]⟩, ⟨[1], [98], 0, 50, some [2]⟩]⟩ [97] 0
    ⟨[1], [97], 1, 100, some [1]⟩ [1]
    [.insert [1] [99] 60 [3], .tryGet [98], .insert [1] [100] 30 [4]]
    rfl rfl (by decide) (by intro j w hj; omega)
    ⟨⟨⟨[1], [97], 1, 100, some [1]⟩, by decide, by decide⟩, by decide,
      ⟨⟨[1], [97], 2, 100, some [1]⟩, by decide, by decide⟩, trivial⟩).2

/-! ## Slot placement -/

/-- When the eviction loop evicts at least one slot, it leaves a slot without data. -/
theorem evictLoop_leaves_empty (maxCacheSize : Nat) (fuel : Nat) (c : Cache)
    (h : evictVictims maxCacheSize fuel c ≠ []) :
    ∃ (k : Nat) (x : CacheEntry),
      (evictLoop maxCacheSize fuel c)._resourceCache[k]? = some x ∧ x._data = none := by
  cases fuel with
  | zero => simp [evictVictims] at h
  | succ n =>
    unfold evictVictims at h
    unfold evictLoop
    cases hs : evictStep maxCacheSize c with
    | none => simp [hs] at h
    | some p =>
      obtain ⟨i, c'⟩ := p
      obtain ⟨v, h1, _, _, _, h5⟩ := evictStep_effect _ _ _ _ hs
      have hlt : i < c._resourceCache.length := by
        rcases Nat.lt_or_ge i c._resourceCache.length with h | h
        · exact h
        · rw [List.getElem?_eq_none h] at h1
          cases h1
      have hi : c'._resourceCache[i]? = some { v with _data := none } := by
        rw [h5]
        exact List.getElem?_set_self hlt
      rcases (evictLoop_slots maxCacheSize n c').2 i _ hi with h | h
      · exact ⟨i, _, h, rfl⟩
      · exact ⟨i, _, h, rfl⟩

theorem addToCache_length_ge (maxCacheSize : Nat) (c : Cache) (packName fileName : Path)
    (fileSize : Nat) (fileData : Option Buffer) :
    c._resourceCache.length ≤
      (addToCache maxCacheSize c packName fileName fileSize fileData)._resourceCache.length := by
  rcases addToCache_slots maxCacheSize c packName fileName fileSize fileData with
    ⟨k, x, _, _, _, h4⟩ | ⟨_, h4⟩
  · rw [h4, List.length_set, evictedCache_length]
  · rw [h4, List.length_append, evictedCache_length]
    omega

/-- C8. Slot placement in `addToCache`. After the eviction phase the new entry is
written into the lowest-index slot without data, if there is one, and the number of
slots is unchanged; if every slot holds data, one slot holding the new entry is appended
and the number of slots grows by exactly 1. An insertion whose eviction loop evicts at
least one slot leaves the number of slots unchanged, and no call and no sequence of
calls on the cache decreases the number of slots. -/
theorem slot_placement (maxCacheSize : Nat) :
    (∀ (c : Cache) (packName fileName : Path) (fileSize : Nat) (fileData : Option Buffer),
      (∀ (k : Nat) (x : CacheEntry),
        (evictedCache maxCacheSize c fileSize)._resourceCache[k]? = some x →
        x._data = none →
        (∀ (j : Nat) (y : CacheEntry), j < k →
          (evictedCache maxCacheSize c fileSize)._resourceCache[j]? = some y →
          y._data.isSome = true) →
        (addToCache maxCacheSize c packName fileName fileSize fileData)._resourceCache =
            (evictedCache maxCacheSize c fileSize)._resourceCache.set k
              { _packName := packName, _fileName := fileName, _age := 0,
                _size := fileSize, _data := fileData } ∧
          (addToCache maxCacheSize c packName fileName fileSize
              fileData)._resourceCache.length = c._resourceCache.length) ∧
      ((∀ (j : Nat) (y : CacheEntry),
          (evictedCache maxCacheSize c fileSize)._resourceCache[j]? = some y →
          y._data.isSome = true) →
        (addToCache maxCacheSize c packName fileName fileSize fileData)._resourceCache =
            (evictedCache maxCacheSize c fileSize)._resourceCache ++
              [{ _packName := packName, _fileName := fileName, _age := 0,
                 _size := fileSize, _data := fileData }] ∧
          (addToCache maxCacheSize c packName fileName fileSize
              fileData)._resourceCache.length = c._resourceCache.length + 1) ∧
      (evictVictims maxCacheSize c._resourceCache.length (agedCache c fileSize) ≠ [] →
        (addToCache maxCacheSize c packName fileName fileSize
            fileData)._resourceCache.length = c._resourceCache.length) ∧
      c._resourceCache.length ≤
        (addToCache maxCacheSize c packName fileName fileSize
          fileData)._resourceCache.length) ∧
    (∀ (c : Cache) (fileName : Path),
      (getFromCache c fileName).2._resourceCache.length = c._resourceCache.length) ∧
    (∀ (c : Cache) (ops : List CacheOp),
      c._resourceCache.length ≤ (runOps maxCacheSize c ops)._resourceCache.length) := by
  refine ⟨?_, ?_, ?_⟩
  · intro c p n s d
    refine ⟨?_, ?_, ?_, addToCache_length_ge maxCacheSize c p n s d⟩
    · intro k x hk hx hfirst
      have : (addToCache maxCacheSize c p n s d)._resourceCache =
          (evictedCache maxCacheSize c s)._resourceCache.set k (newEntry p n s d) := by
        unfold addToCache
        simp only [placeEntry_first_empty _ _ k x hk hx hfirst]
      refine ⟨this, ?_⟩
      rw [this, List.length_set, evictedCache_length]
    · intro hfull
      have : (addToCache maxCacheSize c p n s d)._resourceCache =
          (evictedCache maxCacheSize c s)._resourceCache ++ [newEntry p n s d] := by
        unfold addToCache
        simp only [placeEntry_full _ _ hfull]
      refine ⟨this, ?_⟩
      rw [this, List.length_append, evictedCache_length]
      rfl
    · intro hev
      obtain ⟨k, x, hk, hx⟩ := evictLoop_leaves_empty _ _ _ hev
      rcases addToCache_slots maxCacheSize c p n s d with ⟨k', x', _, _, _, h4⟩ | ⟨hfull, _⟩
      · rw [h4, List.length_set, evictedCache_length]
      · have := hfull k x hk
        rw [hx] at this
        cases this
  · intro c n
    exact (getFromCache_sumSizes c n).2.2
  · intro c ops
    induction ops generalizing c with
    | nil => exact le_rfl
    | cons op rest ih =>
      have h1 : c._resourceCache.length ≤ (applyOp maxCacheSize c op)._resourceCache.length := by
        cases op with
        | insert p n s d => exact addToCache_length_ge maxCacheSize c p n s (some d)
        | tryGet n => exact le_of_eq (getFromCache_sumSizes c n).2.2.symm
      exact le_trans h1 (ih (applyOp maxCacheSize c op))

/-- C8, witness. Budget 250, slots A (100 bytes) and B (50 bytes). Inserting 200 bytes
evicts A and writes the new entry into A's slot, the count staying 2; inserting 60 bytes
instead evicts nothing and appends a third slot. -/
theorem slot_placement_witness :
    (addToCache 250 ⟨150, [⟨[1], [97], 1, 100, some [1]⟩, ⟨[1], [98], 0, 50, some [2]⟩]⟩
        [1] [99] 200 (some [3]))._resourceCache.length = 2 ∧
    (addToCache 250 ⟨150, [⟨[1], [97], 1, 100, some [1]⟩, ⟨[1], [98], 0, 50, some [2]⟩]⟩
        [1] [99] 60 (some [3]))._resourceCache =
      [⟨[1], [97], 2, 100, some [1]⟩, ⟨[1], [98], 1, 50, some [2]⟩,
        ⟨[1], [99], 0, 60, some [3]⟩] :=
  ⟨((slot_placement 250).1
      ⟨150, [⟨[1], [97], 1, 100, some [1]⟩, ⟨[1], [98], 0, 50, some [2]⟩]⟩
      [1] [99] 200 (some [3])).2.2.1 (by decide),
   (((slot_placement 250).1
      ⟨150, [⟨[1], [97], 1, 100, some [1]⟩, ⟨[1], [98], 0, 50, some [2]⟩]⟩
      [1] [99] 60 (some [3])).2.1
      (by
        intro j y hy
        have hev : (evictedCache 250
            ⟨150, [⟨[1], [97], 1, 100, some [1]⟩, ⟨[1], [98], 0, 50, some [2]⟩]⟩
            60)._resourceCache =
            [⟨[1], [97], 2, 100, some [1]⟩, ⟨[1], [98], 1, 50, some [2]⟩] := by decide
        rw [hev] at hy
        rcases j with _ | _ | j <;> simp at hy <;> subst hy <;> rfl)).1⟩

/-! ## Eviction order on a freshly filled cache -/

theorem scanBest_keep (es : List CacheEntry) (i j : Nat) (b : CacheEntry)
    (h : ∀ y ∈ es, y._data.isSome = true → y._age < b._age) :
    scanBest es i (some (j, b)) = some (j, b) := by
  induction es generalizing i with
  | nil => rfl
  | cons x xs ih =>
    have hrec := fun i => ih i (fun y hy => h y (List.mem_cons_of_mem _ hy))
    unfold scanBest
    by_cases hx : x._data.isSome = true
    · have := h x (List.mem_cons_self _ _) hx
      rw [if_pos hx]
      simp only
      rw [if_neg (by omega)]
      exact hrec _
    · rw [if_neg hx]
      exact hrec _

/-- When ages decrease with the slot index, the scan picks the first slot holding
data. -/
theorem scanBest_eq_firstLive (es : List CacheEntry) (i : Nat) (h : AgesDecrease es) :
    scanBest es i none = firstLive es i := by
  induction es generalizing i with
  | nil => rfl
  | cons x xs ih =>
    unfold AgesDecrease at h
    rw [List.pairwise_cons] at h
    obtain ⟨hx, hxs⟩ := h
    unfold scanBest firstLive
    by_cases hl : x._data.isSome = true
    · rw [if_pos hl, if_pos hl]
      exact scanBest_keep _ _ _ _ (fun y hy hyl => hx y hy hl hyl)
    · rw [if_neg hl, if_neg hl]
      exact ih _ hxs

theorem firstLive_none (es : List CacheEntry) (i : Nat) (h : firstLive es i = none) :
    liveSlots es i = [] := by
  induction es generalizing i with
  | nil => rfl
  | cons x xs ih =>
    unfold firstLive at h
    unfold liveSlots
    by_cases hl : x._data.isSome = true
    · rw [if_pos hl] at h
      cases h
    · rw [if_neg hl] at h
      rw [if_neg hl]
      exact ih _ h

theorem firstLive_some (es : List CacheEntry) (i k : Nat) (v : CacheEntry)
    (h : firstLive es i = some (k, v)) :
    i ≤ k ∧ es[k - i]? = some v ∧ v._data.isSome = true ∧
    liveSlots es i = (k, v._size) :: liveSlots (es.set (k - i) { v with _data := none }) i := by
  induction es generalizing i with
  | nil => simp [firstLive] at h
  | cons x xs ih =>
    unfold firstLive at h
    by_cases hl : x._data.isSome = true
    · rw [if_pos hl] at h
      simp only [Option.some.injEq, Prod.mk.injEq] at h
      obtain ⟨h1, h2⟩ := h
      subst h1 h2
      refine ⟨le_rfl, by simp, hl, ?_⟩
      simp [liveSlots, hl]
    · rw [if_neg hl] at h
      obtain ⟨q1, q2, q3, q4⟩ := ih (i + 1) h
      have hk : k - i = (k - (i + 1)) + 1 := by omega
      refine ⟨by omega, ?_, q3, ?_⟩
      · rw [hk]
        simpa using q2
      · rw [hk]
        simp only [List.set_cons_succ, liveSlots, if_neg hl]
        exact q4

theorem agesDecrease_set_dead (es : List CacheEntry) (m : Nat) (w : CacheEntry)
    (hw : w._data = none) (h : AgesDecrease es) : AgesDecrease (es.set m w) := by
  unfold AgesDecrease at *
  induction es generalizing m with
  | nil => simp
  | cons x xs ih =>
    rw [List.pairwise_cons] at h
    obtain ⟨hx, hxs⟩ := h
    cases m with
    | zero =>
      simp only [List.set_cons_zero, List.pairwise_cons]
      refine ⟨?_, hxs⟩
      intro b _ hwl
      rw [hw] at hwl
      cases hwl
    | succ m =>
      simp only [List.set_cons_succ, List.pairwise_cons]
      refine ⟨?_, ih m hxs⟩
      intro b hb hxl hbl
      rcases List.mem_or_eq_of_mem_set hb with hb | hb
      · exact hx b hb hxl hbl
      · subst hb
        rw [hw] at hbl
        cases hbl

/-- One iteration of the eviction loop that evicts slot `i` leaves the cache
`evictSlot c i`. -/
theorem evictStep_evictSlot (maxCacheSize : Nat) (c c' : Cache) (i : Nat)
    (h : evictStep maxCacheSize c = some (i, c')) : c' = evictSlot c i := by
  obtain ⟨v, h1, _, _, h4, h5⟩ := evictStep_effect _ _ _ _ h
  unfold evictSlot
  rw [h1]
  cases c' with
  | mk cs rc =>
    simp only at h4 h5
    simp only [h4, h5]

/-- The eviction loop evicts the slots that `evictVictims` lists, one after the other
in the order of the list, and does nothing else. -/
theorem evictLoop_eq_foldl (maxCacheSize : Nat) (fuel : Nat) :
    ∀ (c : Cache), evictLoop maxCacheSize fuel c =
      (evictVictims maxCacheSize fuel c).foldl evictSlot c := by
  induction fuel with
  | zero => intro c; rfl
  | succ n ih =>
    intro c
    unfold evictLoop evictVictims
    cases hs : evictStep maxCacheSize c with
    | none => rfl
    | some p =>
      obtain ⟨i, c'⟩ := p
      simp only [List.foldl_cons]
      rw [ih c', evictStep_evictSlot _ _ _ _ hs]

/-- The victims of the first `k` iterations of the eviction loop on a cache whose ages
decrease with the slot index. -/
theorem evictVictims_oldestFirst (maxCacheSize : Nat) (k : Nat) :
    ∀ (c : Cache), AgesDecrease c._resourceCache →
      evictVictims maxCacheSize k c =
        (oldestFirst maxCacheSize c._cacheSize (liveSlots c._resourceCache 0)).take k := by
  induction k with
  | zero =>
    intro c _
    simp [evictVictims]
  | succ n ih =>
    intro c hages
    unfold evictVictims evictStep findBestEntry
    rw [scanBest_eq_firstLive _ _ hages]
    cases hf : firstLive c._resourceCache 0 with
    | none =>
      rw [firstLive_none _ _ hf]
      by_cases hover : c._cacheSize > maxCacheSize <;> simp [hover, oldestFirst]
    | some p =>
      obtain ⟨m, v⟩ := p
      obtain ⟨_, q2, q3, q4⟩ := firstLive_some _ _ _ _ hf
      simp only [Nat.sub_zero] at q2 q4
      rw [q4]
      by_cases hover : c._cacheSize > maxCacheSize
      · simp only [hover, if_true, oldestFirst, List.take_succ_cons]
        rw [ih _ (agesDecrease_set_dead _ _ _ rfl hages)]
      · simp only [hover, if_false, oldestFirst, List.take_nil]

theorem oldestFirst_length_le (maxCacheSize : Nat) (l : List (Nat × Nat)) :
    ∀ (total : Nat), (oldestFirst maxCacheSize total l).length ≤ l.length := by
  induction l with
  | nil => intro total; simp [oldestFirst]
  | cons p rest ih =>
    intro total
    obtain ⟨i, sz⟩ := p
    unfold oldestFirst
    split
    · simp only [List.length_cons]
      have := ih ((total + U32 - sz % U32) % U32)
      omega
    · simp

theorem liveSlots_length (l : List CacheEntry) (i : Nat) :
    (liveSlots l i).length = liveCount l := by
  induction l generalizing i with
  | nil => rfl
  | cons e es ih =>
    unfold liveSlots liveCount
    split
    · simp only [List.length_cons, ih]
      omega
    · simp only [ih]
      omega

theorem evictLoop_of_none (maxCacheSize : Nat) (fuel : Nat) (c : Cache)
    (h : evictStep maxCacheSize c = none) : evictLoop maxCacheSize fuel c = c := by
  cases fuel with
  | zero => rfl
  | succ n => simp [evictLoop, h]

theorem liveSlots_map_ageEntry (l : List CacheEntry) (i : Nat) :
    liveSlots (l.map ageEntry) i = liveSlots l i := by
  induction l generalizing i with
  | nil => rfl
  | cons e es ih =>
    simp only [List.map, liveSlots, ih]
    unfold ageEntry
    split <;> simp_all

theorem ageEntry_data (e : CacheEntry) : (ageEntry e)._data = e._data := by
  unfold ageEntry
  split <;> rfl

theorem ageEntry_age (e : CacheEntry) (h : e._data.isSome = true) :
    (ageEntry e)._age = e._age + 1 := by
  unfold ageEntry
  rw [if_pos h]

theorem agesDecrease_map_ageEntry (l : List CacheEntry) (h : AgesDecrease l) :
    AgesDecrease (l.map ageEntry) := by
  unfold AgesDecrease at *
  rw [List.pairwise_map]
  refine h.imp ?_
  intro a b hab ha hb
  rw [ageEntry_data] at ha hb
  rw [ageEntry_age a ha, ageEntry_age b hb]
  have := hab ha hb
  omega

/-- What a freshly filled cache looks like. -/
theorem freshlyFilled_shape (maxCacheSize : Nat) (c : Cache)
    (h : FreshlyFilled maxCacheSize c) :
    AgesDecrease c._resourceCache ∧ (∀ e ∈ c._resourceCache, e._data.isSome = true) ∧
    c._cacheSize = sumSizes c._resourceCache % U32 := by
  induction h with
  | empty =>
    refine ⟨?_, ?_, rfl⟩
    · exact List.Pairwise.nil
    · intro e he
      cases he
  | insert c p n s d _ hstay ih =>
    obtain ⟨i1, i2, i3⟩ := ih
    have hev : evictedCache maxCacheSize c s = agedCache c s := by
      unfold evictedCache
      exact evictLoop_of_none _ _ _ hstay
    have hfull : ∀ (j : Nat) (y : CacheEntry),
        (evictedCache maxCacheSize c s)._resourceCache[j]? = some y →
        y._data.isSome = true := by
      intro j y hy
      rw [hev] at hy
      have hm : y ∈ c._resourceCache.map ageEntry := List.mem_iff_getElem?.mpr ⟨j, hy⟩
      obtain ⟨y0, hy0, rfl⟩ := List.mem_map.mp hm
      rw [ageEntry_data]
      exact i2 y0 hy0
    have hslots : (addToCache maxCacheSize c p n s (some d))._resourceCache =
        c._resourceCache.map ageEntry ++ [newEntry p n s (some d)] := by
      rw [hev] at hfull
      unfold addToCache
      simp only [hev, placeEntry_full _ _ hfull]
      rfl
    have hcs : (addToCache maxCacheSize c p n s (some d))._cacheSize =
        (c._cacheSize + s) % U32 := by
      rw [(addToCache_sumSizes maxCacheSize c p n s (some d)).1, hev]
      rfl
    refine ⟨?_, ?_, ?_⟩
    · rw [hslots]
      unfold AgesDecrease
      rw [List.pairwise_append]
      refine ⟨agesDecrease_map_ageEntry _ i1, List.pairwise_singleton _ _, ?_⟩
      intro a ha b hb hal _
      rw [List.mem_singleton] at hb
      subst hb
      obtain ⟨a0, ha0, rfl⟩ := List.mem_map.mp ha
      rw [ageEntry_age a0 (i2 a0 ha0)]
      simp [newEntry, CacheEntry.new]
    · rw [hslots]
      intro e he
      rcases List.mem_append.mp he with he | he
      · obtain ⟨e0, he0, rfl⟩ := List.mem_map.mp he
        rw [ageEntry_data]
        exact i2 e0 he0
      · rw [List.mem_singleton] at he
        subst he
        rfl
    · rw [hslots, hcs, sumSizes_append, sumSizes_map_ageEntry, i3]
      simp only [sumSizes, newEntry, Option.isSome_some, if_true, Nat.add_zero, U32]
      omega

/-- C9. Eviction order on a freshly filled cache. In a cache filled by consecutive
insertions with no lookup and no eviction in between, every slot holds data, age
strictly decreases with the slot index and the running total is the sum of the sizes
modulo `2^32`. In every cache in which age strictly decreases with the slot index among
the slots holding data, the eviction loop of the next insertion evicts the slots holding
data in slot order, oldest first, and stops at the first moment the running total (the
`uint32` counter `_cacheSize`) no longer exceeds the budget: for every `k`, after `k`
iterations the loop has evicted exactly the first `k` slots of that order (all of them
when there are fewer), the loop of `addToCache` leaves the cache with exactly those
slots evicted, the list of its victims is that order, and `addToCache` returns that
cache with the new entry placed in it. No bound on the sizes or on the budget is
needed. -/
theorem eviction_order_fresh (maxCacheSize : Nat) :
    (∀ (c : Cache), FreshlyFilled maxCacheSize c →
      AgesDecrease c._resourceCache ∧ (∀ e ∈ c._resourceCache, e._data.isSome = true) ∧
      c._cacheSize = sumSizes c._resourceCache % U32) ∧
    (∀ (c : Cache) (fileSize : Nat), AgesDecrease c._resourceCache →
      AgesDecrease (agedCache c fileSize)._resourceCache ∧
      (∀ (k : Nat), evictLoop maxCacheSize k (agedCache c fileSize) =
        ((oldestFirst maxCacheSize ((c._cacheSize + fileSize) % U32)
          (liveSlots c._resourceCache 0)).take k).foldl evictSlot (agedCache c fileSize)) ∧
      evictedCache maxCacheSize c fileSize =
        (oldestFirst maxCacheSize ((c._cacheSize + fileSize) % U32)
          (liveSlots c._resourceCache 0)).foldl evictSlot (agedCache c fileSize) ∧
      evictVictims maxCacheSize c._resourceCache.length (agedCache c fileSize) =
        oldestFirst maxCacheSize ((c._cacheSize + fileSize) % U32)
          (liveSlots c._resourceCache 0) ∧
      (∀ (packName fileName : Path) (fileData : Option Buffer),
        addToCache maxCacheSize c packName fileName fileSize fileData =
          match placeEntry (newEntry packName fileName fileSize fileData)
            ((oldestFirst maxCacheSize ((c._cacheSize + fileSize) % U32)
              (liveSlots c._resourceCache 0)).foldl evictSlot
                (agedCache c fileSize))._resourceCache with
          | some slots =>
            { _cacheSize := ((oldestFirst maxCacheSize ((c._cacheSize + fileSize) % U32)
                (liveSlots c._resourceCache 0)).foldl evictSlot
                  (agedCache c fileSize))._cacheSize,
              _resourceCache := slots }
          | none =>
            { _cacheSize := ((oldestFirst maxCacheSize ((c._cacheSize + fileSize) % U32)
                (liveSlots c._resourceCache 0)).foldl evictSlot
                  (agedCache c fileSize))._cacheSize,
              _resourceCache := ((oldestFirst maxCacheSize ((c._cacheSize + fileSize) % U32)
                (liveSlots c._resourceCache 0)).foldl evictSlot
                  (agedCache c fileSize))._resourceCache ++
                    [newEntry packName fileName fileSize fileData] })) := by
  refine ⟨freshlyFilled_shape maxCacheSize, ?_⟩
  intro c s hages
  have haged : AgesDecrease (agedCache c s)._resourceCache :=
    agesDecrease_map_ageEntry _ hages
  have hvic : ∀ (k : Nat), evictVictims maxCacheSize k (agedCache c s) =
      (oldestFirst maxCacheSize ((c._cacheSize + s) % U32)
        (liveSlots c._resourceCache 0)).take k := by
    intro k
    rw [evictVictims_oldestFirst maxCacheSize k (agedCache c s) haged]
    simp only [agedCache, liveSlots_map_ageEntry]
  have hall : (oldestFirst maxCacheSize ((c._cacheSize + s) % U32)
      (liveSlots c._resourceCache 0)).take c._resourceCache.length =
      oldestFirst maxCacheSize ((c._cacheSize + s) % U32) (liveSlots c._resourceCache 0) := by
    apply List.take_of_length_le
    have h1 := oldestFirst_length_le maxCacheSize (liveSlots c._resourceCache 0)
      ((c._cacheSize + s) % U32)
    have h2 := liveSlots_length c._resourceCache 0
    have h3 := liveCount_le_length c._resourceCache
    omega
  have hev : evictedCache maxCacheSize c s =
      (oldestFirst maxCacheSize ((c._cacheSize + s) % U32)
        (liveSlots c._resourceCache 0)).foldl evictSlot (agedCache c s) := by
    unfold evictedCache
    rw [evictLoop_eq_foldl, hvic, hall]
  refine ⟨haged, ?_, hev, ?_, ?_⟩
  · intro k
    rw [evictLoop_eq_foldl, hvic k]
  · rw [hvic, hall]
  · intro packName fileName fileData
    unfold addToCache
    rw [hev]

/-- C9, witness. Budget 250; A (100 bytes) and B (50 bytes) are inserted into the empty
cache. When C is inserted, A has age 2 and B age 1. With C of 200 bytes only A is
evicted (the total drops to 250) and C ends in the slot of A with age 0; with C of 300
bytes the first iteration evicts A and the second evicts B. -/
theorem eviction_order_fresh_witness :
    (agedCache (addToCache 250 (addToCache 250 Cache.empty [1] [97] 100 (some [1]))
        [1] [98] 50 (some [2])) 200)._resourceCache =
      [⟨[1], [97], 2, 100, some [1]⟩, ⟨[1], [98], 1, 50, some [2]⟩] ∧
    evictVictims 250 2 (agedCache (addToCache 250
        (addToCache 250 Cache.empty [1] [97] 100 (some [1])) [1] [98] 50 (some [2])) 200) =
      [0] ∧
    evictedCache 250 (addToCache 250
        (addToCache 250 Cache.empty [1] [97] 100 (some [1])) [1] [98] 50 (some [2])) 200 =
      ⟨250, [⟨[1], [97], 2, 100, none⟩, ⟨[1], [98], 1, 50, some [2]⟩]⟩ ∧
    addToCache 250 (addToCache 250 (addToCache 250 Cache.empty [1] [97] 100 (some [1]))
        [1] [98] 50 (some [2])) [1] [99] 200 (some [3]) =
      ⟨250, [⟨[1], [99], 0, 200, some [3]⟩, ⟨[1], [98], 1, 50, some [2]⟩]⟩ ∧
    evictLoop 250 1 (agedCache (addToCache 250
        (addToCache 250 Cache.empty [1] [97] 100 (some [1])) [1] [98] 50 (some [2])) 300) =
      ⟨350, [⟨[1], [97], 2, 100, none⟩, ⟨[1], [98], 1, 50, some [2]⟩]⟩ ∧
    evictLoop 250 2 (agedCache (addToCache 250
        (addToCache 250 Cache.empty [1] [97] 100 (some [1])) [1] [98] 50 (some [2])) 300) =
      ⟨300, [⟨[1], [97], 2, 100, none⟩, ⟨[1], [98], 1, 50, none⟩]⟩ ∧
    evictVictims 250 2 (agedCache (addToCache 250
        (addToCache 250 Cache.empty [1] [97] 100 (some [1])) [1] [98] 50 (some [2])) 300) =
      [0, 1] := by
  have hfresh : FreshlyFilled 250 (addToCache 250
      (addToCache 250 Cache.empty [1] [97] 100 (some [1])) [1] [98] 50 (some [2])) :=
    FreshlyFilled.insert _ [1] [98] 50 [2]
      (FreshlyFilled.insert _ [1] [97] 100 [1] FreshlyFilled.empty (by decide))
      (by decide)
  obtain ⟨h1, _, _⟩ := (eviction_order_fresh 250).1 _ hfresh
  obtain ⟨_, _, e200, v200, _⟩ := (eviction_order_fresh 250).2 _ 200 h1
  obtain ⟨_, k300, _, v300, _⟩ := (eviction_order_fresh 250).2 _ 300 h1
  exact ⟨by decide, v200.trans (by decide), e200.trans (by decide), by decide,
    (k300 1).trans (by decide), (k300 2).trans (by decide), v300.trans (by decide)⟩

/-! ## Parsing the directory table -/

theorem le32_value (n : Nat) (h : n < U32) (t : List Byte) :
    READ_LE_UINT32 (le32 n ++ t) 0 = some n := by
  simp only [READ_LE_UINT32, le32, byteOf, List.drop_zero, List.cons_append, List.nil_append,
    Option.some.injEq]
  simp only [U32] at h
  omega

theorem strlen_name (name t : List Byte) (h : (0 : Byte) ∉ name) :
    strlen (name ++ 0 :: t) = some name.length := by
  induction name with
  | nil => simp [strlen]
  | cons b bs ih =>
    have hb : b ≠ 0 := fun hb => h (hb ▸ List.mem_cons_self _ _)
    have := ih (fun hm => h (List.mem_cons_of_mem _ hm))
    simp [strlen, hb, this]

theorem readAt_window (pre p t buffer : List Byte) (hp : p.length ≤ 64) :
    ∃ junk, readAt (pre ++ (p ++ t)) pre.length 64 buffer = p ++ junk := by
  refine ⟨t.take (64 - p.length) ++
    buffer.drop (((pre ++ (p ++ t)).drop pre.length).take 64).length, ?_⟩
  unfold readAt
  rw [List.drop_left, List.take_append_eq_append_take, List.take_of_length_le hp,
    List.append_assoc]

/-- One iteration on a well-formed record that is followed by another offset. -/
theorem openStep_record (nameField : Nat) (pre t buffer name : List Byte)
    (offset next : Nat) (ho : offset < U32) (hn : next < U32) (hne : name ≠ [])
    (hz : (0 : Byte) ∉ name) (hwin : name.length ≤ 55) (hfield : name.length + 1 ≤ nameField)
    (hpos : pre.length + (4 + (name.length + 1)) < 2147483648) :
    ∃ buffer', openStep nameField (pre ++ (le32 offset ++ (name ++ 0 :: (le32 next ++ t))))
        buffer pre.length =
      .next buffer' (pre.length + (4 + (name.length + 1)))
        { _name := name, _offset := offset, _size := (next + U32 - offset) % U32 } := by
  obtain ⟨junk, hj⟩ := readAt_window pre (le32 offset ++ (name ++ 0 :: le32 next)) t buffer
    (by simp [le32]; omega)
  have hrs : pre ++ (le32 offset ++ (name ++ 0 :: (le32 next ++ t))) =
      pre ++ ((le32 offset ++ (name ++ 0 :: le32 next)) ++ t) := by
    simp [List.append_assoc]
  refine ⟨le32 offset ++ (name ++ 0 :: le32 next) ++ junk, ?_⟩
  unfold openStep
  rw [hrs, hj]
  have h0 : READ_LE_UINT32 (le32 offset ++ (name ++ 0 :: le32 next) ++ junk) 0 =
      some offset := by
    rw [List.append_assoc]
    exact le32_value offset ho _
  have hdrop : (le32 offset ++ (name ++ 0 :: le32 next) ++ junk).drop 4 =
      name ++ 0 :: (le32 next ++ junk) := by
    simp [le32]
  have hlen : strlen (name ++ 0 :: (le32 next ++ junk)) = some name.length :=
    strlen_name _ _ hz
  have hnext : READ_LE_UINT32 (le32 offset ++ (name ++ 0 :: le32 next) ++ junk)
      (4 + (name.length + 1)) = some next := by
    have : (le32 offset ++ (name ++ 0 :: le32 next) ++ junk).drop (4 + (name.length + 1)) =
        le32 next ++ junk := by
      rw [← List.drop_drop, hdrop]
      have : name ++ 0 :: (le32 next ++ junk) = (name ++ [0]) ++ (le32 next ++ junk) := by
        simp
      rw [this]
      exact List.drop_left' (by simp)
    have hv := le32_value next hn junk
    unfold READ_LE_UINT32 at hv ⊢
    rw [this]
    simpa using hv
  have hlen0 : name.length ≠ 0 := by
    intro h
    exact hne (List.length_eq_zero.mp h)
  have hname : (name ++ 0 :: (le32 next ++ junk)).take
      (min name.length (nameField - 1)) = name := by
    rw [Nat.min_eq_left (by omega)]
    exact List.take_left' rfl
  simp only [h0, hdrop, hlen, hnext, hlen0, if_false, hpos, if_true, hname]

/-- One iteration on the sentinel record. -/
theorem openStep_sentinel (nameField : Nat) (pre t buffer : List Byte) (offset : Nat) :
    openStep nameField (pre ++ (le32 offset ++ [0] ++ t)) buffer pre.length = .stop := by
  obtain ⟨junk, hj⟩ := readAt_window pre (le32 offset ++ [0]) t buffer (by simp [le32])
  unfold openStep
  rw [hj]
  simp [READ_LE_UINT32, le32, strlen]

theorem encodeTable_head (recs : List (Nat × List Byte)) (s : Nat) :
    ∃ tail, encodeTable recs s = le32 (headOffset recs s) ++ tail := by
  cases recs with
  | nil => exact ⟨[0], rfl⟩
  | cons r rest => exact ⟨r.2 ++ 0 :: encodeTable rest s, rfl⟩

theorem encodeTable_length_ge (recs : List (Nat × List Byte)) (s : Nat) :
    recs.length ≤ (encodeTable recs s).length := by
  induction recs with
  | nil => simp
  | cons r rest ih =>
    simp only [encodeTable, List.length_append, List.length_cons, le32]
    omega

theorem headOffset_lt (nameField : Nat) (recs : List (Nat × List Byte)) (s : Nat)
    (hwf : ∀ r ∈ recs, WellFormedRecord nameField r) (hs : s < U32) :
    headOffset recs s < U32 := by
  cases recs with
  | nil => exact hs
  | cons r rest => exact (hwf r (List.mem_cons_self _ _)).1

/-- The parsing loop, started at the beginning of a well-formed table that sits at
position `pre.length` of the stream, lists the records of the table and stops at the
sentinel. -/
theorem openLoop_table (nameField : Nat) (recs : List (Nat × List Byte)) :
    ∀ (pre t buffer : List Byte) (s : Nat) (pak : PakFile) (fuel : Nat),
      (∀ r ∈ recs, WellFormedRecord nameField r) → s < U32 →
      pre.length + (encodeTable recs s).length < 2147483648 →
      pak._numFiles + recs.length < U32 → recs.length < fuel →
      openLoop nameField (pre ++ (encodeTable recs s ++ t)) fuel buffer pre.length pak =
        .done { _packName := pak._packName, _numFiles := pak._numFiles + recs.length,
                _files := pak._files ++ expectedFiles recs s } := by
  induction recs with
  | nil =>
    intro pre t buffer s pak fuel _ _ _ _ hfuel
    obtain ⟨n, rfl⟩ : ∃ n, fuel = n + 1 := ⟨fuel - 1, by simp at hfuel; omega⟩
    unfold openLoop
    simp only [encodeTable]
    rw [openStep_sentinel]
    simp [expectedFiles]
  | cons r rest ih =>
    intro pre t buffer s pak fuel hwf hs hlen hnum hfuel
    obtain ⟨n, rfl⟩ : ∃ n, fuel = n + 1 := ⟨fuel - 1, by simp at hfuel; omega⟩
    obtain ⟨ho, hne, hz, hwin, hfield⟩ := hwf r (List.mem_cons_self _ _)
    have hwf' : ∀ x ∈ rest, WellFormedRecord nameField x :=
      fun x hx => hwf x (List.mem_cons_of_mem _ hx)
    obtain ⟨tail, htail⟩ := encodeTable_head rest s
    have hlen' : pre.length + (4 + (r.2.length + 1)) + (encodeTable rest s).length
        < 2147483648 := by
      simp only [encodeTable, List.length_append, List.length_cons, le32,
        List.length_nil] at hlen
      omega
    have hstream : pre ++ (encodeTable (r :: rest) s ++ t) =
        pre ++ (le32 r.1 ++ (r.2 ++ 0 :: (le32 (headOffset rest s) ++ (tail ++ t)))) := by
      simp only [encodeTable, htail, List.append_assoc, List.cons_append]
    obtain ⟨buffer', hstep⟩ := openStep_record nameField pre (tail ++ t) buffer r.2 r.1
      (headOffset rest s) ho (headOffset_lt nameField rest s hwf' hs) hne hz hwin hfield
      (by omega)
    have hstream' : pre ++ (encodeTable (r :: rest) s ++ t) =
        (pre ++ (le32 r.1 ++ (r.2 ++ [0]))) ++ (encodeTable rest s ++ t) := by
      simp only [encodeTable, List.append_assoc, List.cons_append, List.nil_append]
    have hpre : (pre ++ (le32 r.1 ++ (r.2 ++ [0]))).length =
        pre.length + (4 + (r.2.length + 1)) := by
      simp only [le32, List.length_append, List.length_cons, List.length_nil]
    unfold openLoop
    rw [hstream, hstep]
    simp only
    rw [← hstream, hstream', ← hpre]
    simp only [List.length_cons] at hnum hfuel
    have hmod : (pak._numFiles + 1) % U32 = pak._numFiles + 1 :=
      Nat.mod_eq_of_lt (by omega)
    rw [ih (pre ++ (le32 r.1 ++ (r.2 ++ [0]))) t buffer' s _ n hwf' hs
      (by rw [hpre]; exact hlen') (by simp only [hmod]; omega) (by omega)]
    simp only [hmod, expectedFiles, List.length_cons, List.append_assoc, List.singleton_append,
      Outcome.done.injEq, PakFile.mk.injEq, true_and, and_true]
    omega

/-- The result of `PakFile::open` on a container that starts with a well-formed table. -/
theorem open_table_done (nameField : Nat) (recs : List (Nat × List Byte))
    (sentinelOffset : Nat) (rest : List Byte) (packName : Path) (buffer0 : List Byte)
    (fuel : Nat)
    (hwf : ∀ r ∈ recs, WellFormedRecord nameField r) (hs : sentinelOffset < U32)
    (hlen : (encodeTable recs sentinelOffset).length < 2147483648)
    (hfuel : recs.length < fuel) :
    PakFile.open nameField PakFile.new (encodeTable recs sentinelOffset ++ rest) packName
        buffer0 fuel =
      .done { _packName := packName, _numFiles := recs.length,
              _files := expectedFiles recs sentinelOffset } := by
  have hn := encodeTable_length_ge recs sentinelOffset
  have := openLoop_table nameField recs [] rest buffer0 sentinelOffset
    { PakFile.new with _numFiles := 0, _packName := packName } fuel hwf hs
    (by simpa using hlen) (by simp only [U32]; omega) hfuel
  simpa [PakFile.open, PakFile.new] using this

/-- C3. Directory parsing in `PakFile::open`. For every container that starts with a
table of `n ≥ 0` well-formed records (32-bit offsets; non-empty NUL-terminated names
that fit the 64-byte read window and the fixed name field), packed contiguously and
followed by a sentinel record, the table being shorter than `2^31` bytes (the range of
the `int32` read position), `open` returns with exactly `n` entries in table order,
entry `i` with name `name_i`, offset `offset_i` and size
`(offset_{i+1} - offset_i) mod 2^32`; the sentinel is not added. Whatever follows the
table, the initial content of the local buffer and any fuel above `n` give this same
result. -/
theorem open_parses_table (nameField : Nat) (recs : List (Nat × List Byte))
    (sentinelOffset : Nat) (rest : List Byte) (packName : Path) (buffer0 : List Byte)
    (fuel : Nat)
    (hwf : ∀ r ∈ recs, WellFormedRecord nameField r) (hs : sentinelOffset < U32)
    (hlen : (encodeTable recs sentinelOffset).length < 2147483648)
    (hfuel : recs.length < fuel) :
    PakFile.open nameField PakFile.new (encodeTable recs sentinelOffset ++ rest) packName
        buffer0 fuel =
      .done { _packName := packName, _numFiles := recs.length,
              _files := expectedFiles recs sentinelOffset } := by
  have hn := encodeTable_length_ge recs sentinelOffset
  have := openLoop_table nameField recs [] rest buffer0 sentinelOffset
    { PakFile.new with _numFiles := 0, _packName := packName } fuel hwf hs
    (by simpa using hlen) (by simp only [U32]; omega) hfuel
  simpa [PakFile.open, PakFile.new] using this

/-- C3, witness. Records at offsets 0, 10, 25 named "A", "BC", "D" and a sentinel at
offset 40, followed by 40 data bytes: three entries of sizes 10, 15, 15. -/
theorem open_parses_table_witness :
    PakFile.open 13 PakFile.new
        (encodeTable [(0, [65]), (10, [66, 67]), (25, [68])] 40 ++ List.replicate 40 7)
        [112] (List.replicate 64 255) 4 =
      .done { _packName := [112], _numFiles := 3,
              _files := [⟨[65], 0, 10⟩, ⟨[66, 67], 10, 15⟩, ⟨[68], 25, 15⟩] } :=
  open_parses_table 13 [(0, [65]), (10, [66, 67]), (25, [68])] 40 (List.replicate 40 7)
    [112] (List.replicate 64 255) 4
    (by
      intro r hr
      simp only [List.mem_cons, List.mem_singleton, List.not_mem_nil, or_false] at hr
      rcases hr with rfl | rfl | rfl <;>
        exact ⟨by decide, by decide, by decide, by decide, by decide⟩)
    (by decide) (by decide) (by decide)

/-! ## Round trip through a container -/

theorem equalsIgnoreCase_iff (a b : Path) :
    equalsIgnoreCase a b = true ↔ a.map toLower = b.map toLower := by
  unfold equalsIgnoreCase
  exact beq_iff_eq

theorem encodeTable_recordsAt_length (files : List (List Byte × List Byte)) (start s : Nat) :
    (encodeTable (recordsAt start files) s).length = tableBytes files := by
  induction files generalizing start with
  | nil => simp [recordsAt, encodeTable, tableBytes, le32]
  | cons f rest ih =>
    simp only [recordsAt, encodeTable, tableBytes, List.length_append, List.length_cons, ih,
      le32, List.length_nil]
    omega

theorem recordsAt_length (files : List (List Byte × List Byte)) (start : Nat) :
    (recordsAt start files).length = files.length := by
  induction files generalizing start with
  | nil => rfl
  | cons f rest ih => simp [recordsAt, ih]

theorem concatData_length (files : List (List Byte × List Byte)) :
    (concatData files).length = dataBytes files := by
  induction files with
  | nil => rfl
  | cons f rest ih => simp [concatData, dataBytes, ih]

theorem headOffset_recordsAt (files : List (List Byte × List Byte)) (start : Nat) :
    headOffset (recordsAt start files) (start + dataBytes files) = start := by
  cases files with
  | nil => simp [recordsAt, headOffset, dataBytes]
  | cons f rest => simp [recordsAt, headOffset]

theorem recordsAt_wellFormed (nameField : Nat) (files : List (List Byte × List Byte))
    (start : Nat)
    (hnames : ∀ f ∈ files, f.1 ≠ [] ∧ (0 : Byte) ∉ f.1 ∧ f.1.length ≤ 55 ∧
      f.1.length + 1 ≤ nameField)
    (hend : start + dataBytes files < U32) :
    ∀ r ∈ recordsAt start files, WellFormedRecord nameField r := by
  induction files generalizing start with
  | nil => intro r hr; cases hr
  | cons f rest ih =>
    intro r hr
    simp only [recordsAt, List.mem_cons] at hr
    simp only [dataBytes] at hend
    rcases hr with rfl | hr
    · obtain ⟨h1, h2, h3, h4⟩ := hnames f (List.mem_cons_self _ _)
      exact ⟨by simp only; omega, h1, h2, h3, h4⟩
    · exact ih (start + f.2.length) (fun g hg => hnames g (List.mem_cons_of_mem _ hg))
        (by omega) r hr

/-- The lookup loop over the entries of a table whose offsets point at the files' bytes
returns, for every file of the table and every spelling of its name, the file's
bytes. -/
theorem getFileDataLoop_roundtrip (fs : FileSystem) (packName : Path) (content : List Byte)
    (hopen : fs.fileOpen packName = some content)
    (files : List (List Byte × List Byte)) :
    ∀ (pre post : List Byte), content = pre ++ (concatData files ++ post) →
      pre.length + dataBytes files < U32 →
      files.Pairwise (fun a b => equalsIgnoreCase a.1 b.1 = false) →
      ∀ f ∈ files, ∀ (fileName : Path), equalsIgnoreCase fileName f.1 = true →
        PakFile.getFileDataLoop fs packName fileName
            (expectedFiles (recordsAt pre.length files) (pre.length + dataBytes files)) =
          some (f.2.length, f.2) := by
  induction files with
  | nil => intro pre post _ _ _ f hf; cases hf
  | cons g rest ih =>
    intro pre post hcontent hend hdist f hf fileName hname
    rw [List.pairwise_cons] at hdist
    obtain ⟨hg, hrest⟩ := hdist
    simp only [dataBytes] at hend
    have hsent : pre.length + dataBytes (g :: rest) =
        (pre.length + g.2.length) + dataBytes rest := by
      simp only [dataBytes]
      omega
    have hsize : (headOffset (recordsAt (pre.length + g.2.length) rest)
        (pre.length + dataBytes (g :: rest)) + U32 - pre.length) % U32 = g.2.length := by
      rw [hsent, headOffset_recordsAt]
      simp only [U32] at *
      omega
    simp only [recordsAt, expectedFiles, PakFile.getFileDataLoop, hopen, hsize]
    rcases List.mem_cons.mp hf with rfl | hf
    · rw [if_pos hname]
      have : (content.drop pre.length).take f.2.length = f.2 := by
        rw [hcontent, List.drop_left]
        simp only [concatData, List.append_assoc]
        exact List.take_left' rfl
      rw [this]
    · have hne : equalsIgnoreCase fileName g.1 = false := by
        cases hq : equalsIgnoreCase fileName g.1
        · rfl
        · have h1 := (equalsIgnoreCase_iff _ _).mp hq
          have h2 := (equalsIgnoreCase_iff _ _).mp hname
          have h3 : equalsIgnoreCase g.1 f.1 = true :=
            (equalsIgnoreCase_iff _ _).mpr (h1.symm.trans h2)
          rw [hg f hf] at h3
          cases h3
      simp only [hne, Bool.false_eq_true, if_false]
      have hpre : (pre ++ g.2).length = pre.length + g.2.length := List.length_append _ _
      have := ih (pre ++ g.2) post
        (by rw [hcontent]; simp only [concatData, List.append_assoc])
        (by rw [hpre]; omega) hrest f hf fileName hname
      rw [hpre] at this
      rw [hsent]
      exact this

/-- C4, as amended. Round trip. For every well-formed container built from (name,
bytes) pairs (names non-empty, NUL-free, at most 55 bytes long so that a record fits the
64-byte read window, and shorter than the fixed name field so that `strlcpy` keeps them
whole; pairwise distinct up to letter case; the directory table with its sentinel
followed by the concatenated data, each offset pointing at its file's bytes; the
container shorter than `2^31` bytes, the range of the `int32` read position and of the
`int32` locals that carry the offsets) that the file system delivers under the pack
name: `PakFile::open` returns, and afterwards `PakFile::getFileData` returns, for every
file of the container and for every spelling of its name that differs only in letter
case, the file's length as size and exactly the file's bytes as buffer. -/
theorem pak_round_trip (nameField : Nat) (files : List (List Byte × List Byte))
    (packName : Path) (buffer0 : List Byte) (fuel : Nat) (fs : FileSystem)
    (hnames : ∀ f ∈ files, f.1 ≠ [] ∧ (0 : Byte) ∉ f.1 ∧ f.1.length ≤ 55 ∧
      f.1.length + 1 ≤ nameField)
    (hdistinct : files.Pairwise (fun a b => equalsIgnoreCase a.1 b.1 = false))
    (hsize : (buildContainer files).length < 2147483648)
    (hfs : fs.fileOpen packName = some (buildContainer files))
    (hfuel : files.length < fuel) :
    ∃ pak, PakFile.open nameField PakFile.new (buildContainer files) packName buffer0 fuel =
        .done pak ∧
      ∀ f ∈ files, ∀ (fileName : Path), equalsIgnoreCase fileName f.1 = true →
        pak.getFileData fs fileName = some (f.2.length, f.2) := by
  have htl := encodeTable_recordsAt_length files (tableBytes files)
    (tableBytes files + dataBytes files)
  have hlen : (buildContainer files).length = tableBytes files + dataBytes files := by
    simp only [buildContainer, List.length_append, htl, concatData_length]
  have hend : tableBytes files + dataBytes files < U32 := by
    simp only [U32]
    omega
  have hwf := recordsAt_wellFormed nameField files (tableBytes files) hnames hend
  refine ⟨_, open_table_done nameField (recordsAt (tableBytes files) files)
    (tableBytes files + dataBytes files) (concatData files) packName buffer0 fuel hwf hend
    (by rw [htl]; omega) (by rw [recordsAt_length]; exact hfuel), ?_⟩
  intro f hf fileName hname
  unfold PakFile.getFileData
  simp only
  rw [List.take_of_length_le (by
    have : ∀ (recs : List (Nat × List Byte)) (s : Nat),
        (expectedFiles recs s).length = recs.length := by
      intro recs s
      induction recs with
      | nil => rfl
      | cons r rest ih => simp [expectedFiles, ih]
    rw [this])]
  have := getFileDataLoop_roundtrip fs packName (buildContainer files) hfs files
    (encodeTable (recordsAt (tableBytes files) files) (tableBytes files + dataBytes files))
    [] (by simp [buildContainer]) (by rw [htl]; exact hend) hdistinct f hf fileName hname
  rw [htl] at this
  exact this

/-- C4, witness. A container holding "A.TXT" (bytes 1, 2, 3) and "b" (bytes 9, 9),
stored under the pack name "p": after `open`, asking for "a.txt" returns 3 bytes
1, 2, 3. -/
theorem pak_round_trip_witness :
    ∃ pak, PakFile.open 13 PakFile.new
        (buildContainer [([65, 46, 84, 88, 84], [1, 2, 3]), ([98], [9, 9])]) [112]
        (List.replicate 64 255) 3 = .done pak ∧
      pak.getFileData
        ⟨fun _ => false, fun p => if p = [112] then
          some (buildContainer [([65, 46, 84, 88, 84], [1, 2, 3]), ([98], [9, 9])]) else none⟩
        [97, 46, 116, 120, 116] = some (3, [1, 2, 3]) := by
  obtain ⟨pak, h1, h2⟩ := pak_round_trip 13 [([65, 46, 84, 88, 84], [1, 2, 3]), ([98], [9, 9])]
    [112] (List.replicate 64 255) 3
    ⟨fun _ => false, fun p => if p = [112] then
      some (buildContainer [([65, 46, 84, 88, 84], [1, 2, 3]), ([98], [9, 9])]) else none⟩
    (by
      intro f hf
      simp only [List.mem_cons, List.mem_singleton, List.not_mem_nil, or_false] at hf
      rcases hf with rfl | rfl <;> exact ⟨by decide, by decide, by decide, by decide⟩)
    (by decide) (by decide) (by decide) (by decide)
  exact ⟨pak, h1, h2 ([65, 46, 84, 88, 84], [1, 2, 3]) (by simp) [97, 46, 116, 120, 116]
    (by decide)⟩

/-- C4, counterexample. A container built as the claim describes from one pair: the
name "ABCDEFGHIJKLM" (13 bytes, non-empty) and the bytes 1, 2, 3; the directory table
(offset 23, the name, the sentinel with offset 26) is followed by the data, and the
container is stored under the pack name "p". With a name field of 13 bytes `open`
returns with one entry of offset 23 and size 3 whose name is cut to the 12 bytes
"ABCDEFGHIJKL" (`strlcpy` into the fixed field), so `getFileData` by the original name
returns null, in upper and in lower case; the bytes are found under the cut name
only. -/
theorem pak_round_trip_name_cut :
    buildContainer [([65, 66, 67, 68, 69, 70, 71, 72, 73, 74, 75, 76, 77], [1, 2, 3])] =
      [23, 0, 0, 0, 65, 66, 67, 68, 69, 70, 71, 72, 73, 74, 75, 76, 77, 0, 26, 0, 0, 0, 0,
        1, 2, 3] ∧
    PakFile.open 13 PakFile.new
        (buildContainer [([65, 66, 67, 68, 69, 70, 71, 72, 73, 74, 75, 76, 77], [1, 2, 3])])
        [112] (List.replicate 64 0) 2 =
      .done ⟨[112], 1, [⟨[65, 66, 67, 68, 69, 70, 71, 72, 73, 74, 75, 76], 23, 3⟩]⟩ ∧
    PakFile.getFileData
        ⟨fun _ => false, fun p => if p = [112] then some (buildContainer
          [([65, 66, 67, 68, 69, 70, 71, 72, 73, 74, 75, 76, 77], [1, 2, 3])]) else none⟩
        ⟨[112], 1, [⟨[65, 66, 67, 68, 69, 70, 71, 72, 73, 74, 75, 76], 23, 3⟩]⟩
        [65, 66, 67, 68, 69, 70, 71, 72, 73, 74, 75, 76, 77] = none ∧
    PakFile.getFileData
        ⟨fun _ => false, fun p => if p = [112] then some (buildContainer
          [([65, 66, 67, 68, 69, 70, 71, 72, 73, 74, 75, 76, 77], [1, 2, 3])]) else none⟩
        ⟨[112], 1, [⟨[65, 66, 67, 68, 69, 70, 71, 72, 73, 74, 75, 76], 23, 3⟩]⟩
        [97, 98, 99, 100, 101, 102, 103, 104, 105, 106, 107, 108, 109] = none ∧
    PakFile.getFileData
        ⟨fun _ => false, fun p => if p = [112] then some (buildContainer
          [([65, 66, 67, 68, 69, 70, 71, 72, 73, 74, 75, 76, 77], [1, 2, 3])]) else none⟩
        ⟨[112], 1, [⟨[65, 66, 67, 68, 69, 70, 71, 72, 73, 74, 75, 76], 23, 3⟩]⟩
        [65, 66, 67, 68, 69, 70, 71, 72, 73, 74, 75, 76] = some (3, [1, 2, 3]) := by
  refine ⟨by decide, by decide, by decide, by decide, by decide⟩

/-! ## What `PakFile::getFileData` reports -/

theorem getFileDataLoop_closed (fs : FileSystem) (packName fileName : Path)
    (l : List PakFile.File) (h : fs.fileOpen packName = none) :
    PakFile.getFileDataLoop fs packName fileName l = none := by
  induction l with
  | nil => rfl
  | cons f rest ih =>
    unfold PakFile.getFileDataLoop
    rw [h]
    simp only [ih, ite_self]

theorem getFileDataLoop_nomatch (fs : FileSystem) (packName fileName : Path)
    (l : List PakFile.File) (h : ∀ f ∈ l, equalsIgnoreCase fileName f._name = false) :
    PakFile.getFileDataLoop fs packName fileName l = none := by
  induction l with
  | nil => rfl
  | cons f rest ih =>
    unfold PakFile.getFileDataLoop
    rw [h f (List.mem_cons_self _ _)]
    simp only [Bool.false_eq_true, if_false]
    exact ih (fun g hg => h g (List.mem_cons_of_mem _ hg))

theorem getFileDataLoop_first (fs : FileSystem) (packName fileName : Path)
    (content : List Byte) (hopen : fs.fileOpen packName = some content)
    (l : List PakFile.File) (i : Nat) (f : PakFile.File) (hget : l[i]? = some f)
    (hname : equalsIgnoreCase fileName f._name = true)
    (hfirst : ∀ (j : Nat) (x : PakFile.File), j < i → l[j]? = some x →
      equalsIgnoreCase fileName x._name = false) :
    PakFile.getFileDataLoop fs packName fileName l =
      some (f._size, (content.drop f._offset).take f._size) := by
  induction l generalizing i with
  | nil => simp at hget
  | cons x xs ih =>
    unfold PakFile.getFileDataLoop
    cases i with
    | zero =>
      simp at hget
      subst hget
      simp [hname, hopen]
    | succ i =>
      simp at hget
      rw [hfirst 0 x (Nat.succ_pos _) (by simp)]
      simp only [Bool.false_eq_true, if_false]
      exact ih i hget (fun j y hj hy => hfirst (j + 1) y (by omega) (by simpa using hy))

theorem getFileDataLoop_some_of_match (fs : FileSystem) (packName fileName : Path)
    (content : List Byte) (hopen : fs.fileOpen packName = some content)
    (l : List PakFile.File) (f : PakFile.File) (hf : f ∈ l)
    (hname : equalsIgnoreCase fileName f._name = true) :
    PakFile.getFileDataLoop fs packName fileName l ≠ none := by
  induction l with
  | nil => cases hf
  | cons x xs ih =>
    unfold PakFile.getFileDataLoop
    by_cases hx : equalsIgnoreCase fileName x._name = true
    · simp [hx, hopen]
    · rw [if_neg hx]
      rcases List.mem_cons.mp hf with rfl | hf
      · exact absurd hname hx
      · exact ih hf

/-- C5, as amended. `PakFile::getFileData` returns null exactly when no entry of the
index matches the name or the container cannot be reopened; the two cases give the same
null result. When the container can be reopened, the first entry that matches the name
up to letter case decides the result: the reported size is that entry's size and the
buffer holds the bytes the container has from the entry's offset on, at most `size` of
them, so a short read still returns a buffer and reports no failure. -/
theorem pak_getFileData_result (fs : FileSystem) (pak : PakFile) (fileName : Path) :
    (pak.getFileData fs fileName = none ↔
      ((∀ f ∈ pak._files.take pak._numFiles, equalsIgnoreCase fileName f._name = false) ∨
        fs.fileOpen pak._packName = none)) ∧
    (∀ (content : List Byte) (i : Nat) (f : PakFile.File),
      fs.fileOpen pak._packName = some content →
      (pak._files.take pak._numFiles)[i]? = some f →
      equalsIgnoreCase fileName f._name = true →
      (∀ (j : Nat) (x : PakFile.File), j < i → (pak._files.take pak._numFiles)[j]? = some x →
        equalsIgnoreCase fileName x._name = false) →
      pak.getFileData fs fileName =
          some (f._size, (content.drop f._offset).take f._size) ∧
        ((content.drop f._offset).take f._size).length =
          min f._size (content.length - f._offset)) := by
  constructor
  · constructor
    · intro hnone
      cases hopen : fs.fileOpen pak._packName with
      | none => exact Or.inr rfl
      | some content =>
        left
        intro f hf
        cases hq : equalsIgnoreCase fileName f._name
        · rfl
        · exact absurd hnone
            (getFileDataLoop_some_of_match fs _ fileName content hopen _ f hf hq)
    · rintro (h | h)
      · exact getFileDataLoop_nomatch fs _ fileName _ h
      · exact getFileDataLoop_closed fs _ fileName _ h
  · intro content i f hopen hget hname hfirst
    refine ⟨getFileDataLoop_first fs _ fileName content hopen _ i f hget hname hfirst, ?_⟩
    simp [List.length_take, List.length_drop]

/-- C5, witness: an index with the entry "A" (offset 2, size 3) over a container of 8
bytes; asking for "a" returns 3 bytes from offset 2. -/
theorem pak_getFileData_result_witness :
    PakFile.getFileData
        ⟨fun _ => false, fun p => if p = [112] then some [0, 1, 2, 3, 4, 5, 6, 7] else none⟩
        ⟨[112], 1, [⟨[65], 2, 3⟩]⟩ [97] = some (3, [2, 3, 4]) :=
  ((pak_getFileData_result
      ⟨fun _ => false, fun p => if p = [112] then some [0, 1, 2, 3, 4, 5, 6, 7] else none⟩
      ⟨[112], 1, [⟨[65], 2, 3⟩]⟩ [97]).2 [0, 1, 2, 3, 4, 5, 6, 7] 0 ⟨[65], 2, 3⟩
      (by decide) (by decide) (by decide) (by intro j x hj; omega)).1

/-- C5, counterexample. An index with the entry "A" (offset 2, size 10). When the
container cannot be reopened the result for "A" is null although an entry matches, the
same result as for the absent name "Z"; when the container has only 8 bytes the result
for "A" is a buffer reported as 10 bytes of which 6 were read. -/
theorem pak_getFileData_no_io_error :
    (equalsIgnoreCase [65] (PakFile.File.mk [65] 2 10)._name = true ∧
     PakFile.getFileData ⟨fun _ => false, fun _ => none⟩ ⟨[112], 1, [⟨[65], 2, 10⟩]⟩ [65] =
       none ∧
     PakFile.getFileData ⟨fun _ => false, fun _ => none⟩ ⟨[112], 1, [⟨[65], 2, 10⟩]⟩ [90] =
       none) ∧
    PakFile.getFileData
        ⟨fun _ => false, fun p => if p = [112] then some [0, 1, 2, 3, 4, 5, 6, 7] else none⟩
        ⟨[112], 1, [⟨[65], 2, 10⟩]⟩ [65] = some (10, [2, 3, 4, 5, 6, 7]) := by
  decide

/-! ## Override precedence -/

/-- C10, as amended. For every manager state and every name that exists as a loose file
and can be opened, `Resources::getFileData` returns that file's size modulo `2^32` and
that many of its leading bytes (the size and all the bytes when the file is shorter than
`2^32` bytes), whatever the cache and the registered containers hold under that name;
it leaves the cache (slots, ages, running total) and the readers unchanged and appends
exactly one buffer, the returned one, to the directly-allocated registry. When the file
exists but cannot be opened, it returns null without consulting cache or containers and
leaves the whole state unchanged. -/
theorem override_precedence (maxCacheSize : Nat) (fs : FileSystem) (self : Resources)
    (fileName : Path) (hexists : fs.fileExists fileName = true) :
    (∀ (content : List Byte), fs.fileOpen fileName = some content →
      (Resources.getFileData maxCacheSize fs self fileName).1 =
          some (content.length % U32, content.take (content.length % U32)) ∧
        (content.length < U32 →
          (Resources.getFileData maxCacheSize fs self fileName).1 =
            some (content.length, content)) ∧
        (Resources.getFileData maxCacheSize fs self fileName).2.toCache = self.toCache ∧
        (Resources.getFileData maxCacheSize fs self fileName).2._pakFiles = self._pakFiles ∧
        (Resources.getFileData maxCacheSize fs self fileName).2._allocatedFileData =
          self._allocatedFileData ++ [content.take (content.length % U32)]) ∧
    (fs.fileOpen fileName = none →
      Resources.getFileData maxCacheSize fs self fileName = (none, self)) := by
  constructor
  · intro content hopen
    have hres : Resources.getFileData maxCacheSize fs self fileName =
        (some (content.length % U32, content.take (content.length % U32)),
         { self with _allocatedFileData :=
             self._allocatedFileData ++ [content.take (content.length % U32)] }) := by
      unfold Resources.getFileData
      rw [if_pos hexists, hopen]
    rw [hres]
    refine ⟨rfl, ?_, rfl, rfl, rfl⟩
    intro hlt
    simp only [Nat.mod_eq_of_lt hlt, List.take_length]
  · intro hopen
    unfold Resources.getFileData
    rw [if_pos hexists, hopen]

/-- C10, witness. The loose file "a" holds 7, 8, 9; the cache holds 4 under "a" and the
reader "p" lists "A". The call returns the loose file's 3 bytes, leaves the cache and
appends the buffer to the registry. -/
theorem override_precedence_witness :
    Resources.getFileData 250
        ⟨fun p => decide (p = [97]),
         fun p => if p = [97] then some [7, 8, 9] else if p = [112] then some [0, 1] else none⟩
        { _cacheSize := 1, _resourceCache := [⟨[112], [97], 5, 1, some [4]⟩],
          _allocatedFileData := [[1]], _pakFiles := [⟨[112], 1, [⟨[65], 0, 1⟩]⟩] } [97] =
      (some (3, [7, 8, 9]),
       { _cacheSize := 1, _resourceCache := [⟨[112], [97], 5, 1, some [4]⟩],
         _allocatedFileData := [[1], [7, 8, 9]], _pakFiles := [⟨[112], 1, [⟨[65], 0, 1⟩]⟩] }) := by
  have h := (override_precedence 250
    ⟨fun p => decide (p = [97]),
     fun p => if p = [97] then some [7, 8, 9] else if p = [112] then some [0, 1] else none⟩
    { _cacheSize := 1, _resourceCache := [⟨[112], [97], 5, 1, some [4]⟩],
      _allocatedFileData := [[1]], _pakFiles := [⟨[112], 1, [⟨[65], 0, 1⟩]⟩] } [97]
    (by decide)).1 [7, 8, 9] (by decide)
  obtain ⟨h1, _, h3, h4, h5⟩ := h
  exact Prod.ext h1 (by
    cases hr : (Resources.getFileData 250
      ⟨fun p => decide (p = [97]),
       fun p => if p = [97] then some [7, 8, 9] else if p = [112] then some [0, 1] else none⟩
      { _cacheSize := 1, _resourceCache := [⟨[112], [97], 5, 1, some [4]⟩],
        _allocatedFileData := [[1]], _pakFiles := [⟨[112], 1, [⟨[65], 0, 1⟩]⟩] } [97]).2
    rw [hr] at h3 h4 h5
    simp only at h3 h4 h5
    subst h3 h4 h5
    rfl)

/-- C10, counterexample. The name "a" exists as a loose file that cannot be opened
(`exists` is true, `open` fails), while the reader "p" lists "A" and the container is
readable: `getFileData` returns null and appends nothing to the registry. -/
theorem override_unopenable_returns_null :
    (fun p => decide (p = ([97] : Path))) [97] = true ∧
    Resources.getFileData 250
        ⟨fun p => decide (p = [97]), fun p => if p = [112] then some [0, 1] else none⟩
        { _cacheSize := 0, _resourceCache := [],
          _allocatedFileData := [], _pakFiles := [⟨[112], 1, [⟨[65], 0, 1⟩]⟩] } [97] =
      (none,
       { _cacheSize := 0, _resourceCache := [],
         _allocatedFileData := [], _pakFiles := [⟨[112], 1, [⟨[65], 0, 1⟩]⟩] }) := by
  decide

/-! ## Fuel of the eviction loop -/

theorem evictLoop_more_fuel (maxCacheSize : Nat) (fuel : Nat) :
    ∀ (c : Cache), evictStep maxCacheSize (evictLoop maxCacheSize fuel c) = none →
      ∀ (k : Nat), evictLoop maxCacheSize (fuel + k) c = evictLoop maxCacheSize fuel c := by
  induction fuel with
  | zero =>
    intro c h k
    simp only [evictLoop] at h
    rw [Nat.zero_add, evictLoop_of_none _ _ _ h]
    rfl
  | succ n ih =>
    intro c h k
    have hk : n + 1 + k = (n + k) + 1 := by omega
    rw [hk]
    unfold evictLoop at h ⊢
    cases hs : evictStep maxCacheSize c with
    | none => rfl
    | some p =>
      obtain ⟨i, c'⟩ := p
      simp only [hs] at h ⊢
      exact ih c' h k

/-- The eviction loop of `addToCache` always terminates: run with one unit of fuel per
slot it is left by its own test (the running total no longer exceeds the budget, or no
slot holds data), and any larger amount of fuel gives the same state. -/
theorem addToCache_eviction_terminates (maxCacheSize : Nat) (c : Cache) (fileSize : Nat) :
    evictStep maxCacheSize (evictedCache maxCacheSize c fileSize) = none ∧
    ((evictedCache maxCacheSize c fileSize)._cacheSize ≤ maxCacheSize ∨
      ∀ e ∈ (evictedCache maxCacheSize c fileSize)._resourceCache, e._data.isSome = false) ∧
    (∀ (fuel : Nat), c._resourceCache.length ≤ fuel →
      evictLoop maxCacheSize fuel (agedCache c fileSize) =
        evictedCache maxCacheSize c fileSize) := by
  have hexit : evictStep maxCacheSize (evictedCache maxCacheSize c fileSize) = none :=
    evictLoop_exit maxCacheSize c._resourceCache.length (agedCache c fileSize)
      (by
        simp only [agedCache, liveCount_map_ageEntry]
        exact liveCount_le_length _)
  refine ⟨hexit, evictStep_none _ _ hexit, ?_⟩
  intro fuel hfuel
  obtain ⟨k, rfl⟩ : ∃ k, fuel = c._resourceCache.length + k := ⟨fuel - c._resourceCache.length, by omega⟩
  exact evictLoop_more_fuel maxCacheSize _ _ hexit k

/-- The termination statement at a concrete cache: budget 250, slots of 100 and 50
bytes, 200 bytes inserted; ten units of fuel give the state that two units give. -/
theorem addToCache_eviction_terminates_witness :
    evictLoop 250 10
        (agedCache ⟨150, [⟨[1], [97], 1, 100, some [1]⟩, ⟨[1], [98], 0, 50, some [2]⟩]⟩ 200) =
      ⟨250, [⟨[1], [97], 2, 100, none⟩, ⟨[1], [98], 1, 50, some [2]⟩]⟩ :=
  ((addToCache_eviction_terminates 250
    ⟨150, [⟨[1], [97], 1, 100, some [1]⟩, ⟨[1], [98], 0, 50, some [2]⟩]⟩ 200).2.2 10
    (by decide)).trans (by decide)

/-! ## The victim is never dominated -/

/-- C19. The eviction victim is never dominated. Whenever an iteration of the eviction
loop evicts slot `i`, holding `v`: no slot holding data has age at least `v`'s and size
at least `v`'s with one of the two strictly greater, and every slot holding data whose
age and size both equal `v`'s comes no later than `i` in slot order, so `v` is the last
of them. -/
theorem victim_not_dominated (maxCacheSize : Nat) (c c' : Cache) (i : Nat)
    (h : evictStep maxCacheSize c = some (i, c')) :
    ∃ v : CacheEntry, c._resourceCache[i]? = some v ∧ v._data.isSome = true ∧
      (∀ (j : Nat) (e : CacheEntry), c._resourceCache[j]? = some e →
        e._data.isSome = true → v._age ≤ e._age → v._size ≤ e._size →
        ¬ (v._age < e._age ∨ v._size < e._size)) ∧
      (∀ (j : Nat) (e : CacheEntry), c._resourceCache[j]? = some e →
        e._data.isSome = true → e._age = v._age → e._size = v._size → j ≤ i) := by
  unfold evictStep at h
  split at h
  · cases hbest : findBestEntry c._resourceCache with
    | none => simp [hbest] at h
    | some p =>
      obtain ⟨k, v⟩ := p
      simp only [hbest, Option.some.injEq, Prod.mk.injEq] at h
      obtain ⟨hk, _⟩ := h
      subst hk
      obtain ⟨h1, h2, h3⟩ := findBestEntry_spec _ _ _ hbest
      refine ⟨v, h1, h2, ?_, ?_⟩
      · intro j e hj he ha hs hstrict
        obtain ⟨q1, q2, _⟩ := h3 j e hj he ha hs
        omega
      · intro j e hj he ha hs
        exact (h3 j e hj he (by omega) (by omega)).2.2
  · cases h

/-- C19, witness. Budget 20, running total 30, three slots of age 1 and size 10: the
iteration evicts slot 2, the last of the three equal slots. -/
theorem victim_not_dominated_witness :
    ∃ v : CacheEntry,
      [(⟨[], [97], 1, 10, some [1]⟩ : CacheEntry), ⟨[], [98], 1, 10, some [2]⟩,
        ⟨[], [99], 1, 10, some [3]⟩][2]? = some v ∧ v._data.isSome = true ∧
      (0 : Nat) ≤ 2 ∧ (1 : Nat) ≤ 2 := by
  obtain ⟨v, h1, h2, _, h4⟩ := victim_not_dominated 20
    ⟨30, [⟨[], [97], 1, 10, some [1]⟩, ⟨[], [98], 1, 10, some [2]⟩,
      ⟨[], [99], 1, 10, some [3]⟩]⟩
    ⟨20, [⟨[], [97], 1, 10, some [1]⟩, ⟨[], [98], 1, 10, some [2]⟩,
      ⟨[], [99], 1, 10, none⟩]⟩ 2 (by decide)
  have hv : v = ⟨[], [99], 1, 10, some [3]⟩ := by
    simp at h1
    exact h1.symm
  subst hv
  exact ⟨_, h1, h2, h4 0 ⟨[], [97], 1, 10, some [1]⟩ (by simp) rfl rfl rfl,
    h4 1 ⟨[], [98], 1, 10, some [2]⟩ (by simp) rfl rfl rfl⟩

/-! ## The running total and the slots -/

/-- One insertion of a buffer keeps the running total congruent to the sum of the live
sizes. -/
theorem addToCache_total_mod (maxCacheSize : Nat) (c : Cache) (packName fileName : Path)
    (fileSize : Nat) (d : Buffer)
    (hinv : c._cacheSize = sumSizes c._resourceCache % U32) :
    (addToCache maxCacheSize c packName fileName fileSize (some d))._cacheSize =
      sumSizes (addToCache maxCacheSize c packName fileName fileSize
        (some d))._resourceCache % U32 := by
  have haged : (agedCache c fileSize)._cacheSize =
      (sumSizes (agedCache c fileSize)._resourceCache + fileSize) % U32 := by
    simp only [agedCache, sumSizes_map_ageEntry, hinv, U32]
    omega
  have hloop := evictLoop_preserves maxCacheSize
    (fun c => c._cacheSize = (sumSizes c._resourceCache + fileSize) % U32)
    (by
      intro c1 i c2 hc hs
      obtain ⟨v, h1, h2, _, h4, h5⟩ := evictStep_effect _ _ _ _ hs
      have h6 := (sumSizes_set_dead _ _ _ h1 h2).1
      show c2._cacheSize = (sumSizes c2._resourceCache + fileSize) % U32
      have hc' : c1._cacheSize = (sumSizes c1._resourceCache + fileSize) % U32 := hc
      rw [h4, h5, hc', ← h6]
      simp only [U32]
      omega)
    c._resourceCache.length (agedCache c fileSize) haged
  obtain ⟨a1, a2⟩ := addToCache_sumSizes maxCacheSize c packName fileName fileSize (some d)
  simp only [Option.isSome_some, if_true] at a2
  rw [a1, a2]
  exact hloop

/-- C17. The running total is consistent with the slots. In every state reached from
the freshly constructed `Resources` object by `addToCache` calls (each handing over a
buffer) and `getFromCache` calls, `_cacheSize` equals the sum of the sizes of the slots
that hold data modulo `2^32`, and equals that sum itself whenever the sum is below
`2^32`. No bound on the inserted sizes or on the budget is needed. -/
theorem cache_total_consistent (maxCacheSize : Nat) (ops : List CacheOp) :
    (runOps maxCacheSize Resources.new.toCache ops)._cacheSize =
      sumSizes (runOps maxCacheSize Resources.new.toCache ops)._resourceCache % U32 ∧
    (sumSizes (runOps maxCacheSize Resources.new.toCache ops)._resourceCache < U32 →
      (runOps maxCacheSize Resources.new.toCache ops)._cacheSize =
        sumSizes (runOps maxCacheSize Resources.new.toCache ops)._resourceCache) := by
  have gen : ∀ (ops : List CacheOp) (c : Cache),
      c._cacheSize = sumSizes c._resourceCache % U32 →
      (runOps maxCacheSize c ops)._cacheSize =
        sumSizes (runOps maxCacheSize c ops)._resourceCache % U32 := by
    intro ops
    induction ops with
    | nil => intro c hc; exact hc
    | cons op rest ih =>
      intro c hc
      show (runOps maxCacheSize (applyOp maxCacheSize c op) rest)._cacheSize = _
      apply ih
      cases op with
      | insert p n s d => exact addToCache_total_mod maxCacheSize c p n s d hc
      | tryGet n =>
        obtain ⟨g1, g2, _⟩ := getFromCache_sumSizes c n
        simp only [applyOp, g1, g2]
        exact hc
  have h := gen ops Resources.new.toCache rfl
  refine ⟨h, ?_⟩
  intro hlt
  rw [h]
  exact Nat.mod_eq_of_lt hlt

/-- C17, witness. Budget 250; 100 and 50 bytes are inserted, one name is looked up and
200 bytes are inserted, which evicts the first slot: the running total 250 is the sum of
the two live sizes. -/
theorem cache_total_consistent_witness :
    (runOps 250 Resources.new.toCache
      [.insert [1] [97] 100 [1], .insert [1] [98] 50 [2], .tryGet [98],
        .insert [1] [99] 200 [3]])._cacheSize =
      sumSizes (runOps 250 Resources.new.toCache
        [.insert [1] [97] 100 [1], .insert [1] [98] 50 [2], .tryGet [98],
          .insert [1] [99] 200 [3]])._resourceCache :=
  (cache_total_consistent 250
    [.insert [1] [97] 100 [1], .insert [1] [98] 50 [2], .tryGet [98],
      .insert [1] [99] 200 [3]]).2 (by decide)

/-! ## Misses -/

theorem getFileDataPaks_none (fs : FileSystem) (fileName : Path) (paks : List PakFile)
    (h : ∀ p ∈ paks, p.getFileData fs fileName = none) :
    getFileDataPaks fs fileName paks = none := by
  induction paks with
  | nil => rfl
  | cons p ps ih =>
    unfold getFileDataPaks
    rw [h p (List.mem_cons_self _ _)]
    exact ih (fun q hq => h q (List.mem_cons_of_mem _ hq))

/-- C13. Idempotent miss. For every manager state and every name that is not a loose
file, is the name of no slot holding data and is in the index of no registered reader
(all up to letter case), `Resources::getFileData` returns null and leaves the whole
state unchanged: cache slots, ages, running total, directly-allocated registry and
reader list. Hence after any number of repeated calls the state is still the same and
each of them returns null. -/
theorem idempotent_miss (maxCacheSize : Nat) (fs : FileSystem) (self : Resources)
    (fileName : Path)
    (hloose : fs.fileExists fileName = false)
    (hcache : ∀ (j : Nat) (x : CacheEntry), self._resourceCache[j]? = some x →
      x._data.isSome = true → equalsIgnoreCase x._fileName fileName = false)
    (hpaks : ∀ p ∈ self._pakFiles, ∀ f ∈ p._files.take p._numFiles,
      equalsIgnoreCase fileName f._name = false) :
    Resources.getFileData maxCacheSize fs self fileName = (none, self) ∧
    ∀ (n : Nat),
      ((fun s => (Resources.getFileData maxCacheSize fs s fileName).2)^[n]) self = self ∧
      (Resources.getFileData maxCacheSize fs
        (((fun s => (Resources.getFileData maxCacheSize fs s fileName).2)^[n]) self)
        fileName).1 = none := by
  have hone : Resources.getFileData maxCacheSize fs self fileName = (none, self) := by
    unfold Resources.getFileData
    have hmiss : getFromCache self.toCache fileName = (none, self.toCache) := by
      unfold getFromCache
      rw [getFromCacheLoop_miss fileName _ hcache]
    have hnone : getFileDataPaks fs fileName self._pakFiles = none :=
      getFileDataPaks_none fs fileName _
        (fun p hp => getFileDataLoop_nomatch fs _ fileName _ (hpaks p hp))
    simp only [hloose, Bool.false_eq_true, if_false, hmiss, hnone]
  refine ⟨hone, ?_⟩
  intro n
  have hfix : ((fun s => (Resources.getFileData maxCacheSize fs s fileName).2)^[n]) self
      = self := by
    apply Function.iterate_fixed
    simp only [hone]
  rw [hfix, hone]
  exact ⟨rfl, rfl⟩

/-- C13, witness. The cache holds "a" only in an emptied slot and "b" in a live one,
the reader "p" lists "C", no loose file exists: asking for "a" returns null and leaves
the state as it is. -/
theorem idempotent_miss_witness :
    Resources.getFileData 250 ⟨fun _ => false, fun _ => some [0, 1, 2]⟩
        { _cacheSize := 1, _resourceCache := [⟨[112], [97], 3, 1, none⟩,
            ⟨[112], [98], 0, 1, some [4]⟩],
          _allocatedFileData := [[1]], _pakFiles := [⟨[112], 1, [⟨[67], 0, 1⟩]⟩] } [97] =
      (none,
        { _cacheSize := 1, _resourceCache := [⟨[112], [97], 3, 1, none⟩,
            ⟨[112], [98], 0, 1, some [4]⟩],
          _allocatedFileData := [[1]], _pakFiles := [⟨[112], 1, [⟨[67], 0, 1⟩]⟩] }) :=
  (idempotent_miss 250 ⟨fun _ => false, fun _ => some [0, 1, 2]⟩
    { _cacheSize := 1, _resourceCache := [⟨[112], [97], 3, 1, none⟩,
        ⟨[112], [98], 0, 1, some [4]⟩],
      _allocatedFileData := [[1]], _pakFiles := [⟨[112], 1, [⟨[67], 0, 1⟩]⟩] } [97]
    rfl
    (by
      intro j x hx hd
      rcases j with _ | _ | j <;> simp at hx <;> subst hx <;>
        first
        | (simp at hd; done)
        | decide)
    (by
      intro p hp f hf
      simp only [List.mem_singleton] at hp
      subst hp
      simp only [List.take_succ_cons, List.take_zero, List.mem_singleton] at hf
      subst hf
      decide)).1

/-! ## Closing a container -/

theorem closePackageLoop_first (fileName : Path) (pre post : List PakFile) (p : PakFile)
    (hp : p._packName = fileName) (hpre : ∀ q ∈ pre, q._packName ≠ fileName) :
    closePackageLoop fileName (pre ++ p :: post) = pre ++ post := by
  induction pre with
  | nil => simp [closePackageLoop, hp]
  | cons q qs ih =>
    have hq := hpre q (List.mem_cons_self _ _)
    simp only [List.cons_append, closePackageLoop, hq, if_false]
    exact congrArg (List.cons q) (ih (fun r hr => hpre r (List.mem_cons_of_mem _ hr)))

theorem closePackageLoop_none (fileName : Path) (paks : List PakFile)
    (h : ∀ q ∈ paks, q._packName ≠ fileName) :
    closePackageLoop fileName paks = paks := by
  induction paks with
  | nil => rfl
  | cons q qs ih =>
    have hq := h q (List.mem_cons_self _ _)
    simp only [closePackageLoop, hq, if_false]
    exact congrArg (List.cons q) (ih (fun r hr => h r (List.mem_cons_of_mem _ hr)))

/-- C14. Closing a container. `Resources::closePackage` removes exactly the first
registered reader whose container path equals the given path and keeps all the other
readers in their order; it changes nothing when no reader has that path; in every case
the cache (slots, ages, running total) and the directly-allocated registry are
unchanged. Therefore `getFromCache` answers every name after the call as before it, and
a name without a loose file that the cache held before the call is still returned by
`getFileData` after it, with the same size and buffer. -/
theorem closePackage_spec (self : Resources) (fileName : Path) :
    (∀ (pre post : List PakFile) (p : PakFile), self._pakFiles = pre ++ p :: post →
      p._packName = fileName → (∀ q ∈ pre, q._packName ≠ fileName) →
      (self.closePackage fileName)._pakFiles = pre ++ post) ∧
    ((∀ q ∈ self._pakFiles, q._packName ≠ fileName) →
      self.closePackage fileName = self) ∧
    (self.closePackage fileName).toCache = self.toCache ∧
    (self.closePackage fileName)._allocatedFileData = self._allocatedFileData ∧
    (∀ (name : Path), getFromCache (self.closePackage fileName).toCache name =
      getFromCache self.toCache name) ∧
    (∀ (maxCacheSize : Nat) (fs : FileSystem) (name : Path) (r : Nat × Buffer) (c : Cache),
      fs.fileExists name = false → getFromCache self.toCache name = (some r, c) →
      (Resources.getFileData maxCacheSize fs (self.closePackage fileName) name).1 =
        some r) := by
  refine ⟨?_, ?_, rfl, rfl, fun _ => rfl, ?_⟩
  · intro pre post p hpaks hp hpre
    simp only [Resources.closePackage, Resources.removePackageFromCache, hpaks]
    exact closePackageLoop_first fileName pre post p hp hpre
  · intro hnone
    simp only [Resources.closePackage, Resources.removePackageFromCache,
      closePackageLoop_none fileName _ hnone]
  · intro maxCacheSize fs name r c hloose hhit
    have hc : (self.closePackage fileName).toCache = self.toCache := rfl
    unfold Resources.getFileData
    simp only [hloose, Bool.false_eq_true, if_false, hc, hhit]

/-- C14, witness. Readers "p", "q", "p" are registered and the cache holds "a" from
"q". Closing "q" leaves the two "p" readers in order and the cache as it is. -/
theorem closePackage_spec_witness :
    (Resources.closePackage
        { _cacheSize := 1, _resourceCache := [⟨[113], [97], 0, 1, some [4]⟩],
          _allocatedFileData := [],
          _pakFiles := [⟨[112], 0, []⟩, ⟨[113], 1, [⟨[65], 0, 1⟩]⟩, ⟨[112], 1, [⟨[66], 0, 1⟩]⟩] }
        [113])._pakFiles = [⟨[112], 0, []⟩, ⟨[112], 1, [⟨[66], 0, 1⟩]⟩] ∧
    (Resources.closePackage
        { _cacheSize := 1, _resourceCache := [⟨[113], [97], 0, 1, some [4]⟩],
          _allocatedFileData := [],
          _pakFiles := [⟨[112], 0, []⟩, ⟨[113], 1, [⟨[65], 0, 1⟩]⟩, ⟨[112], 1, [⟨[66], 0, 1⟩]⟩] }
        [113]).toCache = ⟨1, [⟨[113], [97], 0, 1, some [4]⟩]⟩ :=
  ⟨(closePackage_spec
    { _cacheSize := 1, _resourceCache := [⟨[113], [97], 0, 1, some [4]⟩],
      _allocatedFileData := [],
      _pakFiles := [⟨[112], 0, []⟩, ⟨[113], 1, [⟨[65], 0, 1⟩]⟩, ⟨[112], 1, [⟨[66], 0, 1⟩]⟩] }
    [113]).1 [⟨[112], 0, []⟩] [⟨[112], 1, [⟨[66], 0, 1⟩]⟩] ⟨[113], 1, [⟨[65], 0, 1⟩]⟩ rfl rfl
    (by
      intro q hq
      simp only [List.mem_singleton] at hq
      subst hq
      decide),
   rfl⟩

/-! ## The entry written by `addToCache` -/

theorem equalsIgnoreCase_symm (a b : Path) :
    equalsIgnoreCase a b = equalsIgnoreCase b a := by
  cases h1 : equalsIgnoreCase a b <;> cases h2 : equalsIgnoreCase b a <;> try rfl
  · have := (equalsIgnoreCase_iff _ _).mp h2
    rw [(equalsIgnoreCase_iff _ _).mpr this.symm] at h1
    cases h1
  · have := (equalsIgnoreCase_iff _ _).mp h1
    rw [(equalsIgnoreCase_iff _ _).mpr this.symm] at h2
    cases h2

theorem equalsIgnoreCase_congr_right (a b b' : Path) (h : equalsIgnoreCase b' b = true) :
    equalsIgnoreCase a b' = equalsIgnoreCase a b := by
  have hb := (equalsIgnoreCase_iff _ _).mp h
  unfold equalsIgnoreCase
  rw [hb]

/-- A lookup that misses has seen no slot holding data under a matching name. -/
theorem getFromCacheLoop_none (fileName : Path) (l : List CacheEntry)
    (h : getFromCacheLoop fileName l = none) :
    ∀ (j : Nat) (x : CacheEntry), l[j]? = some x → x._data.isSome = true →
      equalsIgnoreCase x._fileName fileName = false := by
  induction l with
  | nil => intro j x hx; simp at hx
  | cons a as ih =>
    unfold getFromCacheLoop at h
    intro j x hx hd
    cases had : a._data with
    | none =>
      simp only [had, Option.map_eq_none'] at h
      cases j with
      | zero =>
        simp at hx
        subst hx
        rw [had] at hd
        cases hd
      | succ j => exact ih h j x (by simpa using hx) hd
    | some da =>
      simp only [had] at h
      by_cases hname : equalsIgnoreCase a._fileName fileName = true
      · rw [if_pos hname] at h
        cases h
      · rw [if_neg hname, Option.map_eq_none'] at h
        cases j with
        | zero =>
          simp at hx
          subst hx
          simpa using hname
        | succ j => exact ih h j x (by simpa using hx) hd

/-- After `addToCache` some slot `k` holds the new entry, and every other slot that
holds data is a slot that held data before the call, under the same file name. -/
theorem addToCache_new_entry (maxCacheSize : Nat) (c : Cache) (packName fileName : Path)
    (fileSize : Nat) (fileData : Option Buffer) :
    ∃ k : Nat,
      (addToCache maxCacheSize c packName fileName fileSize fileData)._resourceCache[k]? =
        some (newEntry packName fileName fileSize fileData) ∧
      ∀ (j : Nat) (x : CacheEntry), j ≠ k →
        (addToCache maxCacheSize c packName fileName fileSize fileData)._resourceCache[j]? =
          some x →
        x._data.isSome = true →
        ∃ e0 : CacheEntry, c._resourceCache[j]? = some e0 ∧ e0._data.isSome = true ∧
          x._fileName = e0._fileName := by
  have hold : ∀ (j : Nat) (x : CacheEntry),
      (evictedCache maxCacheSize c fileSize)._resourceCache[j]? = some x →
      x._data.isSome = true →
      ∃ e0 : CacheEntry, c._resourceCache[j]? = some e0 ∧ e0._data.isSome = true ∧
        x._fileName = e0._fileName := by
    intro j x hx hd
    have hlt : j < c._resourceCache.length := by
      rw [← evictedCache_length maxCacheSize c fileSize]
      rcases Nat.lt_or_ge j (evictedCache maxCacheSize c fileSize)._resourceCache.length
        with h | h
      · exact h
      · rw [List.getElem?_eq_none h] at hx
        cases hx
    have hc : c._resourceCache[j]? = some c._resourceCache[j] := List.getElem?_eq_getElem hlt
    have haged : (agedCache c fileSize)._resourceCache[j]? =
        some (ageEntry c._resourceCache[j]) := by
      simp [agedCache, hc]
    refine ⟨c._resourceCache[j], hc, ?_⟩
    rcases (evictLoop_slots maxCacheSize c._resourceCache.length
      (agedCache c fileSize)).2 j _ haged with h | h
    · unfold evictedCache at hx
      rw [h] at hx
      cases hx
      rw [ageEntry_data] at hd
      refine ⟨hd, ?_⟩
      unfold ageEntry
      split <;> rfl
    · unfold evictedCache at hx
      rw [h] at hx
      cases hx
      simp at hd
  rcases addToCache_slots maxCacheSize c packName fileName fileSize fileData with
    ⟨k, x, h1, _, _, h4⟩ | ⟨_, h4⟩
  · have hlt : k < (evictedCache maxCacheSize c fileSize)._resourceCache.length := by
      rcases Nat.lt_or_ge k (evictedCache maxCacheSize c fileSize)._resourceCache.length
        with h | h
      · exact h
      · rw [List.getElem?_eq_none h] at h1
        cases h1
    refine ⟨k, by rw [h4]; exact List.getElem?_set_self hlt, ?_⟩
    intro j y hjk hy hd
    rw [h4, List.getElem?_set_ne (Ne.symm hjk)] at hy
    exact hold j y hy hd
  · refine ⟨(evictedCache maxCacheSize c fileSize)._resourceCache.length, ?_, ?_⟩
    · rw [h4]
      simp
    · intro j y hjk hy hd
      rw [h4] at hy
      have hlt : j < (evictedCache maxCacheSize c fileSize)._resourceCache.length := by
        rcases Nat.lt_or_ge j (evictedCache maxCacheSize c fileSize)._resourceCache.length
          with h | h
        · exact h
        · have hj : j < ((evictedCache maxCacheSize c fileSize)._resourceCache ++
              [newEntry packName fileName fileSize fileData]).length := by
            rcases Nat.lt_or_ge j ((evictedCache maxCacheSize c fileSize)._resourceCache ++
              [newEntry packName fileName fileSize fileData]).length with h' | h'
            · exact h'
            · rw [List.getElem?_eq_none h'] at hy
              cases hy
          simp only [List.length_append, List.length_singleton] at hj
          omega
      rw [List.getElem?_append_left hlt] at hy
      exact hold j y hy hd

/-- A lookup right after the insertion of a buffer under a name that the cache missed
returns that buffer and leaves the cache as it is. -/
theorem getFromCache_after_insert (maxCacheSize : Nat) (c : Cache) (packName fileName : Path)
    (fileSize : Nat) (d : Buffer) (fileName' : Path)
    (hmiss : getFromCacheLoop fileName c._resourceCache = none)
    (hname : equalsIgnoreCase fileName' fileName = true) :
    getFromCache (addToCache maxCacheSize c packName fileName fileSize (some d)) fileName' =
      (some (fileSize, d), addToCache maxCacheSize c packName fileName fileSize (some d)) := by
  obtain ⟨k, hk, hothers⟩ :=
    addToCache_new_entry maxCacheSize c packName fileName fileSize (some d)
  have hnone := getFromCacheLoop_none fileName _ hmiss
  have hhit := getFromCacheLoop_hit fileName'
    (addToCache maxCacheSize c packName fileName fileSize (some d))._resourceCache k
    (newEntry packName fileName fileSize (some d)) d hk rfl
    (by
      show equalsIgnoreCase fileName fileName' = true
      rw [equalsIgnoreCase_symm]
      exact hname)
    (by
      intro j x hj hx hd
      obtain ⟨e0, he0, hlive, hfn⟩ := hothers j x (by omega) hx hd
      rw [hfn, equalsIgnoreCase_congr_right _ _ _ hname]
      exact hnone j e0 he0 hlive)
  have hset : (addToCache maxCacheSize c packName fileName fileSize
      (some d))._resourceCache.set k
      { newEntry packName fileName fileSize (some d) with _age := 0 } =
      (addToCache maxCacheSize c packName fileName fileSize (some d))._resourceCache := by
    apply List.ext_getElem?
    intro j
    by_cases hjk : k = j
    · subst hjk
      have hlt : k < (addToCache maxCacheSize c packName fileName fileSize
          (some d))._resourceCache.length := by
        rcases Nat.lt_or_ge k (addToCache maxCacheSize c packName fileName fileSize
          (some d))._resourceCache.length with h | h
        · exact h
        · rw [List.getElem?_eq_none h] at hk
          cases hk
      rw [List.getElem?_set_self hlt, hk]
      rfl
    · rw [List.getElem?_set_ne hjk]
  unfold getFromCache
  rw [hhit, hset]
  rfl

/-! ## The cache serves repeats -/

/-- C12. Cache serves repeats. Let a `getFileData(name)` call return data extracted
from a container: the name has no loose file, the cache misses and some reader delivers
a buffer. Then the call returns that size and buffer, and an immediately following
`getFileData` for the name in any letter case (that spelling having no loose file
either) returns the same size and the same buffer and leaves the state as it is. The
second result comes from the cache alone: it is the same whatever the file system then
delivers for the containers and whatever readers are then registered. No bound on the
size is assumed, so this holds also for a file larger than the budget. -/
theorem cache_serves_repeats (maxCacheSize : Nat) (fs : FileSystem) (self : Resources)
    (fileName packName : Path) (sz : Nat) (d : Buffer)
    (hloose : fs.fileExists fileName = false)
    (hmiss : (getFromCache self.toCache fileName).1 = none)
    (hpak : getFileDataPaks fs fileName self._pakFiles = some (packName, sz, d)) :
    (Resources.getFileData maxCacheSize fs self fileName).1 = some (sz, d) ∧
    (∀ (fileName' : Path), equalsIgnoreCase fileName' fileName = true →
      fs.fileExists fileName' = false →
      Resources.getFileData maxCacheSize fs
          (Resources.getFileData maxCacheSize fs self fileName).2 fileName' =
        (some (sz, d), (Resources.getFileData maxCacheSize fs self fileName).2)) ∧
    (∀ (fs' : FileSystem) (paks' : List PakFile) (fileName' : Path),
      equalsIgnoreCase fileName' fileName = true → fs'.fileExists fileName' = false →
      (Resources.getFileData maxCacheSize fs'
          { toCache := (Resources.getFileData maxCacheSize fs self fileName).2.toCache,
            _allocatedFileData :=
              (Resources.getFileData maxCacheSize fs self fileName).2._allocatedFileData,
            _pakFiles := paks' }
          fileName').1 = some (sz, d)) := by
  have hloop : getFromCacheLoop fileName self._resourceCache = none := by
    unfold getFromCache at hmiss
    cases hl : getFromCacheLoop fileName self._resourceCache with
    | none => rfl
    | some r =>
      obtain ⟨a, b, c⟩ := r
      simp [hl] at hmiss
  have hfirst : Resources.getFileData maxCacheSize fs self fileName =
      (some (sz, d),
        { toCache := addToCache maxCacheSize self.toCache packName fileName sz (some d),
          _allocatedFileData := self._allocatedFileData, _pakFiles := self._pakFiles }) := by
    unfold Resources.getFileData
    have hgc : getFromCache self.toCache fileName = (none, self.toCache) := by
      unfold getFromCache
      rw [hloop]
    simp only [hloose, Bool.false_eq_true, if_false, hgc, hpak]
  have hsecond : ∀ (fs' : FileSystem) (paks' : List PakFile) (fileName' : Path),
      equalsIgnoreCase fileName' fileName = true → fs'.fileExists fileName' = false →
      Resources.getFileData maxCacheSize fs'
          { toCache := addToCache maxCacheSize self.toCache packName fileName sz (some d),
            _allocatedFileData := self._allocatedFileData, _pakFiles := paks' } fileName' =
        (some (sz, d),
          { toCache := addToCache maxCacheSize self.toCache packName fileName sz (some d),
            _allocatedFileData := self._allocatedFileData, _pakFiles := paks' }) := by
    intro fs' paks' fileName' hname hloose'
    have hhit := getFromCache_after_insert maxCacheSize self.toCache packName fileName sz d
      fileName' hloop hname
    unfold Resources.getFileData
    simp only [hloose', Bool.false_eq_true, if_false, hhit]
  refine ⟨by rw [hfirst], ?_, ?_⟩
  · intro fileName' hname hloose'
    rw [hfirst]
    exact hsecond fs self._pakFiles fileName' hname hloose'
  · intro fs' paks' fileName' hname hloose'
    rw [hfirst]
    exact congrArg Prod.fst (hsecond fs' paks' fileName' hname hloose')

/-- C12, witness. Budget 4; the reader "p" lists "A" with 6 bytes, more than the budget.
The first call for "a" extracts them; the second call, for "A", is answered from the
cache and leaves the state unchanged. -/
theorem cache_serves_repeats_witness :
    Resources.getFileData 4
        ⟨fun _ => false, fun p => if p = [112] then some [0, 1, 2, 3, 4, 5, 6, 7] else none⟩
        (Resources.getFileData 4
          ⟨fun _ => false, fun p => if p = [112] then some [0, 1, 2, 3, 4, 5, 6, 7] else none⟩
          { _cacheSize := 0, _resourceCache := [], _allocatedFileData := [],
            _pakFiles := [⟨[112], 1, [⟨[65], 2, 6⟩]⟩] } [97]).2 [65] =
      (some (6, [2, 3, 4, 5, 6, 7]),
        { _cacheSize := 6, _resourceCache := [⟨[112], [97], 0, 6, some [2, 3, 4, 5, 6, 7]⟩],
          _allocatedFileData := [], _pakFiles := [⟨[112], 1, [⟨[65], 2, 6⟩]⟩] }) :=
  ((cache_serves_repeats 4
    ⟨fun _ => false, fun p => if p = [112] then some [0, 1, 2, 3, 4, 5, 6, 7] else none⟩
    { _cacheSize := 0, _resourceCache := [], _allocatedFileData := [],
      _pakFiles := [⟨[112], 1, [⟨[65], 2, 6⟩]⟩] } [97] [112] 6 [2, 3, 4, 5, 6, 7]
    rfl (by decide) (by decide)).2.1 [65] (by decide) rfl).trans (by decide)

/-! ## Archive resolution order -/

theorem openFilePaks_first (fs : FileSystem) (fileName : Path) (pre post : List PakFile)
    (p : PakFile) (sz : Nat) (d : Buffer)
    (hpre : ∀ q ∈ pre, q.getFileData fs fileName = none)
    (hp : p.getFileData fs fileName = some (sz, d)) :
    openFilePaks fs fileName (pre ++ p :: post) = some { _ptr := d, _size := sz } := by
  induction pre with
  | nil => simp [openFilePaks, PakFile.createReadStream, hp]
  | cons q qs ih =>
    simp only [List.cons_append, openFilePaks, PakFile.createReadStream,
      hpre q (List.mem_cons_self _ _)]
    exact ih (fun r hr => hpre r (List.mem_cons_of_mem _ hr))

theorem openFilePaks_none (fs : FileSystem) (fileName : Path) (paks : List PakFile)
    (h : ∀ q ∈ paks, q.getFileData fs fileName = none) :
    openFilePaks fs fileName paks = none := by
  induction paks with
  | nil => rfl
  | cons q qs ih =>
    simp only [openFilePaks, PakFile.createReadStream, h q (List.mem_cons_self _ _)]
    exact ih (fun r hr => h r (List.mem_cons_of_mem _ hr))

/-- C15, as amended. `Resources::openFile` never uses or changes the cache. (1) When the
name exists as a loose file that can be opened, the stream holds the loose file's bytes.
(2) When it exists but cannot be opened, the result is null and no reader is consulted.
(3) When no loose file exists, the stream holds the extraction from the first registered
reader whose index contains the name and whose container can be reopened, the size and
bytes of its first matching entry, whatever readers come after it. (4) When no loose
file exists and every reader either does not list the name or cannot be reopened, the
result is null. (5) The call leaves the whole state unchanged: cache, running total,
directly-allocated registry, readers. (6) The result is the same for any other cache
content. -/
theorem openFile_spec (fs : FileSystem) (self : Resources) (fileName : Path) :
    (fs.fileExists fileName = true → ∀ (content : List Byte),
      fs.fileOpen fileName = some content →
      (self.openFile fs fileName).1 = some { _ptr := content, _size := content.length }) ∧
    (fs.fileExists fileName = true → fs.fileOpen fileName = none →
      (self.openFile fs fileName).1 = none) ∧
    (fs.fileExists fileName = false →
      ∀ (pre post : List PakFile) (p : PakFile) (content : List Byte) (i : Nat)
        (f : PakFile.File),
      self._pakFiles = pre ++ p :: post →
      (∀ q ∈ pre,
        (∀ g ∈ q._files.take q._numFiles, equalsIgnoreCase fileName g._name = false) ∨
          fs.fileOpen q._packName = none) →
      fs.fileOpen p._packName = some content →
      (p._files.take p._numFiles)[i]? = some f →
      equalsIgnoreCase fileName f._name = true →
      (∀ (j : Nat) (g : PakFile.File), j < i →
        (p._files.take p._numFiles)[j]? = some g →
        equalsIgnoreCase fileName g._name = false) →
      (self.openFile fs fileName).1 =
        some { _ptr := (content.drop f._offset).take f._size, _size := f._size }) ∧
    (fs.fileExists fileName = false →
      (∀ q ∈ self._pakFiles,
        (∀ g ∈ q._files.take q._numFiles, equalsIgnoreCase fileName g._name = false) ∨
          fs.fileOpen q._packName = none) →
      (self.openFile fs fileName).1 = none) ∧
    (self.openFile fs fileName).2 = self ∧
    (∀ (c : Cache),
      (Resources.openFile fs
        { toCache := c, _allocatedFileData := self._allocatedFileData,
          _pakFiles := self._pakFiles } fileName).1 = (self.openFile fs fileName).1) := by
  have hnone : ∀ q : PakFile,
      ((∀ g ∈ q._files.take q._numFiles, equalsIgnoreCase fileName g._name = false) ∨
        fs.fileOpen q._packName = none) → q.getFileData fs fileName = none := by
    intro q h
    rcases h with h | h
    · exact getFileDataLoop_nomatch fs _ fileName _ h
    · exact getFileDataLoop_closed fs _ fileName _ h
  refine ⟨?_, ?_, ?_, ?_, ?_, ?_⟩
  · intro hex content hopen
    unfold Resources.openFile
    rw [if_pos hex, hopen]
  · intro hex hopen
    unfold Resources.openFile
    rw [if_pos hex, hopen]
  · intro hex pre post p content i f hpaks hpre hopen hentry hname hfirst
    unfold Resources.openFile
    simp only [hex, Bool.false_eq_true, if_false, hpaks]
    exact openFilePaks_first fs fileName pre post p _ _ (fun q hq => hnone q (hpre q hq))
      (getFileDataLoop_first fs _ fileName content hopen _ i f hentry hname hfirst)
  · intro hex hall
    unfold Resources.openFile
    simp only [hex, Bool.false_eq_true, if_false]
    exact openFilePaks_none fs fileName _ (fun q hq => hnone q (hall q hq))
  · unfold Resources.openFile
    split
    · split <;> rfl
    · rfl
  · intro c
    unfold Resources.openFile
    split
    · split <;> rfl
    · rfl

/-- C15, witness. The loose file "a" holds 7, 8, 9 and the reader "p" lists "A": the
stream for "a" holds the loose file's bytes. For "b", which has no loose file, the
stream holds the two bytes of the entry "B" of the reader "p". -/
theorem openFile_spec_witness :
    (Resources.openFile
        ⟨fun p => decide (p = [97]),
         fun p => if p = [97] then some [7, 8, 9] else
           if p = [112] then some [0, 1, 2, 3] else none⟩
        { _cacheSize := 0, _resourceCache := [], _allocatedFileData := [],
          _pakFiles := [⟨[112], 2, [⟨[65], 0, 1⟩, ⟨[66], 1, 2⟩]⟩] } [97]).1 =
      some ⟨[7, 8, 9], 3⟩ ∧
    (Resources.openFile
        ⟨fun p => decide (p = [97]),
         fun p => if p = [97] then some [7, 8, 9] else
           if p = [112] then some [0, 1, 2, 3] else none⟩
        { _cacheSize := 0, _resourceCache := [], _allocatedFileData := [],
          _pakFiles := [⟨[112], 2, [⟨[65], 0, 1⟩, ⟨[66], 1, 2⟩]⟩] } [98]).1 =
      some ⟨[1, 2], 2⟩ :=
  ⟨(openFile_spec
      ⟨fun p => decide (p = [97]),
       fun p => if p = [97] then some [7, 8, 9] else
         if p = [112] then some [0, 1, 2, 3] else none⟩
      { _cacheSize := 0, _resourceCache := [], _allocatedFileData := [],
        _pakFiles := [⟨[112], 2, [⟨[65], 0, 1⟩, ⟨[66], 1, 2⟩]⟩] } [97]).1
      (by decide) [7, 8, 9] (by decide),
   (openFile_spec
      ⟨fun p => decide (p = [97]),
       fun p => if p = [97] then some [7, 8, 9] else
         if p = [112] then some [0, 1, 2, 3] else none⟩
      { _cacheSize := 0, _resourceCache := [], _allocatedFileData := [],
        _pakFiles := [⟨[112], 2, [⟨[65], 0, 1⟩, ⟨[66], 1, 2⟩]⟩] } [98]).2.2.1
      (by decide) [] [] ⟨[112], 2, [⟨[65], 0, 1⟩, ⟨[66], 1, 2⟩]⟩ [0, 1, 2, 3] 1 ⟨[66], 1, 2⟩
      rfl (by intro q hq; cases hq) (by decide) (by decide) (by decide)
      (by
        intro j g hj hg
        have hj0 : j = 0 := by omega
        subst hj0
        simp at hg
        subst hg
        decide)⟩

/-- C15, counterexample. First state: the name "a" exists as a loose file that cannot
be opened, while the reader "p" lists "A" in a readable container; `openFile` returns
null. Second state: no loose file; the readers "p" and "q" both list "A", the container
"p" cannot be reopened; the stream holds the bytes of "q", not of the first reader
containing the name. -/
theorem openFile_unopenable_sources :
    ((fun p => decide (p = ([97] : Path))) [97] = true ∧
     (Resources.openFile
        ⟨fun p => decide (p = [97]), fun p => if p = [112] then some [0, 1] else none⟩
        { _cacheSize := 0, _resourceCache := [], _allocatedFileData := [],
          _pakFiles := [⟨[112], 1, [⟨[65], 0, 1⟩]⟩] } [97]).1 = none) ∧
    (equalsIgnoreCase [97] (PakFile.File.mk [65] 0 1)._name = true ∧
     (Resources.openFile
        ⟨fun _ => false, fun p => if p = [113] then some [0, 1, 2, 3] else none⟩
        { _cacheSize := 0, _resourceCache := [], _allocatedFileData := [],
          _pakFiles := [⟨[112], 1, [⟨[65], 0, 1⟩]⟩, ⟨[113], 1, [⟨[65], 1, 2⟩]⟩] } [97]).1 =
       some ⟨[1, 2], 2⟩) := by
  decide

/-! ## No duplicate cache keys -/

theorem noDuplicateKeys_iff_keys (l : List CacheEntry) :
    NoDuplicateKeys l ↔
      (l.map slotKey).Pairwise
        (fun a b => a.1 = true → b.1 = true → equalsIgnoreCase a.2 b.2 = false) := by
  unfold NoDuplicateKeys
  rw [List.pairwise_map]
  rfl

theorem noDuplicateKeys_of_keys_eq (l l' : List CacheEntry)
    (h : l'.map slotKey = l.map slotKey) (hl : NoDuplicateKeys l) : NoDuplicateKeys l' := by
  rw [noDuplicateKeys_iff_keys] at hl ⊢
  rw [h]
  exact hl

theorem map_slotKey_set_same (l : List CacheEntry) (i : Nat) (e e' : CacheEntry)
    (hget : l[i]? = some e) (hkey : slotKey e' = slotKey e) :
    (l.set i e').map slotKey = l.map slotKey := by
  induction l generalizing i with
  | nil => simp
  | cons x xs ih =>
    cases i with
    | zero =>
      simp at hget
      subst hget
      simp [hkey]
    | succ i =>
      simp at hget
      simp only [List.set_cons_succ, List.map_cons, ih i hget]

/-- Replacing a slot by an entry that clashes with no slot keeps the keys distinct. -/
theorem noDuplicateKeys_set (l : List CacheEntry) (k : Nat) (new : CacheEntry)
    (hnew : ∀ x ∈ l, x._data.isSome = true → new._data.isSome = true →
      equalsIgnoreCase x._fileName new._fileName = false ∧
        equalsIgnoreCase new._fileName x._fileName = false)
    (hl : NoDuplicateKeys l) : NoDuplicateKeys (l.set k new) := by
  unfold NoDuplicateKeys at *
  induction l generalizing k with
  | nil => simp
  | cons a as ih =>
    rw [List.pairwise_cons] at hl
    obtain ⟨ha, has⟩ := hl
    cases k with
    | zero =>
      simp only [List.set_cons_zero, List.pairwise_cons]
      refine ⟨?_, has⟩
      intro b hb hn hbl
      exact (hnew b (List.mem_cons_of_mem _ hb) hbl hn).2
    | succ k =>
      simp only [List.set_cons_succ, List.pairwise_cons]
      refine ⟨?_, ih k (fun x hx => hnew x (List.mem_cons_of_mem _ hx)) has⟩
      intro b hb hal hbl
      rcases List.mem_or_eq_of_mem_set hb with hb | hb
      · exact ha b hb hal hbl
      · subst hb
        exact (hnew a (List.mem_cons_self _ _) hal hbl).1

theorem evictLoop_noDuplicateKeys (maxCacheSize : Nat) (fuel : Nat) (c : Cache)
    (h : NoDuplicateKeys c._resourceCache) :
    NoDuplicateKeys (evictLoop maxCacheSize fuel c)._resourceCache := by
  refine evictLoop_preserves maxCacheSize (fun c => NoDuplicateKeys c._resourceCache)
    ?_ fuel c h
  intro c1 i c2 hc hs
  obtain ⟨v, _, _, _, _, h5⟩ := evictStep_effect _ _ _ _ hs
  show NoDuplicateKeys c2._resourceCache
  rw [h5]
  refine noDuplicateKeys_set _ _ _ ?_ hc
  intro x _ _ hn
  cases hn

/-- Every slot that holds data when the eviction loop is left held data, under the same
file name, before the call. -/
theorem evictedCache_live_origin (maxCacheSize : Nat) (c : Cache) (fileSize : Nat)
    (x : CacheEntry) (hx : x ∈ (evictedCache maxCacheSize c fileSize)._resourceCache)
    (hd : x._data.isSome = true) :
    ∃ e0 ∈ c._resourceCache, e0._data.isSome = true ∧ x._fileName = e0._fileName := by
  obtain ⟨j, hj⟩ := List.mem_iff_getElem?.mp hx
  have hlt : j < c._resourceCache.length := by
    rw [← evictedCache_length maxCacheSize c fileSize]
    rcases Nat.lt_or_ge j (evictedCache maxCacheSize c fileSize)._resourceCache.length
      with h | h
    · exact h
    · rw [List.getElem?_eq_none h] at hj
      cases hj
  have hc : c._resourceCache[j]? = some c._resourceCache[j] := List.getElem?_eq_getElem hlt
  have haged : (agedCache c fileSize)._resourceCache[j]? =
      some (ageEntry c._resourceCache[j]) := by
    simp [agedCache, hc]
  refine ⟨c._resourceCache[j], List.getElem_mem hlt, ?_⟩
  rcases (evictLoop_slots maxCacheSize c._resourceCache.length
    (agedCache c fileSize)).2 j _ haged with h | h
  · unfold evictedCache at hj
    rw [h] at hj
    cases hj
    rw [ageEntry_data] at hd
    refine ⟨hd, ?_⟩
    unfold ageEntry
    split <;> rfl
  · unfold evictedCache at hj
    rw [h] at hj
    cases hj
    simp at hd

/-- Inserting under a name that the cache missed keeps the keys distinct. -/
theorem addToCache_noDuplicateKeys (maxCacheSize : Nat) (c : Cache) (packName fileName : Path)
    (fileSize : Nat) (fileData : Option Buffer)
    (hmiss : getFromCacheLoop fileName c._resourceCache = none)
    (h : NoDuplicateKeys c._resourceCache) :
    NoDuplicateKeys
      (addToCache maxCacheSize c packName fileName fileSize fileData)._resourceCache := by
  have hev : NoDuplicateKeys (evictedCache maxCacheSize c fileSize)._resourceCache := by
    unfold evictedCache
    apply evictLoop_noDuplicateKeys
    refine noDuplicateKeys_of_keys_eq c._resourceCache _ ?_ h
    simp only [agedCache, List.map_map]
    apply List.map_congr_left
    intro e _
    simp only [Function.comp, slotKey, ageEntry_data]
    unfold ageEntry
    split <;> rfl
  have hnone := getFromCacheLoop_none fileName _ hmiss
  have hnew : ∀ x ∈ (evictedCache maxCacheSize c fileSize)._resourceCache,
      x._data.isSome = true →
      (newEntry packName fileName fileSize fileData)._data.isSome = true →
      equalsIgnoreCase x._fileName (newEntry packName fileName fileSize fileData)._fileName
          = false ∧
        equalsIgnoreCase (newEntry packName fileName fileSize fileData)._fileName x._fileName
          = false := by
    intro x hx hd _
    obtain ⟨e0, he0, hlive, hfn⟩ := evictedCache_live_origin maxCacheSize c fileSize x hx hd
    obtain ⟨j, hj⟩ := List.mem_iff_getElem?.mp he0
    have := hnone j e0 hj hlive
    show equalsIgnoreCase x._fileName fileName = false ∧
      equalsIgnoreCase fileName x._fileName = false
    rw [hfn]
    refine ⟨this, ?_⟩
    rw [equalsIgnoreCase_symm]
    exact this
  rcases addToCache_slots maxCacheSize c packName fileName fileSize fileData with
    ⟨k, x, _, _, _, h4⟩ | ⟨_, h4⟩
  · rw [h4]
    exact noDuplicateKeys_set _ _ _ hnew hev
  · rw [h4]
    unfold NoDuplicateKeys
    rw [List.pairwise_append]
    refine ⟨hev, List.pairwise_singleton _ _, ?_⟩
    intro a ha b hb hal hbl
    rw [List.mem_singleton] at hb
    subst hb
    exact (hnew a ha hal hbl).1

/-- The method `getFileData` keeps the keys of the cache distinct. -/
theorem getFileData_noDuplicateKeys (maxCacheSize : Nat) (fs : FileSystem) (self : Resources)
    (fileName : Path) (h : NoDuplicateKeys self._resourceCache) :
    NoDuplicateKeys (Resources.getFileData maxCacheSize fs self fileName).2._resourceCache := by
  unfold Resources.getFileData
  split
  · split
    · exact h
    · exact h
  · unfold getFromCache
    cases hl : getFromCacheLoop fileName self._resourceCache with
    | some r =>
      obtain ⟨sz, d, l'⟩ := r
      obtain ⟨i, e, g1, _, _, _, g5, _⟩ := getFromCacheLoop_some _ _ _ _ _ hl
      simp only
      refine noDuplicateKeys_of_keys_eq self._resourceCache _ ?_ h
      rw [g5]
      exact map_slotKey_set_same _ _ _ _ g1 rfl
    | none =>
      simp only
      split
      · exact addToCache_noDuplicateKeys maxCacheSize self.toCache _ fileName _ _ hl h
      · exact h

theorem applyManagerOp_noDuplicateKeys (nameField maxCacheSize : Nat) (s s' : Resources)
    (op : ManagerOp) (h : NoDuplicateKeys s._resourceCache)
    (hop : applyManagerOp nameField maxCacheSize s op = some s') :
    NoDuplicateKeys s'._resourceCache := by
  cases op with
  | openPackage fs fileName buffer0 fuel =>
    simp only [applyManagerOp, Resources.openPackage] at hop
    cases hf : fs.fileOpen fileName with
    | none =>
      simp only [hf, Option.some.injEq] at hop
      subst hop
      exact h
    | some content =>
      simp only [hf] at hop
      cases ho : PakFile.open nameField PakFile.new content fileName buffer0 fuel with
      | done pak =>
        simp only [ho, Option.some.injEq] at hop
        subst hop
        exact h
      | undefined => simp [ho] at hop
      | outOfFuel => simp [ho] at hop
  | closePackage fileName =>
    simp only [applyManagerOp, Option.some.injEq] at hop
    subst hop
    exact h
  | getFileData fs fileName =>
    simp only [applyManagerOp, Option.some.injEq] at hop
    subst hop
    exact getFileData_noDuplicateKeys maxCacheSize fs s fileName h
  | openFile fs fileName =>
    simp only [applyManagerOp, Option.some.injEq] at hop
    subst hop
    have : (s.openFile fs fileName).2 = s := by
      unfold Resources.openFile
      split
      · split <;> rfl
      · rfl
    rw [this]
    exact h

/-- C18. No duplicate cache keys arise through the public interface. In every manager
state reached from the freshly constructed `Resources` object by `openPackage`,
`closePackage`, `getFileData` and `openFile` calls, each made on any file system, no
two cache slots that hold data have file names equal up to letter case: for slots
`i < j` holding `a` and `b` with data, `a`'s and `b`'s file names differ. -/
theorem no_duplicate_cache_keys (nameField maxCacheSize : Nat) (ops : List ManagerOp)
    (s : Resources) (hrun : runManager nameField maxCacheSize Resources.new ops = some s) :
    NoDuplicateKeys s._resourceCache ∧
    ∀ (i j : Nat) (a b : CacheEntry), i < j → s._resourceCache[i]? = some a →
      s._resourceCache[j]? = some b → a._data.isSome = true → b._data.isSome = true →
      equalsIgnoreCase a._fileName b._fileName = false := by
  have gen : ∀ (ops : List ManagerOp) (s0 s : Resources),
      NoDuplicateKeys s0._resourceCache →
      runManager nameField maxCacheSize s0 ops = some s →
      NoDuplicateKeys s._resourceCache := by
    intro ops
    induction ops with
    | nil =>
      intro s0 s h0 hrun
      simp only [runManager, Option.some.injEq] at hrun
      subst hrun
      exact h0
    | cons op rest ih =>
      intro s0 s h0 hrun
      unfold runManager at hrun
      cases hop : applyManagerOp nameField maxCacheSize s0 op with
      | none => simp [hop] at hrun
      | some s1 =>
        simp only [hop] at hrun
        exact ih s1 s (applyManagerOp_noDuplicateKeys nameField maxCacheSize s0 s1 op h0 hop)
          hrun
  have hnd := gen ops Resources.new s List.Pairwise.nil hrun
  refine ⟨hnd, ?_⟩
  intro i j a b hij hi hj hal hbl
  have hlti : i < s._resourceCache.length := by
    rcases Nat.lt_or_ge i s._resourceCache.length with h | h
    · exact h
    · rw [List.getElem?_eq_none h] at hi
      cases hi
  have hltj : j < s._resourceCache.length := by
    rcases Nat.lt_or_ge j s._resourceCache.length with h | h
    · exact h
    · rw [List.getElem?_eq_none h] at hj
      cases hj
  rw [List.getElem?_eq_getElem hlti] at hi
  rw [List.getElem?_eq_getElem hltj] at hj
  cases hi
  cases hj
  exact List.pairwise_iff_getElem.mp hnd i j hlti hltj hij hal hbl

/-- C18, witness. The container "p" (one file "A" of 3 bytes) is opened, then "a", "A"
and "a" again are requested and the container is closed: the cache holds one slot. -/
theorem no_duplicate_cache_keys_witness :
    NoDuplicateKeys [(⟨[112], [97], 0, 3, some [1, 2, 3]⟩ : CacheEntry)] :=
  (no_duplicate_cache_keys 13 250
    [.openPackage ⟨fun _ => false, fun p => if p = [112] then
        some (buildContainer [([65], [1, 2, 3])]) else none⟩ [112] (List.replicate 64 0) 2,
     .getFileData ⟨fun _ => false, fun p => if p = [112] then
        some (buildContainer [([65], [1, 2, 3])]) else none⟩ [97],
     .getFileData ⟨fun _ => false, fun p => if p = [112] then
        some (buildContainer [([65], [1, 2, 3])]) else none⟩ [65],
     .openFile ⟨fun _ => false, fun p => if p = [112] then
        some (buildContainer [([65], [1, 2, 3])]) else none⟩ [97],
     .getFileData ⟨fun _ => false, fun p => if p = [112] then
        some (buildContainer [([65], [1, 2, 3])]) else none⟩ [97],
     .closePackage [112]]
    { _cacheSize := 3, _resourceCache := [⟨[112], [97], 0, 3, some [1, 2, 3]⟩],
      _allocatedFileData := [], _pakFiles := [] }
    (by decide)).1

/-! ## A truncated container -/

/-- Once the read position is at or past the end of the 10-byte stream below, every read
delivers nothing, the buffer keeps the record "A" it holds, and the loop never reaches
its `break`: it ends by lack of fuel or by overflow of the position. -/
theorem openLoop_stale (fuel : Nat) :
    ∀ (pos : Nat) (pak : PakFile), 10 ≤ pos →
      openLoop 13 [0, 0, 0, 0, 65, 0, 10, 0, 0, 0] fuel
          ([10, 0, 0, 0, 65, 0, 10, 0, 0, 0] ++ List.replicate 54 0) pos pak = .outOfFuel ∨
        openLoop 13 [0, 0, 0, 0, 65, 0, 10, 0, 0, 0] fuel
          ([10, 0, 0, 0, 65, 0, 10, 0, 0, 0] ++ List.replicate 54 0) pos pak = .undefined := by
  induction fuel with
  | zero => intro pos pak _; exact Or.inl rfl
  | succ n ih =>
    intro pos pak hpos
    have hread : readAt [0, 0, 0, 0, 65, 0, 10, 0, 0, 0] pos 64
        ([10, 0, 0, 0, 65, 0, 10, 0, 0, 0] ++ List.replicate 54 0) =
        [10, 0, 0, 0, 65, 0, 10, 0, 0, 0] ++ List.replicate 54 0 := by
      unfold readAt
      rw [List.drop_eq_nil_of_le (by simpa using hpos)]
      rfl
    have hstep : openStep 13 [0, 0, 0, 0, 65, 0, 10, 0, 0, 0]
        ([10, 0, 0, 0, 65, 0, 10, 0, 0, 0] ++ List.replicate 54 0) pos =
        if pos + 6 < 2147483648 then
          .next ([10, 0, 0, 0, 65, 0, 10, 0, 0, 0] ++ List.replicate 54 0) (pos + 6)
            { _name := [65], _offset := 10, _size := 0 }
        else .undefined := by
      unfold openStep
      rw [hread]
      rfl
    unfold openLoop
    rw [hstep]
    by_cases hlt : pos + 6 < 2147483648
    · rw [if_pos hlt]
      exact ih (pos + 6) _ (by omega)
    · rw [if_neg hlt]
      exact Or.inr rfl

/-- C16, the code at a failing input. The stream holds one record, offset 0 and name
"A", followed by the offset 10 and nothing else; the local buffer starts zeroed. For no
amount of fuel does `PakFile::open` return: after the first record every read past
the end of the stream leaves the name "A" in the buffer and the loop parses it again. -/
theorem open_truncated_never_returns :
    ¬ ∃ (fuel : Nat) (pak : PakFile),
      PakFile.open 13 PakFile.new [0, 0, 0, 0, 65, 0, 10, 0, 0, 0] [112]
        (List.replicate 64 0) fuel = .done pak := by
  rintro ⟨fuel, pak, h⟩
  rcases fuel with _ | _ | n
  · cases h
  · have h1 : PakFile.open 13 PakFile.new [0, 0, 0, 0, 65, 0, 10, 0, 0, 0] [112]
        (List.replicate 64 0) (0 + 1) = .outOfFuel := by decide
    rw [h1] at h
    cases h
  · have h2 : PakFile.open 13 PakFile.new [0, 0, 0, 0, 65, 0, 10, 0, 0, 0] [112]
        (List.replicate 64 0) (n + 1 + 1) =
        openLoop 13 [0, 0, 0, 0, 65, 0, 10, 0, 0, 0] n
          ([10, 0, 0, 0, 65, 0, 10, 0, 0, 0] ++ List.replicate 54 0) 12
          { _packName := [112], _numFiles := 2,
            _files := [⟨[65], 0, 10⟩, ⟨[65], 10, 0⟩] } := rfl
    rw [h2] at h
    rcases openLoop_stale n 12 _ (by decide) with h' | h' <;> rw [h'] at h <;> cases h

end Toon

namespace Nuvie

/-! # Properties of the spell book gump -/

/-- The loop of `getSpell`, started at an index `i ≤ 16` with fuel for the remaining
indices, returns `-1` or the spell it looks for, the latter only when the spell is an
entry `k < 16` of `cur_spells` with no `-1` among the entries from `i` to `k`. -/
theorem getSpellLoop_spec (cur_spells : Nat → Int) (spell : Int) (fuel : Nat) :
    ∀ (i : Nat), i ≤ 16 → 17 ≤ i + fuel →
      ∃ r, getSpellLoop cur_spells spell fuel i = some r ∧
        (r = -1 ∨ (r = spell ∧ ∃ k, i ≤ k ∧ k < 16 ∧ cur_spells k = spell ∧
          ∀ j, i ≤ j → j ≤ k → cur_spells j ≠ -1)) := by
  induction fuel with
  | zero => intro i hi hf; omega
  | succ n ih =>
    intro i hi hf
    unfold getSpellLoop
    by_cases hc : cur_spells i ≠ -1 ∧ i < 16
    · rw [if_pos hc]
      by_cases hs : cur_spells i = spell
      · rw [if_pos hs]
        refine ⟨spell, rfl, Or.inr ⟨rfl, i, le_rfl, hc.2, hs, ?_⟩⟩
        intro j h1 h2
        have : j = i := by omega
        subst this
        exact hc.1
      · rw [if_neg hs]
        obtain ⟨r, hr, hprop⟩ := ih (i + 1) (by omega) (by omega)
        refine ⟨r, hr, ?_⟩
        rcases hprop with h | ⟨h, k, hk1, hk2, hk3, hk4⟩
        · exact Or.inl h
        · refine Or.inr ⟨h, k, by omega, hk2, hk3, ?_⟩
          intro j h1 h2
          by_cases hji : j = i
          · subst hji
            exact hc.1
          · exact hk4 j (by omega) h2
    · rw [if_neg hc]
      exact ⟨-1, rfl, Or.inl rfl⟩

/-- C20. Hit-testing of `SpellViewGump::getSpell` agrees with the layout. For every
level from 1 to 8, every content of `cur_spells` and every click `(x, y)`, with
`localx = x - area.left + 3` and `localy = y - area.top + 3`: the call returns a value
`r`; `r = -1` when `localy < 21`, `localy > 88`, `localx < 28` or `localx > 148`;
otherwise `r` is `-1` or an entry of `cur_spells` before its first `-1` entry such that
`s = r - (level - 1) * 16` lies in `0..9`, `s % 5 = (localy - 20) / 14`, and `s ≥ 5`
exactly when `localx ≥ 89`. In the latter case the image that `fill_cur_spell_list`
draws for `r` and the mark that `Display` draws for `r` are in the clicked column (left
edge 25 resp. 88, mark at 75 resp. 136) and in the clicked row. -/
theorem getSpell_agrees_with_layout (areaLeft areaTop level : Int) (cur_spells : Nat → Int)
    (x y : Int) (hlevel : 1 ≤ level ∧ level ≤ 8) :
    ∃ r, getSpell areaLeft areaTop level cur_spells x y = some r ∧
      ((y - areaTop + 3 < 21 ∨ y - areaTop + 3 > 88 ∨ x - areaLeft + 3 < 28 ∨
          x - areaLeft + 3 > 148) → r = -1) ∧
      (¬ (y - areaTop + 3 < 21 ∨ y - areaTop + 3 > 88 ∨ x - areaLeft + 3 < 28 ∨
          x - areaLeft + 3 > 148) →
        r = -1 ∨
          ((∃ k, k < 16 ∧ cur_spells k = r ∧ ∀ j, j ≤ k → cur_spells j ≠ -1) ∧
            0 ≤ r - (level - 1) * 16 ∧ r - (level - 1) * 16 ≤ 9 ∧
            (r - (level - 1) * 16) % 5 = Int.tdiv (y - areaTop + 3 - 20) 14 ∧
            (5 ≤ r - (level - 1) * 16 ↔ 89 ≤ x - areaLeft + 3) ∧
            spellImagePos level r =
              (if 89 ≤ x - areaLeft + 3 then 88 else 25,
                18 + Int.tdiv (y - areaTop + 3 - 20) 14 * 14) ∧
            selectionMarkPos r =
              (if 89 ≤ x - areaLeft + 3 then 136 else 75,
                18 + 7 + Int.tdiv (y - areaTop + 3 - 20) 14 * 14))) := by
  obtain ⟨hl1, hl2⟩ := hlevel
  unfold getSpell
  simp only
  by_cases hout : y - areaTop + 3 < 21 ∨ y - areaTop + 3 > 88 ∨ x - areaLeft + 3 < 28 ∨
      x - areaLeft + 3 > 148
  · rw [if_pos hout]
    exact ⟨-1, rfl, fun _ => rfl, fun h => absurd hout h⟩
  · rw [if_neg hout]
    have hy1 : 21 ≤ y - areaTop + 3 := by omega
    have hy2 : y - areaTop + 3 ≤ 88 := by omega
    have hx1 : 28 ≤ x - areaLeft + 3 := by omega
    have hx2 : x - areaLeft + 3 ≤ 148 := by omega
    have hdiv : Int.tdiv (y - areaTop + 3 - 20) 14 = (y - areaTop + 3 - 20) / 14 :=
      Int.tdiv_eq_ediv (by omega) (by decide)
    obtain ⟨r, hr, hprop⟩ := getSpellLoop_spec cur_spells
      (toUint8 ((if x - areaLeft + 3 ≥ 89 then toUint8 (toUint8 ((level - 1) * 16) + 5)
        else toUint8 ((level - 1) * 16)) + Int.tdiv (y - areaTop + 3 - 20) 14))
      17 0 (by omega) (by omega)
    refine ⟨r, hr, fun h => absurd h hout, fun _ => ?_⟩
    rcases hprop with h | ⟨h, k, _, hk2, hk3, hk4⟩
    · exact Or.inl h
    · right
      have hrval : r = (level - 1) * 16 + (if 89 ≤ x - areaLeft + 3 then 5 else 0) +
          (y - areaTop + 3 - 20) / 14 := by
        rw [h, hdiv]
        unfold toUint8
        split <;> omega
      refine ⟨⟨k, hk2, by rw [hk3, h], fun j hj => hk4 j (Nat.zero_le _) hj⟩, ?_, ?_, ?_, ?_,
        ?_, ?_⟩
      · rw [hrval]
        split <;> omega
      · rw [hrval]
        split <;> omega
      · rw [hdiv, hrval]
        split <;> omega
      · rw [hrval]
        split <;> omega
      · unfold spellImagePos toUint8
        rw [hdiv, hrval]
        by_cases hcol : 89 ≤ x - areaLeft + 3
        · simp only [hcol, if_true]
          refine Prod.ext ?_ ?_
          · simp only
            rw [if_neg (by omega)]
          · simp only
            omega
        · simp only [hcol, if_false]
          refine Prod.ext ?_ ?_
          · simp only
            rw [if_pos (by omega)]
          · simp only
            omega
      · have hnn : ¬ r < 0 := by
          rw [hrval]
          split <;> omega
        unfold selectionMarkPos
        rw [if_neg hnn, hdiv, hrval]
        by_cases hcol : 89 ≤ x - areaLeft + 3
        · simp only [hcol, if_true]
          refine Prod.ext ?_ ?_
          · simp only
            rw [if_neg (by omega)]
          · simp only
            omega
        · simp only [hcol, if_false]
          refine Prod.ext ?_ ?_
          · simp only
            rw [if_pos (by omega)]
          · simp only
            omega

/-- C20, witness. Level 2, page entries 16, 17, 21, 25, gump corner at (100, 50). The
click (190, 72) gives `localx = 93`, `localy = 25`: right column, first row, spell
`16 + 5 + 0 = 21`, which is on the page. The click (190, 100) gives `localy = 53`: third
row, spell 23, which is not on the page, so the result is `-1`. -/
theorem getSpell_agrees_with_layout_witness :
    getSpell 100 50 2 (fun i => [16, 17, 21, 25].getD i (-1)) 190 72 = some 21 ∧
    getSpell 100 50 2 (fun i => [16, 17, 21, 25].getD i (-1)) 190 100 = some (-1) ∧
    spellImagePos 2 21 = (88, 18) ∧
    ∃ r, getSpell 100 50 2 (fun i => [16, 17, 21, 25].getD i (-1)) 190 72 = some r ∧
      (r = -1 ∨ (5 ≤ r - (2 - 1) * 16 ↔ (89 : Int) ≤ 190 - 100 + 3)) := by
  refine ⟨by decide, by decide, by decide, ?_⟩
  obtain ⟨r, h1, _, h3⟩ := getSpell_agrees_with_layout 100 50 2
    (fun i => [16, 17, 21, 25].getD i (-1)) 190 72 ⟨by decide, by decide⟩
  refine ⟨r, h1, ?_⟩
  rcases h3 (by decide) with h | ⟨_, _, _, _, h5, _⟩
  · exact Or.inl h
  · exact Or.inr h5

end Nuvie
